import Mathlib

/-!
# Remmina main window: catalog filter, group attachment and selection restore

A shallow embedding of the catalog part of `src/remmina_main.c`.

* C strings are NUL-terminated byte arrays; they are embedded as lists of
  byte values (`Nat`), a nullable `gchar *` as `Option CStr`.
* A `GtkTreeStore`/`GtkListStore` is embedded as a forest of rows, a
  `GtkTreeIter` as the path (child indices from the top level) of a row.
* The glib/libc string helpers the file calls (`g_ascii_strdown`, `strstr`,
  `g_strsplit`, `g_strcmp0`) are embedded after their documented behaviour.
-/

namespace Remmina

/-! ## C strings and the glib helpers -/

/-- A C string: the bytes before the terminating NUL. -/
abbrev CStr := List Nat

/-- The bytes of an ASCII literal. -/
def cstr (s : String) : CStr := s.data.map Char.toNat

/-- The comma, the separator of label tokens. -/
def comma : Nat := 44

/-- `g_ascii_tolower`: only the bytes 'A'..'Z' are changed. -/
def g_ascii_tolower (c : Nat) : Nat :=
  if 65 ≤ c ∧ c ≤ 90 then c + 32 else c

/-- `g_ascii_strdown (s, -1)`. -/
def g_ascii_strdown (s : CStr) : CStr := s.map g_ascii_tolower

/-- Whether the needle starts the haystack. -/
def startsWith : CStr → CStr → Bool
  | _, [] => true
  | [], _ :: _ => false
  | h :: hs, n :: ns => h == n && startsWith hs ns

/-- The truth value of `strstr (haystack, needle)`: the needle occurs at some
offset of the haystack (an empty needle occurs at offset 0). -/
def strstr : CStr → CStr → Bool
  | [], needle => startsWith [] needle
  | h :: hs, needle => startsWith (h :: hs) needle || strstr hs needle

/-- Splitting of a string at every delimiter byte; a string with n delimiters
gives n + 1 tokens. -/
def splitAt (d : Nat) : CStr → List CStr
  | [] => [[]]
  | c :: cs =>
    if c = d then [] :: splitAt d cs
    else match splitAt d cs with
      | t :: ts => (c :: t) :: ts
      | [] => [[c]]

/-- `g_strsplit (s, ",", -1)`: the empty string gives the empty vector, any
other string its tokens. -/
def g_strsplit (s : CStr) : List CStr :=
  if s = [] then [] else splitAt comma s

/-- `strcmp`, as a sign. -/
def strcmp : CStr → CStr → Int
  | [], [] => 0
  | [], _ :: _ => -1
  | _ :: _, [] => 1
  | a :: as, b :: bs => if a < b then -1 else if b < a then 1 else strcmp as bs

/-- `g_strcmp0`: `strcmp` that accepts NULL, which sorts before any string. -/
def g_strcmp0 : Option CStr → Option CStr → Int
  | none, none => 0
  | none, some _ => -1
  | some _, none => 1
  | some a, some b => strcmp a b

/-! ## Rows of the file model -/

/-- One row of the file model: the string columns of the `enum` at the top of
the file (`PROTOCOL_COLUMN` .. `STATUS_COLUMN`); an unset column reads NULL. -/
structure Row where
  protocol : Option CStr
  name : Option CStr
  group : Option CStr
  server : Option CStr
  plugin : Option CStr
  date : Option CStr
  filename : Option CStr
  labels : Option CStr
  notes : Option CStr
  status : Option CStr
  deriving DecidableEq, Repr

/-- The icon name that marks a folder row. -/
def folder_symbolic : CStr := cstr "folder-symbolic"

/-! ## The filter predicate -/

/-- The inner loop of the label filter (`for l`): some non-empty label token
contains the query token. -/
def labels_loop (t : CStr) : List CStr → Bool
  | [] => false
  | l :: ls =>
    if l.length = 0 then labels_loop t ls
    else if strstr l t then true
    else labels_loop t ls

/-- The outer loop of the label filter (`for t`): empty query tokens are
skipped, the loop stops at the first query token no label contains. -/
def text_loop (labels_array : List CStr) : List CStr → Bool
  | [] => true
  | t :: ts =>
    if t.length = 0 then text_loop labels_array ts
    else if labels_loop t labels_array then text_loop labels_array ts
    else false

/-- `remmina_main_filter_visible_func`; `entry_text` is the text of the
quick-connect entry, which GTK never returns as NULL. -/
def remmina_main_filter_visible_func (entry_text : CStr) (row : Row) : Bool :=
  let text := g_ascii_strdown entry_text
  if text ≠ [] then
    if g_strcmp0 row.protocol (some folder_symbolic) ≠ 0 then
      let name := g_ascii_strdown (row.name.getD [])
      let group := g_ascii_strdown (row.group.getD [])
      let server := g_ascii_strdown (row.server.getD [])
      let plugin := g_ascii_strdown (row.plugin.getD [])
      let date := g_ascii_strdown (row.date.getD [])
      let result := strstr name text || strstr group text || strstr server text
        || strstr plugin text || strstr date text
      let labels := g_ascii_strdown (row.labels.getD [])
      if labels.length > 0 then
        let labels_array := g_strsplit labels
        let text_array := g_strsplit text
        let labels_result := text_loop labels_array text_array
        result || labels_result
      else result
    else true
  else true

/-! ## The group hierarchy and the tree store -/

/-- `RemminaGroupData`, the payload of a node of the group hierarchy: the
four fields the traversal reads. -/
structure RemminaGroupData where
  name : Option CStr
  group : Option CStr
  datetime : Option CStr
  labels : Option CStr
  deriving DecidableEq, Repr

/-- `GNode`: a node of the group hierarchy supplied by the file manager; the
root carries no data. -/
inductive GNode where
  | mk (data : Option RemminaGroupData) (children : List GNode)

/-- A row of a `GtkTreeStore` together with its child rows. -/
inductive TreeNode where
  | mk (row : Row) (children : List TreeNode)

/-- The row of a node. -/
def TreeNode.row : TreeNode → Row
  | .mk row _ => row

/-- The child rows of a node. -/
def TreeNode.children : TreeNode → List TreeNode
  | .mk _ children => children

/-- A `GtkTreeStore`: its top-level rows. -/
abbrev TreeStore := List TreeNode

/-- A `GtkTreeIter` (equally a `GtkTreePath`): the child indices leading from
the top level to a row. -/
abbrev TreeIter := List Nat

/-- Appending a row as the last child of the row at `parent`; the empty path
stands for the top level. Gives the new store and the path of the new row. -/
def appendUnder : TreeStore → List Nat → Row → TreeStore × TreeIter
  | s, [], r => (s ++ [.mk r []], [s.length])
  | s, i :: p, r =>
    match s[i]? with
    | none => (s, [])
    | some (.mk row ch) =>
      let res := appendUnder ch p r
      (s.set i (.mk row res.1), i :: res.2)

/-- `gtk_tree_store_append` followed by `gtk_tree_store_set`: a new row, with
the given columns, is appended after the last child of `parent`, or at the
top level when `parent` is NULL. -/
def gtk_tree_store_append (store : TreeStore) (parent : Option TreeIter) (row : Row) :
    TreeStore × TreeIter :=
  appendUnder store (parent.getD []) row

/-- `gtk_tree_model_get_iter_first`: the first top-level row, if there is
one. -/
def gtk_tree_model_get_iter_first (store : TreeStore) : Option TreeIter :=
  match store with
  | [] => none
  | _ :: _ => some [0]

/-- The node at a path. -/
def nodeAt : TreeStore → List Nat → Option TreeNode
  | _, [] => none
  | s, [i] => s[i]?
  | s, i :: j :: p =>
    match s[i]? with
    | none => none
    | some (.mk _ ch) => nodeAt ch (j :: p)

/-- The columns `remmina_main_load_file_tree_traverse` sets on a folder row;
the columns it does not set stay NULL. -/
def folder_row (data : RemminaGroupData) : Row :=
  { protocol := some folder_symbolic, name := data.name, group := data.group,
    server := none, plugin := none, date := data.datetime, filename := none,
    labels := data.labels, notes := none, status := none }

mutual
/-- `remmina_main_load_file_tree_traverse`: a node with data gets a folder row
under `parent`, and its children are traversed with that row as their parent;
the children of a node without data are traversed with a NULL parent. -/
def remmina_main_load_file_tree_traverse : GNode → TreeStore → Option TreeIter → TreeStore
  | .mk data children, store, parent =>
    match data with
    | some d =>
      let res := gtk_tree_store_append store parent (folder_row d)
      load_file_tree_traverse_children children res.1 (some res.2)
    | none => load_file_tree_traverse_children children store none
/-- The `for (child = ...)` loop of `remmina_main_load_file_tree_traverse`. -/
def load_file_tree_traverse_children : List GNode → TreeStore → Option TreeIter → TreeStore
  | [], store, _ => store
  | child :: rest, store, iter =>
    load_file_tree_traverse_children rest
      (remmina_main_load_file_tree_traverse child store iter) iter
end

/-- `remmina_main_load_file_tree_group`; `root` is the hierarchy that
`remmina_file_manager_get_group_tree` supplies. -/
def remmina_main_load_file_tree_group (root : GNode) (store : TreeStore) : TreeStore :=
  remmina_main_load_file_tree_traverse root store none

mutual
/-- One turn of the `while` loop of `remmina_main_load_file_tree_find` at a
row: the row matches when its filename is NULL and its group column equals
`match_group`; otherwise its children are searched. The result is the path
from this row to the match. -/
def load_file_tree_find_row (match_group : Option CStr) : TreeNode → Option TreeIter
  | .mk row children =>
    if row.filename = none ∧ g_strcmp0 row.group match_group = 0 then some []
    else load_file_tree_find_from match_group 0 children
/-- `remmina_main_load_file_tree_find` started at the row of index `i` among
its siblings, `rows` being that row and its next siblings: the loop moves to
the next sibling until a row or one of its descendants matches. -/
def load_file_tree_find_from (match_group : Option CStr) (i : Nat) :
    List TreeNode → Option TreeIter
  | [] => none
  | n :: ns =>
    match load_file_tree_find_row match_group n with
    | some p => some (i :: p)
    | none => load_file_tree_find_from match_group (i + 1) ns
end

/-- `remmina_main_load_file_tree_find` called on the first row of the store,
as `remmina_main_load_file_tree_callback` does; `none` is the result FALSE,
`some iter` the result TRUE with `iter` moved to the match. -/
def remmina_main_load_file_tree_find (tree : TreeStore) (match_group : Option CStr) :
    Option TreeIter :=
  load_file_tree_find_from match_group 0 tree

/-! ## Profiles and their rows -/

/-- What the row builders read from a `RemminaFile`: its filename, and the
results of `remmina_file_get_icon_name`, `remmina_file_get_datetime`,
`remmina_file_get_string` for each key, the notes after
`g_uri_unescape_string`. -/
structure RemminaFile where
  filename : Option CStr
  icon_name : Option CStr
  name : Option CStr
  notes : Option CStr
  group : Option CStr
  server : Option CStr
  protocol : Option CStr
  datetime : Option CStr
  labels : Option CStr
  deriving DecidableEq, Repr

/-- The `network_states` hash table: the recorded state of each filename. -/
abbrev NetworkStates := List (CStr × Option CStr)

/-- `g_hash_table_contains`. -/
def g_hash_table_contains (t : NetworkStates) (key : Option CStr) : Bool :=
  match key with
  | none => false
  | some k => t.any (fun e => e.1 == k)

/-- `g_hash_table_lookup`: NULL when the key is absent. -/
def g_hash_table_lookup (t : NetworkStates) (key : Option CStr) : Option CStr :=
  match key with
  | none => none
  | some k => (t.find? (fun e => e.1 == k)).bind (fun e => e.2)

/-- The status icon both row builders compute. -/
def status_icon (status_check : Bool) (network_states : NetworkStates)
    (remminafile : RemminaFile) : CStr :=
  if status_check then
    if g_hash_table_contains network_states remminafile.filename then
      match g_hash_table_lookup network_states remminafile.filename with
      | some result =>
        if startsWith result (cstr "Yes") then cstr "org.remmina.Remmina-status-green"
        else if startsWith result (cstr "No") then cstr "org.remmina.Remmina-status-red"
        else cstr "org.remmina.Remmina-status-grey"
      | none => cstr "org.remmina.Remmina-status-grey"
    else cstr "org.remmina.Remmina-status-grey"
  else []

/-- The columns both row builders set on a profile row. -/
def profile_row (remminafile : RemminaFile) (status : CStr) : Row :=
  { protocol := remminafile.icon_name, name := remminafile.name, notes := remminafile.notes,
    group := remminafile.group, server := remminafile.server, plugin := remminafile.protocol,
    date := remminafile.datetime, filename := remminafile.filename,
    labels := remminafile.labels, status := some status }

/-- `remmina_main_load_file_list_callback`: the profile row is appended to the
list store. -/
def remmina_main_load_file_list_callback (status_check : Bool) (network_states : NetworkStates)
    (remminafile : RemminaFile) (store : List Row) : List Row :=
  store ++ [profile_row remminafile (status_icon status_check network_states remminafile)]

/-- `remmina_main_load_file_tree_callback`: the profile row is appended under
the row the group search finds, or at the top level when it finds none or the
store is empty. -/
def remmina_main_load_file_tree_callback (status_check : Bool) (network_states : NetworkStates)
    (remminafile : RemminaFile) (store : TreeStore) : TreeStore :=
  let found : Option TreeIter :=
    match gtk_tree_model_get_iter_first store with
    | some _ => remmina_main_load_file_tree_find store remminafile.group
    | none => none
  (gtk_tree_store_append store found
    (profile_row remminafile (status_icon status_check network_states remminafile))).1

/-- Modelled from the spec: `remmina_file_manager_iterate` of the file manager,
which is not among the source files. The Profile Store enumerates the profile
records: the callback runs once per enumerated profile, in enumeration order,
and the result is the number of profiles, which the caller shows as the
total number of connections found. -/
def remmina_file_manager_iterate {σ : Type} (files : List RemminaFile)
    (func : RemminaFile → σ → σ) (data : σ) : σ × Nat :=
  (files.foldl (fun store f => func f store) data, files.length)

/-! ## The filtered and sorted view -/

/-- The file model: a `GtkListStore` in list layout, a `GtkTreeStore` in tree
layout. -/
inductive FileModel where
  | list_store (rows : List Row)
  | tree_store (rows : TreeStore)

/-- The rows of a file model as a forest; the rows of a list store have no
children. -/
def FileModel.forest : FileModel → List TreeNode
  | .list_store rows => rows.map (fun r => TreeNode.mk r [])
  | .tree_store rows => rows

/-- `GTK_IS_TREE_STORE`, false on NULL. -/
def GTK_IS_TREE_STORE : Option FileModel → Bool
  | some (.tree_store _) => true
  | _ => false

mutual
/-- `GtkTreeModelFilter` at one row: a row the visible function rejects is
left out together with its descendants. -/
def tree_model_filter_row (visible : Row → Bool) : TreeNode → List TreeNode
  | .mk row children =>
    if visible row then [.mk row (gtk_tree_model_filter visible children)] else []
/-- `GtkTreeModelFilter` with a visible function: the rows of the child model
that the function accepts, in the order of the child model. -/
def gtk_tree_model_filter (visible : Row → Bool) : List TreeNode → List TreeNode
  | [] => []
  | n :: ns => tree_model_filter_row visible n ++ gtk_tree_model_filter visible ns
end

/-- Insertion of a row before the first sibling it does not sort after. -/
def sort_insert (le : Row → Row → Bool) (x : TreeNode) : List TreeNode → List TreeNode
  | [] => [x]
  | y :: ys => if le x.row y.row then x :: y :: ys else y :: sort_insert le x ys

mutual
/-- `GtkTreeModelSort` at one row: its children are sorted. -/
def tree_model_sort_row (le : Row → Row → Bool) : TreeNode → TreeNode
  | .mk row children => .mk row (gtk_tree_model_sort le children)
/-- `GtkTreeModelSort`: the siblings of every level in the order of `le`, the
comparison of the sort column and direction; equal rows keep their order. -/
def gtk_tree_model_sort (le : Row → Row → Bool) : List TreeNode → List TreeNode
  | [] => []
  | n :: ns => sort_insert le (tree_model_sort_row le n) (gtk_tree_model_sort le ns)
end

/-! ## Selection and expansion restore -/

/-- The `while (TRUE)` loop of `remmina_main_select_file` at the top-level row
of index `i`: the row is selected when its filename equals `filename`,
otherwise `gtk_tree_model_iter_next` moves to its next sibling. -/
def select_file_from (filename : Option CStr) (i : Nat) : List TreeNode → Option TreeIter
  | [] => none
  | n :: ns =>
    if g_strcmp0 n.row.filename filename = 0 then some [i]
    else select_file_from filename (i + 1) ns

/-- `remmina_main_select_file` on the rows of `file_model_sort`: the path
given to `gtk_tree_selection_select_iter`, or `none` when the function
returns without selecting. -/
def remmina_main_select_file (file_model_sort : List TreeNode) (filename : Option CStr) :
    Option TreeIter :=
  match gtk_tree_model_get_iter_first file_model_sort with
  | none => none
  | some _ => select_file_from filename 0 file_model_sort

/-- `remmina_string_array_find`: the index of the first element equal to the
string, or -1. -/
def remmina_string_array_find (array : List CStr) (str : Option CStr) : Int :=
  match str with
  | none => -1
  | some s =>
    match array.indexOf? s with
    | some i => (i : Int)
    | none => -1

/-- Whether the proper ancestors of the row at `path` are all expanded. -/
def ancestors_expanded (expanded : List TreeIter) (path : TreeIter) : Bool :=
  (List.range path.length).all (fun k => k = 0 || expanded.contains (path.take k))

/-- `gtk_tree_view_expand_row (view, path, FALSE)` on a row with or without
children: only a row that has children and whose ancestors are expanded can
be expanded. -/
def gtk_tree_view_expand_row (expanded : List TreeIter) (path : TreeIter)
    (has_child : Bool) : List TreeIter :=
  if has_child && ancestors_expanded expanded path && !expanded.contains path
  then expanded ++ [path] else expanded

mutual
/-- One turn of the `while` loop of `remmina_main_expand_group_traverse` at the
row of path `base ++ [i]`. -/
def expand_group_traverse_row (expanded_group : List CStr) (base : List Nat) (i : Nat) :
    TreeNode → List TreeIter → List TreeIter
  | .mk row children, expanded =>
    if row.filename = none then
      let expanded1 :=
        if remmina_string_array_find expanded_group row.group ≥ 0
        then gtk_tree_view_expand_row expanded (base ++ [i]) (!children.isEmpty)
        else expanded
      expand_group_traverse_from expanded_group (base ++ [i]) 0 children expanded1
    else expanded
/-- `remmina_main_expand_group_traverse` started at the row of index `i` under
`base`, `rows` being that row and its next siblings. -/
def expand_group_traverse_from (expanded_group : List CStr) (base : List Nat) (i : Nat) :
    List TreeNode → List TreeIter → List TreeIter
  | [], expanded => expanded
  | n :: ns, expanded =>
    expand_group_traverse_from expanded_group base (i + 1) ns
      (expand_group_traverse_row expanded_group base i n expanded)
end

/-- `remmina_main_expand_group`: the expanded rows of the tree view after the
traversal of `file_model_sort`. -/
def remmina_main_expand_group (expanded_group : List CStr) (file_model_sort : List TreeNode)
    (expanded : List TreeIter) : List TreeIter :=
  expand_group_traverse_from expanded_group [] 0 file_model_sort expanded

mutual
/-- `gtk_tree_view_map_expanded_rows` with `remmina_main_save_expanded_group_func`
at the row of path `base ++ [i]`: the group of an expanded row is added when
it is not NULL, and only an expanded row is descended into. -/
def save_expanded_group_row (expanded : List TreeIter) (base : List Nat) (i : Nat) :
    TreeNode → List CStr → List CStr
  | .mk row children, acc =>
    if expanded.contains (base ++ [i]) then
      let acc1 := match row.group with
        | some group => acc ++ [group]
        | none => acc
      save_expanded_group_from expanded (base ++ [i]) 0 children acc1
    else acc
/-- The same over a row and its next siblings. -/
def save_expanded_group_from (expanded : List TreeIter) (base : List Nat) (i : Nat) :
    List TreeNode → List CStr → List CStr
  | [], acc => acc
  | n :: ns, acc =>
    save_expanded_group_from expanded base (i + 1) ns
      (save_expanded_group_row expanded base i n acc)
end

/-! ## The main window state and the full reload -/

/-- `REMMINA_VIEW_FILE_LIST`, the first value of the view mode enumeration. -/
def REMMINA_VIEW_FILE_LIST : Int := 0

/-- `REMMINA_VIEW_FILE_TREE`, the second value of the view mode enumeration. -/
def REMMINA_VIEW_FILE_TREE : Int := 1

/-- The fields of `remmina_pref` the catalog reads and writes. -/
structure RemminaPref where
  view_file_mode : Int
  main_sort_column_id : Int
  main_sort_order : Int
  status_check : Bool
  always_show_notes : Bool
  deriving DecidableEq, Repr

/-- A message of the status bar. -/
inductive StatusMessage where
  | selected (name : Option CStr) (filename : Option CStr)
  | total (items_count : Nat)
  deriving DecidableEq, Repr

/-- The main window context `remminamain` with its `priv` part, and the state
of its widgets as far as the catalog reads it back: the text of the search
entry, the toggle button, the visibility of two columns, the expanded and the
selected rows of the tree view, and the message stack of the status bar. -/
structure RemminaMain where
  window : Bool
  file_model : Option FileModel
  file_model_filter : List TreeNode
  file_model_sort : List TreeNode
  sort_column_id : Int
  sort_order : Int
  selected_filename : Option CStr
  selected_name : Option CStr
  override_view_file_mode_to_list : Bool
  expanded_group : List CStr
  network_states : NetworkStates
  entry_quick_connect_server : CStr
  view_toggle_button : Bool
  column_files_list_group : Bool
  column_files_list_notes : Bool
  expanded_rows : List TreeIter
  selection : List TreeIter
  statusbar_main : List StatusMessage

/-- What the file manager supplies to a reload: the enumerated profiles and
the group hierarchy. -/
structure FileManager where
  files : List RemminaFile
  group_tree : GNode

/-- `remmina_main_save_expanded_group`: in tree layout the expanded-group
array is rebuilt from the expanded rows of the view; otherwise nothing
changes. -/
def remmina_main_save_expanded_group (m : RemminaMain) : RemminaMain :=
  if GTK_IS_TREE_STORE m.file_model then
    { m with expanded_group := save_expanded_group_from m.expanded_rows [] 0 m.file_model_sort [] }
  else m

/-- `remmina_main_selection_func`, the select function of the tree view. -/
def remmina_main_selection_func (m : RemminaMain) (model : List TreeNode) (path : TreeIter)
    (path_currently_selected : Bool) : RemminaMain :=
  if path_currently_selected then m
  else
    match nodeAt model path with
    | none => m
    | some n =>
      { m with
        selected_name := n.row.name
        selected_filename := n.row.filename
        statusbar_main :=
          StatusMessage.selected n.row.name n.row.filename :: m.statusbar_main.tail }

/-- The new model of `remmina_main_load_files` (the second `switch`), with the
visibility of the group column and the item count. -/
def load_files_newmodel (fm : FileManager) (status_check : Bool)
    (network_states : NetworkStates) (view_file_mode : Int) : FileModel × Bool × Nat :=
  if view_file_mode = REMMINA_VIEW_FILE_TREE then
    let res := remmina_file_manager_iterate fm.files
      (remmina_main_load_file_tree_callback status_check network_states)
      (remmina_main_load_file_tree_group fm.group_tree [])
    (FileModel.tree_store res.1, false, res.2)
  else
    let res := remmina_file_manager_iterate fm.files
      (remmina_main_load_file_list_callback status_check network_states) []
    (FileModel.list_store res.1, true, res.2)

/-- `remmina_main_load_files`. `sort_le column order` is the comparison the
sort model applies for a sort column and direction. -/
def remmina_main_load_files (fm : FileManager) (sort_le : Int → Int → Row → Row → Bool)
    (pref : RemminaPref) (m0 : RemminaMain) : RemminaMain :=
  let save_selected_filename := m0.selected_filename
  let m1 := remmina_main_save_expanded_group m0
  let view_file_mode :=
    if m1.override_view_file_mode_to_list then REMMINA_VIEW_FILE_LIST else pref.view_file_mode
  let toggle := if pref.view_file_mode = REMMINA_VIEW_FILE_TREE then false else true
  let built := load_files_newmodel fm pref.status_check m1.network_states view_file_mode
  let newmodel := built.1
  let items_count := built.2.2
  let file_model_filter :=
    gtk_tree_model_filter (remmina_main_filter_visible_func m1.entry_quick_connect_server)
      newmodel.forest
  let file_model_sort :=
    gtk_tree_model_sort (sort_le pref.main_sort_column_id pref.main_sort_order) file_model_filter
  let m2 : RemminaMain :=
    { m1 with
      view_toggle_button := toggle
      column_files_list_group := built.2.1
      column_files_list_notes :=
        if pref.always_show_notes then m1.column_files_list_notes else false
      file_model := some newmodel
      file_model_filter := file_model_filter
      file_model_sort := file_model_sort
      sort_column_id := pref.main_sort_column_id
      sort_order := pref.main_sort_order
      selection := []
      expanded_rows := remmina_main_expand_group m1.expanded_group file_model_sort [] }
  let m3 : RemminaMain :=
    match save_selected_filename with
    | some filename =>
      match remmina_main_select_file file_model_sort (some filename) with
      | some iter =>
        { remmina_main_selection_func m2 file_model_sort iter false with selection := [iter] }
      | none => m2
    | none => m2
  { m3 with statusbar_main := StatusMessage.total items_count :: m3.statusbar_main.tail }

/-! ## Pre-order and the group search as the specification words it -/

mutual
/-- The rows of a node in pre-order, each with its path from the node. -/
def preorder_row : TreeNode → List (TreeIter × Row)
  | .mk row children => ([], row) :: preorder_from 0 children
/-- The rows of a list of siblings and their descendants in pre-order, the
first sibling having index `i`. -/
def preorder_from (i : Nat) : List TreeNode → List (TreeIter × Row)
  | [] => []
  | n :: ns => (preorder_row n).map (fun e => (i :: e.1, e.2)) ++ preorder_from (i + 1) ns
end

/-- All rows of a store in pre-order, each with its path. -/
def preorder (store : List TreeNode) : List (TreeIter × Row) := preorder_from 0 store

/-- A row without filename (a folder row) whose group column equals the
group. -/
def folder_group_matches (group : Option CStr) (row : Row) : Bool :=
  decide (row.filename = none ∧ row.group = group)

/-- A row without filename (a folder row) whose name column equals the
group. -/
def folder_name_matches (group : Option CStr) (row : Row) : Bool :=
  decide (row.filename = none ∧ row.name = group)

/-- The first folder row in pre-order whose group column equals the group. -/
def first_folder_by_group (store : TreeStore) (group : Option CStr) : Option TreeIter :=
  ((preorder store).find? (fun e => folder_group_matches group e.2)).map Prod.fst

/-- Spec: the first folder row in pre-order whose name equals the group. -/
def first_folder_by_name (store : TreeStore) (group : Option CStr) : Option TreeIter :=
  ((preorder store).find? (fun e => folder_name_matches group e.2)).map Prod.fst

/-! ## The filter predicate as the specification words it -/

/-- The five text columns the whole query is searched in. -/
def textFields (row : Row) : List (Option CStr) :=
  [row.name, row.group, row.server, row.plugin, row.date]

/-- Spec: the case-folded query is a substring of one of the case-folded
text fields (a NULL field reads as the empty string). -/
def substringMatch (query : CStr) (row : Row) : Prop :=
  ∃ f ∈ textFields row, g_ascii_strdown query <:+: g_ascii_strdown (f.getD [])

/-- Spec: every non-empty comma-separated token of the query is a substring
of at least one comma-separated token of the labels. -/
def labelMatch (query : CStr) (row : Row) : Prop :=
  ∀ t ∈ List.splitOn comma (g_ascii_strdown query), t ≠ [] →
    ∃ l ∈ List.splitOn comma (g_ascii_strdown (row.labels.getD [])), t <:+: l

instance (query : CStr) (row : Row) : Decidable (substringMatch query row) := by
  unfold substringMatch; infer_instance

instance (query : CStr) (row : Row) : Decidable (labelMatch query row) := by
  unfold labelMatch; infer_instance

/-- Two bytes that are the same letter up to ASCII case. -/
def sameLetter (a b : Nat) : Prop :=
  a = b ∨ (65 ≤ a ∧ a ≤ 90 ∧ b = a + 32) ∨ (65 ≤ b ∧ b ≤ 90 ∧ a = b + 32)

instance (a b : Nat) : Decidable (sameLetter a b) := by
  unfold sameLetter; infer_instance

/-- Two strings that are equal up to letter case. -/
def caseEq (a b : CStr) : Prop := List.Forall₂ sameLetter a b

instance (a b : CStr) : Decidable (caseEq a b) := by
  unfold caseEq; infer_instance

/-- Two nullable strings that are equal up to letter case. -/
def caseEqOpt : Option CStr → Option CStr → Prop
  | none, none => True
  | some a, some b => caseEq a b
  | _, _ => False

instance : ∀ a b : Option CStr, Decidable (caseEqOpt a b)
  | none, none => isTrue trivial
  | some a, some b => inferInstanceAs (Decidable (caseEq a b))
  | none, some _ => isFalse (fun h => h)
  | some _, none => isFalse (fun h => h)

/-- Two rows that differ only in the letter case of name, group, server,
protocol, date and labels. -/
structure Row.caseVariant (r r' : Row) : Prop where
  protocol : r.protocol = r'.protocol
  name : caseEqOpt r.name r'.name
  group : caseEqOpt r.group r'.group
  server : caseEqOpt r.server r'.server
  plugin : caseEqOpt r.plugin r'.plugin
  date : caseEqOpt r.date r'.date
  labels : caseEqOpt r.labels r'.labels

/-! ## Example rows -/

/-- The profile P1 of the specification's examples. -/
def P1 : Row :=
  { protocol := some (cstr "org.remmina.Remmina-rdp-symbolic"), name := some (cstr "Server1"),
    group := some (cstr "Work"), server := some (cstr "10.0.0.1"), plugin := some (cstr "RDP"),
    date := none, filename := some (cstr "/home/u/p1.remmina"), labels := some (cstr "prod,eu"),
    notes := none, status := some [] }

/-- The profile P2 of the specification's examples. -/
def P2 : Row :=
  { protocol := some (cstr "org.remmina.Remmina-rdp-symbolic"), name := some (cstr "Server2"),
    group := some (cstr "Home"), server := some (cstr "10.0.0.2"), plugin := some (cstr "RDP"),
    date := none, filename := some (cstr "/home/u/p2.remmina"), labels := some (cstr "dev"),
    notes := none, status := some [] }

/-- The profile P1 with the letter case of its name and labels changed. -/
def P1_upper : Row :=
  { P1 with name := some (cstr "SERVER1"), labels := some (cstr "Prod,EU") }

/-- A profile without labels. -/
def P3 : Row := { P1 with labels := none }

/-- A hierarchy with two folders named "Team": one nested in "Work", of group
"Work/Team", then one at the top, of group "Team". -/
def team_tree : GNode :=
  .mk none
    [ .mk (some { name := some (cstr "Work"), group := some (cstr "Work"),
                  datetime := none, labels := none })
        [ .mk (some { name := some (cstr "Team"), group := some (cstr "Work/Team"),
                      datetime := none, labels := none }) [] ],
      .mk (some { name := some (cstr "Team"), group := some (cstr "Team"),
                  datetime := none, labels := none }) [] ]

/-- A hierarchy with the single folder "Work". -/
def work_tree : GNode :=
  .mk none
    [ .mk (some { name := some (cstr "Work"), group := some (cstr "Work"),
                  datetime := none, labels := none }) [] ]

/-- A profile of a given filename and group. -/
def profile_in (filename group : String) : RemminaFile :=
  { filename := some (cstr filename), icon_name := some (cstr "org.remmina.Remmina-rdp-symbolic"),
    name := some (cstr "Server1"), notes := none, group := some (cstr group),
    server := some (cstr "10.0.0.1"), protocol := some (cstr "RDP"), datetime := none,
    labels := some (cstr "prod,eu") }

/-- The tree store after the folders of `team_tree` are loaded. -/
def team_store : TreeStore := remmina_main_load_file_tree_group team_tree []

/-- A profile whose group field is "Team". -/
def team_profile : RemminaFile := profile_in "/home/u/p1.remmina" "Team"

/-- The tree store after the folder of `work_tree` is loaded. -/
def work_store : TreeStore := remmina_main_load_file_tree_group work_tree []

/-- The tree store of `work_store` with a profile of group "Work" attached. -/
def work_loaded_store : TreeStore :=
  remmina_main_load_file_tree_callback false [] (profile_in "/home/u/p1.remmina" "Work")
    work_store

/-- A profile whose group field is "Home". -/
def home_profile : RemminaFile := profile_in "/home/u/p2.remmina" "Home"

/-- A profile store with the folder "Work" and one profile of that group. -/
def work_manager : FileManager :=
  { files := [profile_in "/home/u/p1.remmina" "Work"], group_tree := work_tree }

/-- Preferences with the tree layout. -/
def tree_pref : RemminaPref :=
  { view_file_mode := REMMINA_VIEW_FILE_TREE, main_sort_column_id := 1, main_sort_order := 0,
    status_check := false, always_show_notes := false }

/-- The main window before the first load, with an empty search entry. -/
def initial_main : RemminaMain :=
  { window := true, file_model := none, file_model_filter := [], file_model_sort := [],
    sort_column_id := 0, sort_order := 0, selected_filename := none, selected_name := none,
    override_view_file_mode_to_list := false, expanded_group := [], network_states := [],
    entry_quick_connect_server := [], view_toggle_button := false,
    column_files_list_group := true, column_files_list_notes := true, expanded_rows := [],
    selection := [], statusbar_main := [] }

/-- The main window after the first load of `work_manager` in tree layout. -/
def loaded_main (sort_le : Int → Int → Row → Row → Bool) : RemminaMain :=
  remmina_main_load_files work_manager sort_le tree_pref initial_main

/-- The same after the user selected the profile row, the child of the
folder row: the select function records its name and filename. -/
def selected_main (sort_le : Int → Int → Row → Row → Bool) : RemminaMain :=
  { remmina_main_selection_func (loaded_main sort_le) (loaded_main sort_le).file_model_sort
      [0, 0] false with selection := [[0, 0]] }

/-! ## The parts of the reload and the sort preference -/

/-- The layout a reload builds: the list layout when the search override is
set, the layout preference otherwise. -/
def effective_view_file_mode (pref : RemminaPref) (m : RemminaMain) : Int :=
  if m.override_view_file_mode_to_list then REMMINA_VIEW_FILE_LIST else pref.view_file_mode

/-- The model a reload builds from the file manager. -/
def load_files_model (fm : FileManager) (pref : RemminaPref) (m : RemminaMain) : FileModel :=
  (load_files_newmodel fm pref.status_check m.network_states
    (effective_view_file_mode pref m)).1

/-- The rows a reload gives to the tree view: the new model filtered by the
search text, then sorted by the stored column and direction. -/
def load_files_sorted (fm : FileManager) (sort_le : Int → Int → Row → Row → Bool)
    (pref : RemminaPref) (m : RemminaMain) : List TreeNode :=
  gtk_tree_model_sort (sort_le pref.main_sort_column_id pref.main_sort_order)
    (gtk_tree_model_filter (remmina_main_filter_visible_func m.entry_quick_connect_server)
      (load_files_model fm pref m).forest)

/-- The global `remmina_pref` together with the preferences file, which holds
what `remmina_pref_save` wrote last. -/
structure PrefState where
  remmina_pref : RemminaPref
  saved : RemminaPref
  deriving DecidableEq, Repr

/-- `remmina_pref_save`: the preferences are written to the preferences file
before the call returns. -/
def remmina_pref_save (s : PrefState) : PrefState :=
  { s with saved := s.remmina_pref }

/-- `remmina_main_file_model_on_sort`, the handler of "sort-column-changed":
`columnid` and `order` are what `gtk_tree_sortable_get_sort_column_id` reads
from the sort model. -/
def remmina_main_file_model_on_sort (columnid order : Int) (s : PrefState) : PrefState :=
  remmina_pref_save
    { s with remmina_pref :=
        { s.remmina_pref with main_sort_column_id := columnid, main_sort_order := order } }

/-! ## The rows of a model -/

mutual
/-- The row of a node followed by the rows of its descendants. -/
def tree_rows_row : TreeNode → List Row
  | .mk row children => row :: tree_rows children
/-- All rows of a forest, in pre-order. -/
def tree_rows : List TreeNode → List Row
  | [] => []
  | n :: ns => tree_rows_row n ++ tree_rows ns
end

/-! ## The tree layout as the specification words it -/

mutual
/-- The folder rows of a hierarchy node: a node with data gives one folder
row, with the folder rows of its children as child rows; a node without data
(the root) gives the folder rows of its children. -/
def folder_tree : GNode → List TreeNode
  | .mk (some d) children => [.mk (folder_row d) (folder_forest children)]
  | .mk none children => folder_forest children
/-- The folder rows of a list of hierarchy nodes, in order. -/
def folder_forest : List GNode → List TreeNode
  | [] => []
  | c :: cs => folder_tree c ++ folder_forest cs
end

mutual
/-- Whether a node and all nodes below it carry data. -/
def all_data : GNode → Bool
  | .mk data children => data.isSome && all_data_list children
/-- Whether all nodes of a list and all nodes below them carry data. -/
def all_data_list : List GNode → Bool
  | [] => true
  | c :: cs => all_data c && all_data_list cs
end

/-- Whether every node below the root carries data: only the root of the
hierarchy may be without data. -/
def below_root_data : GNode → Bool
  | .mk _ children => all_data_list children

/-- A list of nodes put after the last child of the row at a path; the empty
path stands for the top level. -/
def graft : TreeStore → List Nat → List TreeNode → TreeStore
  | s, [], new => s ++ new
  | s, i :: q, new =>
    match s[i]? with
    | none => s
    | some (.mk row ch) => s.set i (.mk row (graft ch q new))

/-- Whether a path leads to a row of the store; the empty path stands for
the top level. -/
def validPath : TreeStore → List Nat → Prop
  | _, [] => True
  | s, i :: q =>
    match s[i]? with
    | none => False
    | some (.mk _ ch) => validPath ch q

/-- The number of children of the row at a path, of top-level rows for the
empty path. -/
def childCount : TreeStore → List Nat → Nat
  | s, [] => s.length
  | s, i :: q =>
    match s[i]? with
    | none => 0
    | some (.mk _ ch) => childCount ch q

/-- A profile store with the two folders of the name "Team" and a profile in
each, one in "Work" and one without folder. -/
def team_manager : FileManager :=
  { files := [profile_in "/home/u/p1.remmina" "Work", profile_in "/home/u/p2.remmina" "Team",
              profile_in "/home/u/p3.remmina" "Work/Team", profile_in "/home/u/p4.remmina" "Home"],
    group_tree := team_tree }

/-! ## Expansion restore as the specification words it -/

mutual
/-- The paths `remmina_main_expand_group_traverse` gives to
`gtk_tree_view_expand_row` at a row and below it, in order. -/
def expand_group_requests_row (expanded_group : List CStr) (base : List Nat) (i : Nat) :
    TreeNode → List TreeIter
  | .mk row children =>
    if row.filename = none then
      (if remmina_string_array_find expanded_group row.group ≥ 0 then [base ++ [i]] else [])
        ++ expand_group_requests_from expanded_group (base ++ [i]) 0 children
    else []
/-- The same over a row and its next siblings. -/
def expand_group_requests_from (expanded_group : List CStr) (base : List Nat) (i : Nat) :
    List TreeNode → List TreeIter
  | [] => []
  | n :: ns =>
    expand_group_requests_row expanded_group base i n ++
      expand_group_requests_from expanded_group base (i + 1) ns
end

/-- The paths `remmina_main_expand_group` gives to `gtk_tree_view_expand_row`. -/
def expand_group_requests (expanded_group : List CStr) (file_model_sort : List TreeNode) :
    List TreeIter :=
  expand_group_requests_from expanded_group [] 0 file_model_sort

/-- A group column that is a member of the expanded-group array. -/
def in_expanded_group (expanded_group : List CStr) (group : Option CStr) : Prop :=
  ∃ g, group = some g ∧ g ∈ expanded_group

mutual
/-- A row has children only if it has no filename, and so below it. -/
def parents_are_folders_row : TreeNode → Prop
  | .mk row children => (children ≠ [] → row.filename = none) ∧ parents_are_folders children
/-- Every row of the forest that has children is a row without filename. -/
def parents_are_folders : List TreeNode → Prop
  | [] => True
  | n :: ns => parents_are_folders_row n ∧ parents_are_folders ns
end

/-- What the tree view expands on the requests of the traversal: the row at
the path and every row above it is a folder row of a member group and has
children. -/
def expandable (expanded_group : List CStr) : List TreeNode → List Nat → Prop
  | _, [] => False
  | l, i :: q =>
    match l[i]? with
    | none => False
    | some (.mk row ch) =>
      row.filename = none ∧ in_expanded_group expanded_group row.group ∧ ch ≠ [] ∧
        (q = [] ∨ expandable expanded_group ch q)

/-- The row at a path below the siblings `l` (the first of index `i` under
`base`), provided the row and every row above it are expanded. -/
def expanded_node (expanded : List TreeIter) : List Nat → Nat → List TreeNode → List Nat →
    Option TreeNode
  | _, _, _, [] => none
  | base, i, l, k :: q =>
    match l[k]? with
    | none => none
    | some (.mk row ch) =>
      if expanded.contains (base ++ [i + k]) then
        (if q = [] then some (.mk row ch)
         else expanded_node expanded (base ++ [i + k]) 0 ch q)
      else none

/-- The group column of the row at a path. -/
def group_at (model : List TreeNode) (path : TreeIter) : Option CStr :=
  (nodeAt model path).bind (fun n => n.row.group)

/-- Every row on the way to `base`, and the row at `base` itself, is
expanded. -/
def open_at (expanded : List TreeIter) (base : List Nat) : Prop :=
  ∀ j, 0 < j → j ≤ base.length → base.take j ∈ expanded

/-- No expanded row lies at or below the siblings of index `i` and more under
`base`. -/
def fresh_region (expanded : List TreeIter) (base : List Nat) (i : Nat) : Prop :=
  ∀ x ∈ expanded, ∀ k q, x ≠ base ++ (i + k) :: q

/-- A comparison under which the sort model keeps the order of the rows. -/
def sort_keep : Int → Int → Row → Row → Bool := fun _ _ _ _ => true

/-- The main window after a load of `team_manager` in tree layout, with the
folder "Work" and its folder "Team" expanded. -/
def expanded_team_main : RemminaMain :=
  { remmina_main_load_files team_manager sort_keep tree_pref initial_main with
    expanded_rows := [[0], [0, 0]] }

/-! ## The batch actions on a multiple selection -/

/-- What the batch actions do to the outside: the dialogs they run and the
calls they make to the file manager, the connection window and the reload. -/
inductive Action where
  | dialog_question
  | dialog_warning (message : CStr)
  | unlock_new
  | file_touch (filename : Option CStr)
  | file_delete (filename : Option CStr)
  | rcw_open_from_filename (filename : Option CStr)
  | icon_populate_menu
  | load_files
  | clear_selection_data
  deriving DecidableEq, Repr

/-- What the batch actions ask of their collaborators: the two lock
preferences, whether `remmina_file_load` gives a profile for a filename, the
"profile-lock" setting of that profile, and the result of the n-th unlock
dialog (0 when the user does not unlock). -/
structure BatchEnv where
  lock_edit : Bool
  use_primary_password : Bool
  file_load : Option CStr → Bool
  profile_lock : Option CStr → Int
  unlock_new : Nat → Int

/-- The `while (list)` loop of `remmina_main_on_action_connection_connect_multiple`.
`model` is the model of the tree view when the action starts, `n` the number
of unlock dialogs run so far. -/
def connect_multiple_loop (env : BatchEnv) (model : List TreeNode) :
    List TreeIter → Nat → List Action
  | [], _ => [Action.clear_selection_data]
  | path :: rest, n =>
    match nodeAt model path with
    | none =>
      [Action.dialog_warning (cstr "Failed to load files!"), Action.clear_selection_data]
    | some node =>
      let file_to_load := node.row.filename
      if env.file_load file_to_load = false then []
      else
        let gate1 : Bool := (env.lock_edit && env.use_primary_password)
          || decide (env.profile_lock file_to_load ≠ 0)
        if gate1 && decide (env.unlock_new n = 0) then [Action.unlock_new]
        else
          let n1 := if gate1 then n + 1 else n
          let acts1 := if gate1 then [Action.unlock_new] else []
          let gate2 : Bool := decide (env.profile_lock file_to_load = 1)
          if gate2 && decide (env.unlock_new n1 = 0) then acts1 ++ [Action.unlock_new]
          else
            let n2 := if gate2 then n1 + 1 else n1
            let acts2 := if gate2 then [Action.unlock_new] else []
            acts1 ++ acts2 ++
              [Action.file_touch file_to_load, Action.rcw_open_from_filename file_to_load] ++
              connect_multiple_loop env model rest n2

/-- `remmina_main_on_action_connection_connect_multiple` on the selected rows
`list` of the model of the tree view. -/
def remmina_main_on_action_connection_connect_multiple (env : BatchEnv)
    (model : List TreeNode) (list : List TreeIter) : List Action :=
  connect_multiple_loop env model list 0

/-- The `while (list)` loop of `remmina_main_on_action_connection_delete_multiple`.
`model` is the model of the tree view when the action starts: the reload after
each deletion gives the view a new model and leaves this one as it was. -/
def delete_multiple_loop (env : BatchEnv) (model : List TreeNode) :
    List TreeIter → Nat → List Action
  | [], _ => [Action.clear_selection_data]
  | path :: rest, n =>
    match nodeAt model path with
    | none =>
      [Action.dialog_warning (cstr "Failed to delete files!"), Action.clear_selection_data]
    | some node =>
      let file_to_delete := node.row.filename
      let gate : Bool := (env.lock_edit && env.use_primary_password)
        || decide (env.profile_lock file_to_delete ≠ 0)
      if gate && decide (env.unlock_new n = 0) then [Action.unlock_new]
      else
        let n1 := if gate then n + 1 else n
        let acts := if gate then [Action.unlock_new] else []
        acts ++ [Action.file_delete file_to_delete, Action.icon_populate_menu,
            Action.load_files] ++
          delete_multiple_loop env model rest n1

/-- `remmina_main_on_action_connection_delete_multiple`; `yes` tells whether
the user answers the question dialog with Yes. -/
def remmina_main_on_action_connection_delete_multiple (env : BatchEnv)
    (model : List TreeNode) (list : List TreeIter) (yes : Bool) : List Action :=
  Action.dialog_question ::
    (if yes then delete_multiple_loop env model list 0 else [Action.clear_selection_data])

/-- The filenames given to `remmina_file_delete`, in order. -/
def deleted_files (acts : List Action) : List (Option CStr) :=
  acts.filterMap (fun a => match a with
    | Action.file_delete f => some f
    | _ => none)

/-- The filenames given to `rcw_open_from_filename`, in order. -/
def opened_files (acts : List Action) : List (Option CStr) :=
  acts.filterMap (fun a => match a with
    | Action.rcw_open_from_filename f => some f
    | _ => none)

/-- The number of failure dialogs. -/
def warning_count (acts : List Action) : Nat :=
  acts.countP (fun a => match a with
    | Action.dialog_warning _ => true
    | _ => false)

/-- Whether the model has a row at the path (`gtk_tree_model_get_iter`). -/
def readable (model : List TreeNode) (path : TreeIter) : Bool :=
  (nodeAt model path).isSome

/-- The filename column of the row at a path. -/
def filename_at (model : List TreeNode) (path : TreeIter) : Option CStr :=
  (nodeAt model path).bind (fun n => n.row.filename)

/-- A list model of three profiles. -/
def three_rows : List TreeNode :=
  [ .mk (profile_row (profile_in "/home/u/p1.remmina" "Work") []) [],
    .mk (profile_row (profile_in "/home/u/p2.remmina" "Work") []) [],
    .mk (profile_row (profile_in "/home/u/p3.remmina" "Home") []) [] ]

/-- Collaborators without any lock, for which every profile loads. -/
def open_env : BatchEnv :=
  { lock_edit := false, use_primary_password := false, file_load := fun _ => true,
    profile_lock := fun _ => 0, unlock_new := fun _ => 1 }

/-- Collaborators without any lock, for which no profile loads. -/
def failing_env : BatchEnv := { open_env with file_load := fun _ => false }

/-! ## Quick connect -/

/-- `isspace` in the C locale: space, tab, line feed, vertical tab, form feed,
carriage return. -/
def isspace (c : Nat) : Bool := c == 32 || (decide (9 ≤ c) && decide (c ≤ 13))

/-- `g_ascii_isspace`: space, tab, line feed, form feed, carriage return; the
vertical tab is not among them. -/
def g_ascii_isspace (c : Nat) : Bool := c == 32 || c == 9 || c == 10 || c == 12 || c == 13

/-- The `while` loop of `is_empty`. -/
def is_empty_loop : CStr → Bool
  | [] => true
  | c :: cs => if !isspace c then false else is_empty_loop cs

/-- `is_empty`. -/
def is_empty (s : Option CStr) : Bool :=
  match s with
  | none => true
  | some s => is_empty_loop s

/-- `g_strstrip`: leading and trailing whitespace (`g_ascii_isspace`) is
removed. -/
def g_strstrip (s : CStr) : CStr :=
  ((s.dropWhile g_ascii_isspace).reverse.dropWhile g_ascii_isspace).reverse

/-- The first string of `g_strsplit (s, ":", 2)`: NULL for the empty string,
otherwise what stands before the first colon. -/
def first_of_colon_split (s : CStr) : Option CStr :=
  if s = [] then none else some (s.takeWhile (fun c => c != 58))

/-- The glib hostname functions quick connect calls. -/
structure HostnameLib where
  g_hostname_to_ascii : CStr → Option CStr
  g_hostname_is_ip_address : CStr → Bool

/-- The settings quick connect writes into the new profile. -/
structure QuickConnectFile where
  sound : Option CStr
  server : Option CStr
  name : Option CStr
  protocol : Option CStr
  deriving DecidableEq, Repr

/-- What quick connect leaves behind: the last quick-connect protocol of the
preferences, whether the preferences were saved, and the profile given to
`rcw_open_from_file`, if any. -/
structure QuickConnectResult where
  last_quickconnect_protocol : CStr
  pref_saved : Bool
  opened : Option QuickConnectFile
  deriving DecidableEq, Repr

/-- `remmina_main_quickconnect`; `qcp` is the active text of the protocol combo
box, `entry_text` the text of the server entry. `g_strrstr (server, "/")`
finds the last '/', so it is NULL exactly when `strstr` is. -/
def remmina_main_quickconnect (lib : HostnameLib) (qcp : Option CStr)
    (last_quickconnect_protocol : CStr) (entry_text : CStr) : QuickConnectResult :=
  let changed : Bool :=
    match qcp with
    | some q => decide (strcmp q last_quickconnect_protocol ≠ 0)
    | none => false
  let last := if changed then qcp.getD [] else last_quickconnect_protocol
  let server := entry_text
  if (lib.g_hostname_to_ascii server).isNone then
    { last_quickconnect_protocol := last, pref_saved := changed, opened := none }
  else if strstr server (cstr "/") then
    { last_quickconnect_protocol := last, pref_saved := changed, opened := none }
  else if is_empty (some server) then
    { last_quickconnect_protocol := last, pref_saved := changed, opened := none }
  else
    let server_trimmed := g_strstrip server
    let server1 :=
      match first_of_colon_split server_trimmed with
      | some s0 => if lib.g_hostname_is_ip_address s0 then server_trimmed else server
      | none => server
    { last_quickconnect_protocol := last, pref_saved := changed,
      opened := some { sound := some (cstr "off"), server := some server1,
                       name := some server1, protocol := qcp } }

/-- A hostname library that accepts every string and knows the address
10.0.0.1. -/
def sample_lib : HostnameLib :=
  { g_hostname_to_ascii := fun s => some s,
    g_hostname_is_ip_address := fun s => s == cstr "10.0.0.1" }

/-! ## The search entry, the view toggle and the date column -/

/-- How the tree view carries its expanded and its selected rows over a change
of the rows of its model: `keep old new paths` are the paths, among the new
rows, of the rows that were at `paths` among the old rows. When the rows do
not change, the paths do not change. -/
structure TreeViewRows where
  keep : List TreeNode → List TreeNode → List TreeIter → List TreeIter
  keep_same : ∀ rows paths, keep rows rows paths = paths

/-- A tree view whose paths stay as they are. -/
def keep_paths : TreeViewRows :=
  { keep := fun _ _ paths => paths, keep_same := fun _ _ => rfl }

/-- `gtk_tree_model_filter_refilter` on `file_model_filter`: the visible
function is evaluated again on every row of the file model, with the text the
search entry has now; the sort model and the tree view follow. Before the
first load there is no filter model and nothing happens. -/
def gtk_tree_model_filter_refilter (view : TreeViewRows)
    (sort_le : Int → Int → Row → Row → Bool) (m : RemminaMain) : RemminaMain :=
  match m.file_model with
  | none => m
  | some model =>
    let file_model_filter :=
      gtk_tree_model_filter (remmina_main_filter_visible_func m.entry_quick_connect_server)
        model.forest
    let file_model_sort :=
      gtk_tree_model_sort (sort_le m.sort_column_id m.sort_order) file_model_filter
    { m with
      file_model_filter := file_model_filter
      file_model_sort := file_model_sort
      expanded_rows := view.keep m.file_model_sort file_model_sort m.expanded_rows
      selection := view.keep m.file_model_sort file_model_sort m.selection }

/-- `remmina_main_quick_search_on_changed`, the handler of "changed" of the
search entry. -/
def remmina_main_quick_search_on_changed (fm : FileManager)
    (sort_le : Int → Int → Row → Row → Bool) (view : TreeViewRows) (pref : RemminaPref)
    (m : RemminaMain) : RemminaMain :=
  let m1 :=
    if m.entry_quick_connect_server.length ≠ 0 then
      if GTK_IS_TREE_STORE m.file_model then
        remmina_main_load_files fm sort_le pref
          { m with override_view_file_mode_to_list := true }
      else m
    else
      if m.override_view_file_mode_to_list then
        remmina_main_load_files fm sort_le pref
          { m with override_view_file_mode_to_list := false }
      else m
  gtk_tree_model_filter_refilter view sort_le m1

/-- `gtk_entry_set_text` on the search entry, and equally an edit by the user:
an entry that has the text already is left alone; otherwise the text is
replaced and "changed" is emitted once, which runs the handler that
`gtk_builder_connect_signals` connected, `remmina_main_quick_search_on_changed`. -/
def gtk_entry_set_text (fm : FileManager) (sort_le : Int → Int → Row → Row → Bool)
    (view : TreeViewRows) (pref : RemminaPref) (text : CStr) (m : RemminaMain) : RemminaMain :=
  if m.entry_quick_connect_server = text then m
  else remmina_main_quick_search_on_changed fm sort_le view pref
    { m with entry_quick_connect_server := text }

/-- The global `remmina_pref` and the main window together. -/
structure CatalogState where
  pref : PrefState
  main : RemminaMain

/-- The four statements the view toggle and the date column run when the
layout preference changes: the preference is set, the search entry is
emptied, the preferences are saved and the files are loaded again. -/
def view_file_mode_changed (fm : FileManager) (sort_le : Int → Int → Row → Row → Bool)
    (view : TreeViewRows) (mode : Int) (s : CatalogState) : CatalogState :=
  let pref1 : PrefState :=
    { s.pref with remmina_pref := { s.pref.remmina_pref with view_file_mode := mode } }
  let main1 := gtk_entry_set_text fm sort_le view pref1.remmina_pref [] s.main
  let pref2 := remmina_pref_save pref1
  { pref := pref2, main := remmina_main_load_files fm sort_le pref2.remmina_pref main1 }

/-- `remmina_main_on_view_toggle`, the handler of "toggled" of the view toggle
button. -/
def remmina_main_on_view_toggle (fm : FileManager) (sort_le : Int → Int → Row → Row → Bool)
    (view : TreeViewRows) (s : CatalogState) : CatalogState :=
  if s.main.view_toggle_button then
    if s.pref.remmina_pref.view_file_mode ≠ REMMINA_VIEW_FILE_LIST then
      view_file_mode_changed fm sort_le view REMMINA_VIEW_FILE_LIST s
    else s
  else
    if s.pref.remmina_pref.view_file_mode ≠ REMMINA_VIEW_FILE_TREE then
      view_file_mode_changed fm sort_le view REMMINA_VIEW_FILE_TREE s
    else s

/-- `remmina_main_on_date_column_sort_clicked`. -/
def remmina_main_on_date_column_sort_clicked (fm : FileManager)
    (sort_le : Int → Int → Row → Row → Bool) (view : TreeViewRows) (s : CatalogState) :
    CatalogState :=
  if s.pref.remmina_pref.view_file_mode ≠ REMMINA_VIEW_FILE_LIST then
    view_file_mode_changed fm sort_le view REMMINA_VIEW_FILE_LIST s
  else s

/-- What happens to the catalog between two states: the user edits the search
text, clicks the view toggle button (the button changes its state and
"toggled" runs its handler), clicks the date column, or the files are loaded
again. -/
inductive CatalogEvent where
  | query_changed (text : CStr)
  | view_toggled
  | date_column_clicked
  | reload

/-- One event; `fm` is what the file manager supplies while the event is
handled. -/
def catalog_step (sort_le : Int → Int → Row → Row → Bool) (view : TreeViewRows)
    (s : CatalogState) (e : FileManager × CatalogEvent) : CatalogState :=
  match e.2 with
  | .query_changed text =>
    { s with main := gtk_entry_set_text e.1 sort_le view s.pref.remmina_pref text s.main }
  | .view_toggled =>
    remmina_main_on_view_toggle e.1 sort_le view
      { s with main := { s.main with view_toggle_button := !s.main.view_toggle_button } }
  | .date_column_clicked => remmina_main_on_date_column_sort_clicked e.1 sort_le view s
  | .reload => { s with main := remmina_main_load_files e.1 sort_le s.pref.remmina_pref s.main }

/-- A sequence of events, from the first to the last. -/
def catalog_run (sort_le : Int → Int → Row → Row → Bool) (view : TreeViewRows)
    (events : List (FileManager × CatalogEvent)) (s : CatalogState) : CatalogState :=
  events.foldl (catalog_step sort_le view) s

/-- The state `remmina_main_init` leaves: the files are loaded into a main
window that has no model yet, an empty search entry and no search override. -/
def catalog_init (fm : FileManager) (sort_le : Int → Int → Row → Row → Bool)
    (pref : PrefState) (m0 : RemminaMain) : CatalogState :=
  { pref := pref,
    main := remmina_main_load_files fm sort_le pref.remmina_pref
      { m0 with file_model := none, entry_quick_connect_server := [],
                override_view_file_mode_to_list := false } }

/-! ## The teardown of the main window -/

/-- The fields of `remmina_pref` that `remmina_main_save_before_destroy`
writes. -/
structure WindowPref where
  main_width : Int
  main_height : Int
  main_maximize : Bool
  expanded_group : CStr
  deriving DecidableEq, Repr

/-- What GDK and GTK report about the main window: whether it is maximized,
and its size. -/
structure WindowGeometry where
  maximized : Bool
  width : Int
  height : Int
  deriving DecidableEq, Repr

/-- An idle source that `g_idle_add` has queued on the main loop. -/
inductive IdleSource where
  | remmina_main_idle_destroy
  deriving DecidableEq, Repr

/-- The static pointer `remminamain` (`none` is NULL), the window fields of
`remmina_pref` with what `remmina_pref_save` wrote last, and the idle sources
of the main loop that are still to run. -/
structure MainContext where
  remminamain : Option RemminaMain
  window_pref : WindowPref
  window_pref_saved : WindowPref
  idle : List IdleSource

/-- `remmina_main_save_size`. -/
def remmina_main_save_size (geometry : WindowGeometry) (pref : WindowPref) : WindowPref :=
  if geometry.maximized = false then
    { pref with main_width := geometry.width, main_height := geometry.height,
                main_maximize := false }
  else { pref with main_maximize := true }

/-- `remmina_main_save_before_destroy`; `to_string` is
`remmina_string_array_to_string`. -/
def remmina_main_save_before_destroy (to_string : List CStr → CStr)
    (geometry : WindowGeometry) (s : MainContext) : MainContext :=
  match s.remminamain with
  | none => s
  | some m =>
    if m.window = false then s
    else
      let pref1 := remmina_main_save_size geometry s.window_pref
      let m1 := remmina_main_save_expanded_group m
      let pref2 := { pref1 with expanded_group := to_string m1.expanded_group }
      { s with remminamain := some m1, window_pref := pref2, window_pref_saved := pref2 }

/-- `remmina_main_on_destroy_event`, the handler of "destroy" of the main
window. -/
def remmina_main_on_destroy_event (s : MainContext) : MainContext :=
  match s.remminamain with
  | some m =>
    { s with remminamain := some { m with window := false },
             idle := s.idle ++ [IdleSource.remmina_main_idle_destroy] }
  | none => s

/-- `remmina_main_destroy`. `gtk_widget_destroy` on the window emits "destroy",
which runs `remmina_main_on_destroy_event` before the context is freed. -/
def remmina_main_destroy (s : MainContext) : MainContext :=
  match s.remminamain with
  | some m =>
    let s1 := if m.window then remmina_main_on_destroy_event s else s
    { s1 with remminamain := none }
  | none => s

/-- `remmina_main_idle_destroy`. -/
def remmina_main_idle_destroy (s : MainContext) : MainContext :=
  if s.remminamain.isSome then remmina_main_destroy s else s

/-- One turn of the main loop: the first idle source runs and, as it returns
`G_SOURCE_REMOVE`, leaves the queue. -/
def dispatch_idle (s : MainContext) : MainContext :=
  match s.idle with
  | [] => s
  | IdleSource.remmina_main_idle_destroy :: rest =>
    remmina_main_idle_destroy { s with idle := rest }

/-- The lifecycle functions of the main window. -/
inductive LifecycleCall where
  | save_before_destroy (geometry : WindowGeometry)
  | on_destroy_event
  | idle_destroy
  | destroy
  deriving DecidableEq, Repr

/-- The state after a call of a lifecycle function. -/
def lifecycle_call (to_string : List CStr → CStr) (c : LifecycleCall) (s : MainContext) :
    MainContext :=
  match c with
  | .save_before_destroy geometry => remmina_main_save_before_destroy to_string geometry s
  | .on_destroy_event => remmina_main_on_destroy_event s
  | .idle_destroy => remmina_main_idle_destroy s
  | .destroy => remmina_main_destroy s

/-- A main context with the loaded main window and nothing queued. -/
def live_context : MainContext :=
  { remminamain := some expanded_team_main,
    window_pref := { main_width := 600, main_height := 400, main_maximize := false,
                     expanded_group := [] },
    window_pref_saved := { main_width := 600, main_height := 400, main_maximize := false,
                           expanded_group := [] },
    idle := [] }

/-! ## The connect action -/

/-- What the connect action asks of its collaborators: the two preferences of
the lock gate, whether `remmina_file_load` gives a profile for a filename, the
"profile-lock" setting of a profile, and the result of the n-th unlock dialog
(0 when the user does not unlock). -/
structure ConnectEnv where
  use_primary_password : Bool
  lock_connect : Bool
  file_load : Option CStr → Bool
  profile_lock : Option CStr → Int
  unlock_new : Nat → Int

/-- The two lock gates of the connect action and what follows them, for the
profile of a filename; `n` is the number of unlock dialogs run so far. -/
def connect_gated (env : ConnectEnv) (filename : Option CStr) (n : Nat) : List Action × Nat :=
  let gate1 : Bool := env.use_primary_password && env.lock_connect
  if gate1 && decide (env.unlock_new n = 0) then ([Action.unlock_new], n + 1)
  else
    let n1 := if gate1 then n + 1 else n
    let acts1 := if gate1 then [Action.unlock_new] else []
    let gate2 : Bool := decide (env.profile_lock filename = 1)
    if gate2 && decide (env.unlock_new n1 = 0) then (acts1 ++ [Action.unlock_new], n1 + 1)
    else
      let n2 := if gate2 then n1 + 1 else n1
      let acts2 := if gate2 then [Action.unlock_new] else []
      (acts1 ++ acts2 ++ [Action.file_touch filename, Action.rcw_open_from_filename filename],
       n2)

/-- `remmina_main_load_by_group_callback`: the state is what was done so far
and the number of unlock dialogs run so far. -/
def remmina_main_load_by_group_callback (env : ConnectEnv) (selected_name : Option CStr)
    (remminafile : RemminaFile) (st : List Action × Nat) : List Action × Nat :=
  if g_strcmp0 selected_name remminafile.group = 0 then
    let res := connect_gated env remminafile.filename st.2
    (st.1 ++ res.1, res.2)
  else st

/-- `remmina_main_on_action_connection_connect`; `files` are the profiles the
file manager enumerates. -/
def remmina_main_on_action_connection_connect (env : ConnectEnv) (files : List RemminaFile)
    (m : RemminaMain) : List Action :=
  match m.selected_filename with
  | none =>
    match m.selected_name with
    | some _ =>
      (remmina_file_manager_iterate files
        (remmina_main_load_by_group_callback env m.selected_name) ([], 0)).1.1
    | none => []
  | some filename =>
    if env.file_load (some filename) = false then []
    else (connect_gated env (some filename) 0).1

/-- Collaborators of the connect action without any lock, for which every
profile loads. -/
def connect_open_env : ConnectEnv :=
  { use_primary_password := false, lock_connect := false, file_load := fun _ => true,
    profile_lock := fun _ => 0, unlock_new := fun _ => 1 }

/-- The filename columns of the child rows of the row at a path. -/
def child_filenames (model : List TreeNode) (path : TreeIter) : List (Option CStr) :=
  match nodeAt model path with
  | some n => n.children.map (fun c => c.row.filename)
  | none => []

/-- The main window after a load of `team_manager` in tree layout and a click
on the folder "Team" inside the folder "Work". -/
def team_folder_selected : RemminaMain :=
  remmina_main_selection_func
    (remmina_main_load_files team_manager sort_keep tree_pref initial_main)
    (remmina_main_load_files team_manager sort_keep tree_pref initial_main).file_model_sort
    [0, 0] false

/-! ## The status icon as the specification words it -/

/-- Spec: the status icon of a profile row is empty when status checking is
off; otherwise it is green when the recorded state starts with "Yes", red when
it starts with "No", and grey in every other case (no record, or any other
value). -/
def status_icon_spec (status_check : Bool) (recorded : Option CStr) : CStr :=
  if status_check = false then []
  else
    match recorded with
    | some state =>
      if (cstr "Yes").isPrefixOf state then cstr "org.remmina.Remmina-status-green"
      else if (cstr "No").isPrefixOf state then cstr "org.remmina.Remmina-status-red"
      else cstr "org.remmina.Remmina-status-grey"
    | none => cstr "org.remmina.Remmina-status-grey"

/-- Spec: the state recorded for a filename in the network-state map, if there
is one. -/
def recorded_state (network_states : NetworkStates) (filename : Option CStr) : Option CStr :=
  match filename with
  | none => none
  | some k =>
    match network_states.find? (fun e => e.1 == k) with
    | some e => e.2
    | none => none

/-- A network-state map with a reachable, an unreachable and an unknown
profile. -/
def sample_states : NetworkStates :=
  [(cstr "/home/u/p1.remmina", some (cstr "Yes")), (cstr "/home/u/p2.remmina", some (cstr "No")),
   (cstr "/home/u/p3.remmina", some (cstr "?"))]

/-- The invariant of the catalog: the search override is set only with a
query, the layout preference is one of the two layouts, the file model is
what a reload builds for the preference and the override, and a tree-shaped
file model goes with an empty query. -/
def catalog_inv (s : CatalogState) : Prop :=
  (s.main.override_view_file_mode_to_list = true → s.main.entry_quick_connect_server ≠ []) ∧
  (s.pref.remmina_pref.view_file_mode = REMMINA_VIEW_FILE_LIST ∨
    s.pref.remmina_pref.view_file_mode = REMMINA_VIEW_FILE_TREE) ∧
  (∃ fm, s.main.file_model = some (load_files_model fm s.pref.remmina_pref s.main)) ∧
  (GTK_IS_TREE_STORE s.main.file_model = true → s.main.entry_quick_connect_server = [])

/-- The preferences with the tree layout, saved as they are. -/
def tree_pref_state : PrefState := { remmina_pref := tree_pref, saved := tree_pref }

/-- The user types "a", clicks the view toggle button, types "b", clears the
search entry and clicks the date column, while the profile store stays as it
is. -/
def sample_events : List (FileManager × CatalogEvent) :=
  [(work_manager, CatalogEvent.query_changed (cstr "a")),
   (work_manager, CatalogEvent.view_toggled),
   (work_manager, CatalogEvent.query_changed (cstr "b")),
   (work_manager, CatalogEvent.query_changed []),
   (work_manager, CatalogEvent.date_column_clicked),
   (work_manager, CatalogEvent.reload)]

/-! ## Letter case beyond ASCII -/

/-- The UTF-8 bytes of a code point below U+0800. -/
def utf8_bytes (c : Nat) : List Nat :=
  if c < 128 then [c] else [192 + c / 64, 128 + c % 64]

/-- The UTF-8 bytes of a text whose code points are below U+0800: what
`gtk_entry_get_text` and the string columns hold for it. -/
def utf8 (s : String) : CStr := (s.data.map (fun c => utf8_bytes c.toNat)).flatten

/-- Spec: the lower-case letter of a code point of Latin-1. The capital letters
A..Z and À..Þ (not the multiplication sign) have their lower-case letter 32
code points further on. -/
def latin1_tolower (c : Nat) : Nat :=
  if (65 ≤ c ∧ c ≤ 90) ∨ (192 ≤ c ∧ c ≤ 222 ∧ c ≠ 215) then c + 32 else c

/-- Spec: two texts that are equal up to letter case. -/
def letterCaseEq (a b : String) : Prop :=
  a.data.map (fun c => latin1_tolower c.toNat) = b.data.map (fun c => latin1_tolower c.toNat)

instance (a b : String) : Decidable (letterCaseEq a b) := by
  unfold letterCaseEq; infer_instance

/-- The profile P1 with the name "Café". -/
def cafe_row : Row := { P1 with name := some (utf8 "Café") }

/-! ## The tree layout with its profile rows as the specification words it -/

/-- Of the rows to attach, each with the path of its attachment point, those
that go to the child of index `i` or below it, with their paths from that
child. -/
def attached_below (i : Nat) (att : List (List Nat × Row)) : List (List Nat × Row) :=
  att.filterMap (fun e =>
    match e.1 with
    | j :: q => if j = i then some (q, e.2) else none
    | [] => none)

/-- Of the rows to attach, those whose attachment point is right here (the
empty path), as rows without children, in their order. -/
def attached_here (att : List (List Nat × Row)) : List TreeNode :=
  att.filterMap (fun e => if e.1 = [] then some (TreeNode.mk e.2 []) else none)

mutual
/-- A folder row with its attached rows: its sub-folder rows come first, each
with the rows attached at or below it, then the rows attached to the folder
itself. -/
def tree_layout_row (att : List (List Nat × Row)) : TreeNode → TreeNode
  | .mk row children => .mk row (tree_layout_from att 0 children ++ attached_here att)
/-- The same for sibling folder rows, the first having index `i`. -/
def tree_layout_from (att : List (List Nat × Row)) (i : Nat) : List TreeNode → List TreeNode
  | [] => []
  | n :: ns => tree_layout_row (attached_below i att) n :: tree_layout_from att (i + 1) ns
end

/-- Spec: the tree layout. Under every folder row, and at the top level, the
sub-folder rows come first, followed by the rows attached there, in the order
of the list `att`. -/
def tree_layout (att : List (List Nat × Row)) (folders : List TreeNode) : List TreeNode :=
  tree_layout_from att 0 folders ++ attached_here att

/-- Spec: the attachment point of a profile among the folder rows: the path of
the first folder row in pre-order whose group equals the group of the profile,
the empty path (the top level) when there is none. -/
def attachment_point (folders : TreeStore) (f : RemminaFile) : List Nat :=
  (first_folder_by_group folders f.group).getD []

/-- Spec: the profile rows in enumeration order, each with its attachment
point. -/
def attachments (status_check : Bool) (network_states : NetworkStates) (folders : TreeStore)
    (files : List RemminaFile) : List (List Nat × Row) :=
  files.map (fun f =>
    (attachment_point folders f, profile_row f (status_icon status_check network_states f)))

/-! ## Lemmas on the string helpers -/

theorem startsWith_iff (h n : CStr) : startsWith h n = true ↔ n <+: h := by
  induction h generalizing n with
  | nil => cases n <;> simp [startsWith]
  | cons a h ih =>
    cases n with
    | nil => simp [startsWith]
    | cons b n =>
      rw [startsWith, Bool.and_eq_true, beq_iff_eq, ih, List.cons_prefix_cons]
      exact and_congr_left fun _ => eq_comm

theorem strstr_iff (h n : CStr) : strstr h n = true ↔ n <:+: h := by
  induction h with
  | nil => cases n <;> simp [strstr, startsWith]
  | cons a h ih =>
    rw [strstr, Bool.or_eq_true, startsWith_iff, ih, List.infix_cons_iff]

theorem splitAt_eq_splitOn (d : Nat) (s : CStr) : splitAt d s = List.splitOn d s := by
  induction s with
  | nil => simp [splitAt, List.splitOn, List.splitOnP_nil]
  | cons c cs ih =>
    rw [splitAt, ih]
    simp only [List.splitOn]
    rw [List.splitOnP_cons]
    by_cases h : c = d
    · simp [h]
    · simp only [h, if_false, beq_iff_eq]
      cases hs : List.splitOnP (fun x => x == d) cs with
      | nil => exact absurd hs (List.splitOnP_ne_nil _ _)
      | cons t ts => simp [List.modifyHead]

theorem g_strsplit_eq (s : CStr) (hs : s ≠ []) : g_strsplit s = List.splitOn comma s := by
  simp [g_strsplit, hs, splitAt_eq_splitOn]

theorem strcmp_eq_zero (a b : CStr) : strcmp a b = 0 ↔ a = b := by
  induction a generalizing b with
  | nil => cases b <;> simp [strcmp]
  | cons x a ih =>
    cases b with
    | nil => simp [strcmp]
    | cons y b =>
      simp only [strcmp, List.cons.injEq]
      split_ifs with h1 h2
      · simp; omega
      · simp; omega
      · rw [ih]; constructor
        · intro h; exact ⟨by omega, h⟩
        · exact fun h => h.2

theorem g_strcmp0_eq_zero (a b : Option CStr) : g_strcmp0 a b = 0 ↔ a = b := by
  cases a <;> cases b <;> simp [g_strcmp0, strcmp_eq_zero]

theorem g_ascii_strdown_eq_nil (s : CStr) : g_ascii_strdown s = [] ↔ s = [] := by
  simp [g_ascii_strdown]

theorem labels_loop_iff (t : CStr) (ht : t ≠ []) (ls : List CStr) :
    labels_loop t ls = true ↔ ∃ l ∈ ls, t <:+: l := by
  induction ls with
  | nil => simp [labels_loop]
  | cons l ls ih =>
    rw [labels_loop]
    by_cases hl : l.length = 0
    · have hl' : l = [] := List.length_eq_zero.mp hl
      simp [hl, ih, hl', ht]
    · by_cases hs : strstr l t = true
      · simp only [hl, if_false, hs, if_true, true_iff]
        exact ⟨l, List.mem_cons_self _ _, (strstr_iff l t).mp hs⟩
      · have hn : ¬ t <:+: l := fun h => hs ((strstr_iff l t).mpr h)
        simp [hl, hs, ih, hn]

theorem text_loop_iff (ls ts : List CStr) :
    text_loop ls ts = true ↔ ∀ t ∈ ts, t ≠ [] → ∃ l ∈ ls, t <:+: l := by
  induction ts with
  | nil => simp [text_loop]
  | cons t ts ih =>
    rw [text_loop]
    by_cases ht : t.length = 0
    · have ht' : t = [] := List.length_eq_zero.mp ht
      simp [ht, ih, ht']
    · have ht' : t ≠ [] := fun h => ht (by simp [h])
      by_cases hl : labels_loop t ls = true
      · have := (labels_loop_iff t ht' ls).mp hl
        simp [ht, hl, ih, this]
      · have hn : ¬ ∃ l ∈ ls, t <:+: l := fun h => hl ((labels_loop_iff t ht' ls).mpr h)
        simp only [ht, if_false, hl, Bool.false_eq_true, List.mem_cons, forall_eq_or_imp,
          false_iff, not_and]
        intro h; exact absurd (h ht') hn

theorem substringMatch_iff (query : CStr) (row : Row) :
    (strstr (g_ascii_strdown (row.name.getD [])) (g_ascii_strdown query)
      || strstr (g_ascii_strdown (row.group.getD [])) (g_ascii_strdown query)
      || strstr (g_ascii_strdown (row.server.getD [])) (g_ascii_strdown query)
      || strstr (g_ascii_strdown (row.plugin.getD [])) (g_ascii_strdown query)
      || strstr (g_ascii_strdown (row.date.getD [])) (g_ascii_strdown query)) = true
    ↔ substringMatch query row := by
  simp only [substringMatch, textFields, Bool.or_eq_true, strstr_iff, List.mem_cons,
    List.mem_singleton, exists_eq_or_imp, exists_eq_left, List.not_mem_nil, false_and,
    exists_false, or_false, or_assoc]

/-- The filter on a profile row and a non-empty query: the label loops run
only when the labels are not empty. -/
theorem filter_visible_aux (query : CStr) (row : Row) (hq : query ≠ [])
    (hrow : row.protocol ≠ some folder_symbolic) :
    remmina_main_filter_visible_func query row = true ↔
      substringMatch query row ∨ (row.labels.getD [] ≠ [] ∧ labelMatch query row) := by
  have hq' : g_ascii_strdown query ≠ [] := fun h => hq ((g_ascii_strdown_eq_nil _).mp h)
  have hrow' : g_strcmp0 row.protocol (some folder_symbolic) ≠ 0 :=
    fun h => hrow ((g_strcmp0_eq_zero _ _).mp h)
  unfold remmina_main_filter_visible_func
  simp only [hq', hrow', ne_eq, not_false_eq_true, if_true]
  by_cases hl : row.labels.getD [] = []
  · have hlen : ¬ (g_ascii_strdown (row.labels.getD [])).length > 0 := by
      simp [hl, g_ascii_strdown]
    simp only [hlen, if_false]
    rw [substringMatch_iff]
    simp [hl]
  · have hl' : g_ascii_strdown (row.labels.getD []) ≠ [] :=
      fun h => hl ((g_ascii_strdown_eq_nil _).mp h)
    have hlen : (g_ascii_strdown (row.labels.getD [])).length > 0 :=
      List.length_pos.mpr hl'
    simp only [hlen, if_true]
    rw [Bool.or_eq_true, substringMatch_iff, text_loop_iff, g_strsplit_eq _ hl',
      g_strsplit_eq _ hq']
    simp only [labelMatch, ne_eq, hl, not_false_eq_true, true_and]

theorem g_ascii_tolower_sameLetter {a b : Nat} (h : sameLetter a b) :
    g_ascii_tolower a = g_ascii_tolower b := by
  unfold sameLetter at h
  unfold g_ascii_tolower
  split_ifs <;> omega

theorem g_ascii_strdown_caseEq {a b : CStr} (h : caseEq a b) :
    g_ascii_strdown a = g_ascii_strdown b := by
  unfold caseEq at h
  induction h with
  | nil => rfl
  | cons hab _ ih =>
    simp only [g_ascii_strdown, List.map_cons, List.cons.injEq] at ih ⊢
    exact ⟨g_ascii_tolower_sameLetter hab, ih⟩

theorem g_ascii_strdown_caseEqOpt {a b : Option CStr} (h : caseEqOpt a b) :
    g_ascii_strdown (a.getD []) = g_ascii_strdown (b.getD []) := by
  cases a <;> cases b <;> simp [caseEqOpt] at h ⊢
  exact g_ascii_strdown_caseEq h

theorem g_ascii_tolower_ne_comma {c : Nat} (h : c ≠ comma) : g_ascii_tolower c ≠ comma := by
  unfold g_ascii_tolower comma at *
  split_ifs <;> omega

theorem comma_not_mem_strdown {s : CStr} (h : comma ∉ s) : comma ∉ g_ascii_strdown s := by
  intro hm
  simp only [g_ascii_strdown, List.mem_map] at hm
  obtain ⟨c, hc, hcc⟩ := hm
  exact g_ascii_tolower_ne_comma (fun e => h (e ▸ hc)) hcc

theorem splitAt_not_mem (d : Nat) (s : CStr) (h : d ∉ s) : splitAt d s = [s] := by
  induction s with
  | nil => rfl
  | cons c cs ih =>
    simp only [List.mem_cons, not_or] at h
    rw [splitAt, ih h.2]
    simp [Ne.symm h.1]

/-! ## The filter predicate: claims -/

/-- Claim C1 (amended): on a profile row and a non-empty query the filter returns
visible = substringMatch OR (labels non-empty AND labelMatch): the label
tokens are consulted only when the labels field of the row is not empty. -/
theorem filter_visible_profile_iff (query : CStr) (row : Row) (hq : query ≠ [])
    (hrow : row.protocol ≠ some folder_symbolic) :
    remmina_main_filter_visible_func query row = true ↔
      substringMatch query row ∨ (row.labels.getD [] ≠ [] ∧ labelMatch query row) :=
  filter_visible_aux query row hq hrow

theorem filter_visible_profile_iff_witness :
    cstr "eu,prod" ≠ [] ∧ P1.protocol ≠ some folder_symbolic ∧
    (remmina_main_filter_visible_func (cstr "eu,prod") P1 = true ↔
      substringMatch (cstr "eu,prod") P1 ∨
        (P1.labels.getD [] ≠ [] ∧ labelMatch (cstr "eu,prod") P1)) :=
  ⟨by decide, by decide,
    filter_visible_profile_iff (cstr "eu,prod") P1 (by decide) (by decide)⟩

/-- Claim C1 as stated fails: for the query "," (no non-empty token) labelMatch
holds vacuously on the profile P3, which has no labels, yet the filter hides
the row. -/
theorem filter_visible_vacuous_label_counterexample :
    cstr "," ≠ [] ∧ P3.protocol ≠ some folder_symbolic ∧
    labelMatch (cstr ",") P3 ∧
    remmina_main_filter_visible_func (cstr ",") P3 = false ∧
    ¬ (remmina_main_filter_visible_func (cstr ",") P3 = true ↔
        substringMatch (cstr ",") P3 ∨ labelMatch (cstr ",") P3) := by
  decide

mutual
theorem tree_model_filter_row_all (visible : Row → Bool) (h : ∀ r, visible r = true) :
    ∀ n : TreeNode, tree_model_filter_row visible n = [n]
  | .mk row children => by
    simp [tree_model_filter_row, h, gtk_tree_model_filter_all visible h children]
theorem gtk_tree_model_filter_all (visible : Row → Bool) (h : ∀ r, visible r = true) :
    ∀ l : List TreeNode, gtk_tree_model_filter visible l = l
  | [] => by simp [gtk_tree_model_filter]
  | n :: ns => by
    simp [gtk_tree_model_filter, tree_model_filter_row_all visible h n,
      gtk_tree_model_filter_all visible h ns]
end

/-- Claim C2: with the empty query the filter returns visible for every row, and
so the filter layer shows every row of the model, list or tree. -/
theorem filter_visible_empty_query :
    (∀ row : Row, remmina_main_filter_visible_func [] row = true) ∧
    (∀ model : FileModel,
      gtk_tree_model_filter (remmina_main_filter_visible_func []) model.forest = model.forest) := by
  have h : ∀ row : Row, remmina_main_filter_visible_func [] row = true := by
    intro row; simp [remmina_main_filter_visible_func, g_ascii_strdown]
  exact ⟨h, fun model => gtk_tree_model_filter_all _ h _⟩

/-- Claim C3: a folder row, as `remmina_main_load_file_tree_traverse` writes it, is
visible for every query, whatever the name, group, date and labels of its
group; so is every row whose icon column is "folder-symbolic". -/
theorem filter_visible_folder :
    (∀ (query : CStr) (data : RemminaGroupData),
      remmina_main_filter_visible_func query (folder_row data) = true) ∧
    (∀ (query : CStr) (row : Row), row.protocol = some folder_symbolic →
      remmina_main_filter_visible_func query row = true) := by
  have h : ∀ (query : CStr) (row : Row), row.protocol = some folder_symbolic →
      remmina_main_filter_visible_func query row = true := by
    intro query row hrow
    have h0 : g_strcmp0 row.protocol (some folder_symbolic) = 0 :=
      (g_strcmp0_eq_zero _ _).mpr hrow
    simp [remmina_main_filter_visible_func, h0]
  exact ⟨fun query data => h query (folder_row data) rfl, h⟩

theorem filter_visible_folder_witness :
    remmina_main_filter_visible_func (cstr "prod")
      (folder_row { name := some (cstr "Work"), group := some (cstr "Work"),
                    datetime := none, labels := none }) = true :=
  filter_visible_folder.1 _ _

/-- Claim C4 (amended): the filter is insensitive to the case of the ASCII
letters: queries equal up to the case of the letters A..Z give the same result
on rows that differ only in the case of such letters in name, group, server,
protocol, date and labels. -/
theorem filter_visible_case_insensitive (query query' : CStr) (row row' : Row)
    (hq : caseEq query query') (hrow : Row.caseVariant row row') :
    remmina_main_filter_visible_func query row =
      remmina_main_filter_visible_func query' row' := by
  unfold remmina_main_filter_visible_func
  rw [g_ascii_strdown_caseEq hq, hrow.protocol, g_ascii_strdown_caseEqOpt hrow.name,
    g_ascii_strdown_caseEqOpt hrow.group, g_ascii_strdown_caseEqOpt hrow.server,
    g_ascii_strdown_caseEqOpt hrow.plugin, g_ascii_strdown_caseEqOpt hrow.date,
    g_ascii_strdown_caseEqOpt hrow.labels]

theorem filter_visible_case_insensitive_witness :
    caseEq (cstr "PROD") (cstr "prod") ∧
    Row.caseVariant P1 P1_upper ∧
    remmina_main_filter_visible_func (cstr "PROD") P1 =
      remmina_main_filter_visible_func (cstr "prod") P1_upper :=
  have hq : caseEq (cstr "PROD") (cstr "prod") := by decide
  have hr : Row.caseVariant P1 P1_upper :=
    ⟨rfl, by decide, by decide, by decide, by decide, by decide, by decide⟩
  ⟨hq, hr, filter_visible_case_insensitive _ _ _ _ hq hr⟩

/-- The claim as stated fails for letters outside ASCII: "É" and "é" are equal
up to letter case, yet the row named "Café" is visible for the query "é" and
hidden for the query "É", whose bytes `g_ascii_strdown` leaves as they are. -/
theorem filter_visible_non_ascii_case_counterexample :
    letterCaseEq "É" "é" ∧ utf8 "É" ≠ [] ∧ utf8 "é" ≠ [] ∧
    utf8 "é" = [195, 169] ∧ utf8 "É" = [195, 137] ∧
    remmina_main_filter_visible_func (utf8 "é") cafe_row = true ∧
    remmina_main_filter_visible_func (utf8 "É") cafe_row = false := by
  refine ⟨by decide, by decide, by decide, by decide, by decide, by decide, by decide⟩

/-- Claim C5: on a profile row and a non-empty query without a comma, the row is
visible iff the case-folded query is a substring of the case-folded name,
group, server, protocol or date, or of at least one comma-separated token of
the case-folded labels. -/
theorem filter_visible_single_token (query : CStr) (row : Row) (hq : query ≠ [])
    (hcomma : comma ∉ query) (hrow : row.protocol ≠ some folder_symbolic) :
    remmina_main_filter_visible_func query row = true ↔
      substringMatch query row ∨
        ∃ l ∈ List.splitOn comma (g_ascii_strdown (row.labels.getD [])),
          g_ascii_strdown query <:+: l := by
  have hq' : g_ascii_strdown query ≠ [] := fun h => hq ((g_ascii_strdown_eq_nil _).mp h)
  have hs : List.splitOn comma (g_ascii_strdown query) = [g_ascii_strdown query] := by
    rw [← splitAt_eq_splitOn, splitAt_not_mem _ _ (comma_not_mem_strdown hcomma)]
  rw [filter_visible_aux query row hq hrow]
  simp only [labelMatch, hs, List.mem_singleton, forall_eq, ne_eq, hq', not_false_eq_true,
    true_implies]
  constructor
  · rintro (h | ⟨_, h⟩)
    · exact Or.inl h
    · exact Or.inr h
  · rintro (h | h)
    · exact Or.inl h
    · refine Or.inr ⟨?_, h⟩
      intro hl
      obtain ⟨l, hl', hin⟩ := h
      rw [hl] at hl'
      have : l = [] := by simpa [g_ascii_strdown, List.splitOn, List.splitOnP_nil] using hl'
      rw [this, List.infix_nil] at hin
      exact hq' hin

theorem filter_visible_single_token_witness :
    remmina_main_filter_visible_func (cstr "prod") P1 = true ∧
    remmina_main_filter_visible_func (cstr "prod") P2 = false :=
  ⟨(filter_visible_single_token (cstr "prod") P1 (by decide) (by decide) (by decide)).mpr
      (by decide),
    Bool.eq_false_iff.mpr (fun h =>
      absurd ((filter_visible_single_token (cstr "prod") P2 (by decide) (by decide)
        (by decide)).mp h) (by decide))⟩

/-- Claim C6: on a profile row and a non-empty query, when the whole query is a
substring of none of name, group, server, protocol and date, and some
non-empty comma-separated token of the query is a substring of no label
token, the row is hidden. -/
theorem filter_hidden_token_and (query : CStr) (row : Row) (hq : query ≠ [])
    (hrow : row.protocol ≠ some folder_symbolic)
    (hsub : ¬ substringMatch query row)
    (htok : ∃ t ∈ List.splitOn comma (g_ascii_strdown query), t ≠ [] ∧
      ∀ l ∈ List.splitOn comma (g_ascii_strdown (row.labels.getD [])), ¬ t <:+: l) :
    remmina_main_filter_visible_func query row = false := by
  rw [Bool.eq_false_iff]
  intro h
  rcases (filter_visible_aux query row hq hrow).mp h with h1 | ⟨_, h2⟩
  · exact hsub h1
  · obtain ⟨t, ht, hne, hno⟩ := htok
    obtain ⟨l, hl, hin⟩ := h2 t ht hne
    exact hno l hl hin

theorem filter_hidden_token_and_witness :
    (∃ f ∈ textFields P1, g_ascii_strdown (cstr "work") <:+: g_ascii_strdown (f.getD [])) ∧
    remmina_main_filter_visible_func (cstr "work,home") P1 = false :=
  ⟨by decide,
    filter_hidden_token_and (cstr "work,home") P1 (by decide) (by decide) (by decide)
      (by decide)⟩

/-! ## Lemmas on the tree store -/

theorem folder_group_matches_iff (g : Option CStr) (row : Row) :
    folder_group_matches g row = true ↔ (row.filename = none ∧ g_strcmp0 row.group g = 0) := by
  simp [folder_group_matches, g_strcmp0_eq_zero]

mutual
theorem load_file_tree_find_row_eq (g : Option CStr) :
    ∀ n : TreeNode, load_file_tree_find_row g n =
      ((preorder_row n).find? (fun e => folder_group_matches g e.2)).map Prod.fst
  | .mk row children => by
    simp only [load_file_tree_find_row, preorder_row, List.find?_cons]
    by_cases h : row.filename = none ∧ g_strcmp0 row.group g = 0
    · have hm : folder_group_matches g row = true := (folder_group_matches_iff g row).mpr h
      simp [h, hm]
    · have hm : folder_group_matches g row = false :=
        Bool.eq_false_iff.mpr (fun hh => h ((folder_group_matches_iff g row).mp hh))
      simp only [h, if_false, hm]
      exact load_file_tree_find_from_eq g 0 children
theorem load_file_tree_find_from_eq (g : Option CStr) :
    ∀ (i : Nat) (l : List TreeNode), load_file_tree_find_from g i l =
      ((preorder_from i l).find? (fun e => folder_group_matches g e.2)).map Prod.fst
  | _, [] => by simp [load_file_tree_find_from, preorder_from]
  | i, n :: ns => by
    simp only [load_file_tree_find_from, preorder_from, List.find?_append, List.find?_map]
    rw [load_file_tree_find_row_eq g n, load_file_tree_find_from_eq g (i + 1) ns]
    cases h : (preorder_row n).find? (fun e => folder_group_matches g e.2) with
    | none =>
      have h' : List.find? ((fun e => folder_group_matches g e.2) ∘
          fun e : TreeIter × Row => (i :: e.1, e.2)) (preorder_row n) = none := h
      simp [h']
    | some e =>
      have h' : List.find? ((fun e => folder_group_matches g e.2) ∘
          fun e : TreeIter × Row => (i :: e.1, e.2)) (preorder_row n) = some e := h
      simp [h']
end

theorem remmina_main_load_file_tree_find_eq (store : TreeStore) (g : Option CStr) :
    remmina_main_load_file_tree_find store g = first_folder_by_group store g :=
  load_file_tree_find_from_eq g 0 store

theorem nodeAt_cons_zero (n : TreeNode) (ns : List TreeNode) (q : List Nat) (hq : q ≠ []) :
    nodeAt (n :: ns) (0 :: q) = nodeAt n.children q := by
  cases q with
  | nil => exact absurd rfl hq
  | cons j q' => cases n; simp [nodeAt, TreeNode.children]

theorem nodeAt_cons_succ (n : TreeNode) (ns : List TreeNode) (k : Nat) (q : List Nat) :
    nodeAt (n :: ns) ((k + 1) :: q) = nodeAt ns (k :: q) := by
  cases q with
  | nil => simp [nodeAt]
  | cons j q' => simp [nodeAt]

mutual
theorem load_file_tree_find_row_valid (g : Option CStr) :
    ∀ (n : TreeNode) (p : TreeIter), load_file_tree_find_row g n = some p →
      (p = [] ∧ folder_group_matches g n.row = true) ∨
      (p ≠ [] ∧ ∃ m, nodeAt n.children p = some m ∧ folder_group_matches g m.row = true)
  | .mk row children, p => by
    intro h
    simp only [load_file_tree_find_row] at h
    by_cases hm : row.filename = none ∧ g_strcmp0 row.group g = 0
    · simp only [hm, and_self, if_true, Option.some.injEq] at h
      exact Or.inl ⟨h.symm, (folder_group_matches_iff g row).mpr hm⟩
    · simp only [hm, if_false] at h
      obtain ⟨k, q, m, hp, hn, hmm⟩ := load_file_tree_find_from_valid g 0 children p h
      refine Or.inr ⟨by simp [hp], m, ?_, hmm⟩
      simpa [hp, TreeNode.children] using hn
theorem load_file_tree_find_from_valid (g : Option CStr) :
    ∀ (i : Nat) (l : List TreeNode) (p : TreeIter), load_file_tree_find_from g i l = some p →
      ∃ k q m, p = (i + k) :: q ∧ nodeAt l (k :: q) = some m ∧
        folder_group_matches g m.row = true
  | _, [], p => by simp [load_file_tree_find_from]
  | i, n :: ns, p => by
    intro h
    simp only [load_file_tree_find_from] at h
    cases hr : load_file_tree_find_row g n with
    | some q =>
      simp only [hr, Option.some.injEq] at h
      rcases load_file_tree_find_row_valid g n q hr with ⟨hq, hm⟩ | ⟨hq, m, hn, hm⟩
      · exact ⟨0, [], n, by simp [← h, hq], by simp [nodeAt], hm⟩
      · exact ⟨0, q, m, by simp [← h], by rw [nodeAt_cons_zero n ns q hq]; exact hn, hm⟩
    | none =>
      simp only [hr] at h
      obtain ⟨k, q, m, hp, hn, hm⟩ := load_file_tree_find_from_valid g (i + 1) ns p h
      exact ⟨k + 1, q, m, by rw [hp]; congr 1; omega, by rw [nodeAt_cons_succ]; exact hn, hm⟩
end

theorem remmina_main_load_file_tree_find_valid (store : TreeStore) (g : Option CStr)
    (p : TreeIter) (h : remmina_main_load_file_tree_find store g = some p) :
    ∃ m, nodeAt store p = some m ∧ m.row.filename = none ∧ m.row.group = g := by
  obtain ⟨k, q, m, hp, hn, hm⟩ := load_file_tree_find_from_valid g 0 store p h
  refine ⟨m, by simpa [hp] using hn, ?_⟩
  simpa [folder_group_matches] using hm

theorem nodeAt_appendUnder (r : Row) :
    ∀ (p : List Nat) (s : TreeStore) (n : TreeNode), nodeAt s p = some n →
      nodeAt (appendUnder s p r).1 p = some (.mk n.row (n.children ++ [.mk r []]))
  | [], s, n => by simp [nodeAt]
  | [i], s, n => by
    intro h
    simp only [nodeAt] at h
    have hi : i < s.length := by
      by_contra hc
      rw [List.getElem?_eq_none (by omega)] at h
      exact absurd h (by simp)
    cases n with
    | mk row ch =>
      simp [appendUnder, h, nodeAt, hi, TreeNode.row, TreeNode.children]
  | i :: j :: q, s, n => by
    intro h
    simp only [nodeAt] at h
    cases hs : s[i]? with
    | none => simp [hs] at h
    | some x =>
      cases x with
      | mk row ch =>
        simp only [hs] at h
        have hi : i < s.length := by
          by_contra hc
          rw [List.getElem?_eq_none (by omega)] at hs
          exact absurd hs (by simp)
        have ih := nodeAt_appendUnder r (j :: q) ch n h
        have e : appendUnder s (i :: j :: q) r =
            (s.set i (.mk row (appendUnder ch (j :: q) r).1),
              i :: (appendUnder ch (j :: q) r).2) := by
          rw [appendUnder]; simp only [hs]
        rw [e]
        simp only [nodeAt]
        simp [hi, ih]

theorem select_file_from_eq_none (filename : Option CStr) :
    ∀ (i : Nat) (l : List TreeNode),
      select_file_from filename i l = none ↔ ∀ n ∈ l, n.row.filename ≠ filename
  | _, [] => by simp [select_file_from]
  | i, n :: ns => by
    rw [select_file_from]
    by_cases h : g_strcmp0 n.row.filename filename = 0
    · have h' := (g_strcmp0_eq_zero _ _).mp h
      rw [if_pos h]
      simp [h']
    · have h' : n.row.filename ≠ filename := fun e => h ((g_strcmp0_eq_zero _ _).mpr e)
      simp [h, h', select_file_from_eq_none filename (i + 1) ns]

theorem top_level_mem_preorder :
    ∀ (i : Nat) (l : List TreeNode) (n : TreeNode), n ∈ l →
      ∃ p, (p, n.row) ∈ preorder_from i l
  | _, [], n => by simp
  | i, m :: ms, n => by
    intro h
    rcases List.mem_cons.mp h with rfl | h
    · refine ⟨[i], ?_⟩
      cases n with
      | mk row ch => simp [preorder_from, preorder_row, TreeNode.row]
    · obtain ⟨p, hp⟩ := top_level_mem_preorder (i + 1) ms n h
      exact ⟨p, by simp [preorder_from, hp]⟩

theorem remmina_main_select_file_eq_none (forest : List TreeNode) (filename : Option CStr)
    (h : ∀ e ∈ preorder forest, e.2.filename ≠ filename) :
    remmina_main_select_file forest filename = none := by
  have h0 : select_file_from filename 0 forest = none := by
    rw [select_file_from_eq_none]
    intro n hn
    obtain ⟨p, hp⟩ := top_level_mem_preorder 0 forest n hn
    exact h (p, n.row) hp
  unfold remmina_main_select_file
  cases gtk_tree_model_get_iter_first forest <;> simp [h0]

theorem remmina_main_selection_func_sort (m : RemminaMain) (model : List TreeNode)
    (path : TreeIter) (b : Bool) :
    (remmina_main_selection_func m model path b).file_model_sort = m.file_model_sort := by
  unfold remmina_main_selection_func
  split
  · rfl
  · split <;> rfl

theorem remmina_main_save_expanded_group_selected (m : RemminaMain) :
    (remmina_main_save_expanded_group m).selected_filename = m.selected_filename := by
  unfold remmina_main_save_expanded_group
  split <;> rfl

/-- The selection after a reload: the row `remmina_main_select_file` finds in
the new sorted model for the filename selected before, if there was one. -/
theorem remmina_main_load_files_selection (fm : FileManager)
    (sort_le : Int → Int → Row → Row → Bool) (pref : RemminaPref) (m : RemminaMain) :
    (remmina_main_load_files fm sort_le pref m).selection =
      match m.selected_filename with
      | none => []
      | some filename =>
        (remmina_main_select_file (remmina_main_load_files fm sort_le pref m).file_model_sort
          (some filename)).toList := by
  unfold remmina_main_load_files
  cases hsel : m.selected_filename with
  | none => simp only []
  | some filename =>
    simp only []
    split
    · next iter hs => simp only [remmina_main_selection_func_sort, hs, Option.toList]
    · next hs => simp only [hs, Option.toList]

/-! ## Group attachment and selection restore: claims -/

/-- Claim C7 (amended): the tree callback attaches the profile row as the last child
of the first row in pre-order that has no filename (a folder row) and whose
group column, not its name, equals the group field of the profile; when there
is none, the row is appended at the top level. -/
theorem tree_callback_attaches_by_group (status_check : Bool) (network_states : NetworkStates)
    (remminafile : RemminaFile) (store : TreeStore) :
    match first_folder_by_group store remminafile.group with
    | some p =>
      ∃ folder, nodeAt store p = some folder ∧ folder.row.filename = none ∧
        folder.row.group = remminafile.group ∧
        nodeAt (remmina_main_load_file_tree_callback status_check network_states
            remminafile store) p =
          some (.mk folder.row (folder.children ++
            [.mk (profile_row remminafile
              (status_icon status_check network_states remminafile)) []]))
    | none =>
      remmina_main_load_file_tree_callback status_check network_states remminafile store =
        store ++ [.mk (profile_row remminafile
          (status_icon status_check network_states remminafile)) []] := by
  rw [← remmina_main_load_file_tree_find_eq]
  cases hf : remmina_main_load_file_tree_find store remminafile.group with
  | none =>
    simp only [remmina_main_load_file_tree_callback, hf]
    cases gtk_tree_model_get_iter_first store <;>
      simp [gtk_tree_store_append, appendUnder]
  | some p =>
    obtain ⟨folder, hn, h1, h2⟩ :=
      remmina_main_load_file_tree_find_valid store remminafile.group p hf
    refine ⟨folder, hn, h1, h2, ?_⟩
    have hne : gtk_tree_model_get_iter_first store = some [0] := by
      cases store with
      | nil => simp [remmina_main_load_file_tree_find, load_file_tree_find_from] at hf
      | cons a l => rfl
    simp only [remmina_main_load_file_tree_callback, hf, hne, gtk_tree_store_append,
      Option.getD_some]
    exact nodeAt_appendUnder _ p store folder hn

/-- Claim C7 as stated fails: in `team_store` the first folder in pre-order named
"Team" is the one nested in "Work", at path [0, 0]; a profile of group "Team"
is not attached to it but to the later folder of group "Team", at path [1]. -/
theorem tree_callback_by_name_counterexample :
    first_folder_by_name team_store team_profile.group = some [0, 0] ∧
    (nodeAt team_store [0, 0]).map (fun n => n.row.name) = some team_profile.group ∧
    (nodeAt (remmina_main_load_file_tree_callback false [] team_profile team_store)
      [0, 0]).map (fun n => n.children.length) = some 0 ∧
    (nodeAt (remmina_main_load_file_tree_callback false [] team_profile team_store)
      [1, 0]).map TreeNode.row = some (profile_row team_profile []) := by
  decide

/-- Claim C8: when no folder row of the store has the group of the profile, also
when the store has no row at all, the tree callback appends the profile row at
the top level, after the rows that are there. -/
theorem tree_callback_no_match_root (status_check : Bool) (network_states : NetworkStates)
    (remminafile : RemminaFile) (store : TreeStore)
    (h : ∀ e ∈ preorder store, ¬ (e.2.filename = none ∧ e.2.group = remminafile.group)) :
    remmina_main_load_file_tree_callback status_check network_states remminafile store =
      store ++ [.mk (profile_row remminafile
        (status_icon status_check network_states remminafile)) []] := by
  have hf : remmina_main_load_file_tree_find store remminafile.group = none := by
    rw [remmina_main_load_file_tree_find_eq, first_folder_by_group, Option.map_eq_none',
      List.find?_eq_none]
    intro e he
    simpa [folder_group_matches] using h e he
  simp only [remmina_main_load_file_tree_callback, hf]
  cases gtk_tree_model_get_iter_first store <;> simp [gtk_tree_store_append, appendUnder]

theorem tree_callback_no_match_root_witness :
    remmina_main_load_file_tree_callback false [] home_profile work_store =
      work_store ++ [.mk (profile_row home_profile (status_icon false [] home_profile)) []] ∧
    remmina_main_load_file_tree_callback false [] home_profile [] =
      [] ++ [.mk (profile_row home_profile (status_icon false [] home_profile)) []] :=
  ⟨tree_callback_no_match_root false [] home_profile work_store (by decide),
    tree_callback_no_match_root false [] home_profile [] (by decide)⟩

/-- Claim C9 fails on the code at a nested row: after a load in tree layout the
profile row is the child [0, 0] of the folder row; once it is selected, a
reload with the same profiles builds the same rows, the row of the selected
filename is again at [0, 0], and the selection is empty. -/
theorem select_file_misses_nested_row (sort_le : Int → Int → Row → Row → Bool) :
    (selected_main sort_le).selected_filename = some (cstr "/home/u/p1.remmina") ∧
    (nodeAt (remmina_main_load_files work_manager sort_le tree_pref
        (selected_main sort_le)).file_model_sort [0, 0]).map (fun n => n.row.filename) =
      some (some (cstr "/home/u/p1.remmina")) ∧
    (remmina_main_load_files work_manager sort_le tree_pref
      (selected_main sort_le)).selection = [] ∧
    remmina_main_select_file
      (remmina_main_load_files work_manager sort_le tree_pref
        (selected_main sort_le)).file_model_sort (some (cstr "/home/u/p1.remmina")) = none := by
  refine ⟨rfl, rfl, rfl, rfl⟩

/-- Claim C10: when the filename occurs on no row of the model, at any depth,
`remmina_main_select_file` selects no row; and a reload whose new model does
not have the previously selected filename leaves the selection empty. -/
theorem select_file_absent (forest : List TreeNode) (filename : Option CStr)
    (h : ∀ e ∈ preorder forest, e.2.filename ≠ filename) :
    remmina_main_select_file forest filename = none ∧
    ∀ (fm : FileManager) (sort_le : Int → Int → Row → Row → Bool) (pref : RemminaPref)
      (m : RemminaMain), m.selected_filename = filename →
      (remmina_main_load_files fm sort_le pref m).file_model_sort = forest →
      (remmina_main_load_files fm sort_le pref m).selection = [] := by
  have h1 := remmina_main_select_file_eq_none forest filename h
  refine ⟨h1, ?_⟩
  intro fm sort_le pref m hm hforest
  rw [remmina_main_load_files_selection, hforest, hm]
  cases filename with
  | none => rfl
  | some f => simp only [h1, Option.toList]
theorem select_file_absent_witness :
    remmina_main_select_file work_loaded_store (some (cstr "/home/u/gone.remmina")) = none ∧
    remmina_main_select_file [] (some (cstr "/home/u/gone.remmina")) = none :=
  ⟨(select_file_absent work_loaded_store _ (by decide)).1,
    (select_file_absent [] (some (cstr "/home/u/gone.remmina")) (by decide)).1⟩
/-! ## Lemmas on the reload -/

theorem remmina_main_selection_func_eq (m : RemminaMain) (model : List TreeNode)
    (path : TreeIter) (b : Bool) :
    ∃ name filename bar, remmina_main_selection_func m model path b =
      { m with selected_name := name, selected_filename := filename, statusbar_main := bar } := by
  unfold remmina_main_selection_func
  split
  · exact ⟨m.selected_name, m.selected_filename, m.statusbar_main, rfl⟩
  · split
    · exact ⟨m.selected_name, m.selected_filename, m.statusbar_main, rfl⟩
    · exact ⟨_, _, _, rfl⟩

theorem remmina_main_save_expanded_group_eq (m : RemminaMain) :
    ∃ groups, remmina_main_save_expanded_group m = { m with expanded_group := groups } := by
  unfold remmina_main_save_expanded_group
  split
  · exact ⟨_, rfl⟩
  · exact ⟨m.expanded_group, rfl⟩

theorem remmina_main_selection_func_file_model (m : RemminaMain) (model : List TreeNode)
    (path : TreeIter) (b : Bool) :
    (remmina_main_selection_func m model path b).file_model = m.file_model := by
  obtain ⟨_, _, _, h⟩ := remmina_main_selection_func_eq m model path b
  rw [h]

theorem remmina_main_selection_func_sort_column_id (m : RemminaMain) (model : List TreeNode)
    (path : TreeIter) (b : Bool) :
    (remmina_main_selection_func m model path b).sort_column_id = m.sort_column_id := by
  obtain ⟨_, _, _, h⟩ := remmina_main_selection_func_eq m model path b
  rw [h]

theorem remmina_main_selection_func_sort_order (m : RemminaMain) (model : List TreeNode)
    (path : TreeIter) (b : Bool) :
    (remmina_main_selection_func m model path b).sort_order = m.sort_order := by
  obtain ⟨_, _, _, h⟩ := remmina_main_selection_func_eq m model path b
  rw [h]

theorem remmina_main_selection_func_expanded_group (m : RemminaMain) (model : List TreeNode)
    (path : TreeIter) (b : Bool) :
    (remmina_main_selection_func m model path b).expanded_group = m.expanded_group := by
  obtain ⟨_, _, _, h⟩ := remmina_main_selection_func_eq m model path b
  rw [h]

theorem remmina_main_selection_func_expanded_rows (m : RemminaMain) (model : List TreeNode)
    (path : TreeIter) (b : Bool) :
    (remmina_main_selection_func m model path b).expanded_rows = m.expanded_rows := by
  obtain ⟨_, _, _, h⟩ := remmina_main_selection_func_eq m model path b
  rw [h]

theorem remmina_main_selection_func_override_view_file_mode_to_list (m : RemminaMain) (model : List TreeNode)
    (path : TreeIter) (b : Bool) :
    (remmina_main_selection_func m model path b).override_view_file_mode_to_list = m.override_view_file_mode_to_list := by
  obtain ⟨_, _, _, h⟩ := remmina_main_selection_func_eq m model path b
  rw [h]

theorem remmina_main_selection_func_entry_quick_connect_server (m : RemminaMain) (model : List TreeNode)
    (path : TreeIter) (b : Bool) :
    (remmina_main_selection_func m model path b).entry_quick_connect_server = m.entry_quick_connect_server := by
  obtain ⟨_, _, _, h⟩ := remmina_main_selection_func_eq m model path b
  rw [h]

theorem remmina_main_selection_func_network_states (m : RemminaMain) (model : List TreeNode)
    (path : TreeIter) (b : Bool) :
    (remmina_main_selection_func m model path b).network_states = m.network_states := by
  obtain ⟨_, _, _, h⟩ := remmina_main_selection_func_eq m model path b
  rw [h]

theorem remmina_main_selection_func_view_toggle_button (m : RemminaMain) (model : List TreeNode)
    (path : TreeIter) (b : Bool) :
    (remmina_main_selection_func m model path b).view_toggle_button = m.view_toggle_button := by
  obtain ⟨_, _, _, h⟩ := remmina_main_selection_func_eq m model path b
  rw [h]

theorem remmina_main_selection_func_column_files_list_group (m : RemminaMain) (model : List TreeNode)
    (path : TreeIter) (b : Bool) :
    (remmina_main_selection_func m model path b).column_files_list_group = m.column_files_list_group := by
  obtain ⟨_, _, _, h⟩ := remmina_main_selection_func_eq m model path b
  rw [h]

/-- The fields of the main window after a reload, apart from the selection
data. -/
theorem remmina_main_load_files_fields (fm : FileManager)
    (sort_le : Int → Int → Row → Row → Bool) (pref : RemminaPref) (m : RemminaMain) :
    (remmina_main_load_files fm sort_le pref m).file_model = some (load_files_model fm pref m) ∧
    (remmina_main_load_files fm sort_le pref m).file_model_sort =
      load_files_sorted fm sort_le pref m ∧
    (remmina_main_load_files fm sort_le pref m).sort_column_id = pref.main_sort_column_id ∧
    (remmina_main_load_files fm sort_le pref m).sort_order = pref.main_sort_order ∧
    (remmina_main_load_files fm sort_le pref m).expanded_group =
      (remmina_main_save_expanded_group m).expanded_group ∧
    (remmina_main_load_files fm sort_le pref m).expanded_rows =
      remmina_main_expand_group (remmina_main_save_expanded_group m).expanded_group
        (load_files_sorted fm sort_le pref m) [] ∧
    (remmina_main_load_files fm sort_le pref m).override_view_file_mode_to_list =
      m.override_view_file_mode_to_list ∧
    (remmina_main_load_files fm sort_le pref m).entry_quick_connect_server =
      m.entry_quick_connect_server ∧
    (remmina_main_load_files fm sort_le pref m).network_states = m.network_states := by
  obtain ⟨groups, hg⟩ := remmina_main_save_expanded_group_eq m
  unfold remmina_main_load_files load_files_sorted load_files_model effective_view_file_mode
  rw [hg]
  cases hsel : m.selected_filename with
  | none => refine ⟨?_, ?_, ?_, ?_, ?_, ?_, ?_, ?_, ?_⟩ <;> rfl
  | some filename =>
    dsimp only
    split
    · refine ⟨?_, ?_, ?_, ?_, ?_, ?_, ?_, ?_, ?_⟩ <;>
        simp only [remmina_main_selection_func_file_model, remmina_main_selection_func_sort_column_id, remmina_main_selection_func_sort_order, remmina_main_selection_func_expanded_group, remmina_main_selection_func_expanded_rows, remmina_main_selection_func_override_view_file_mode_to_list, remmina_main_selection_func_entry_quick_connect_server, remmina_main_selection_func_network_states, remmina_main_selection_func_view_toggle_button, remmina_main_selection_func_column_files_list_group, remmina_main_selection_func_sort]
    · refine ⟨?_, ?_, ?_, ?_, ?_, ?_, ?_, ?_, ?_⟩ <;> rfl
theorem list_callbacks_eq (status_check : Bool) (network_states : NetworkStates) :
    ∀ (files : List RemminaFile) (store : List Row),
      files.foldl (fun st f => remmina_main_load_file_list_callback status_check
        network_states f st) store =
      store ++ files.map (fun f => profile_row f (status_icon status_check network_states f))
  | [], store => by simp
  | f :: fs, store => by
    simp only [List.foldl_cons, List.map_cons]
    rw [list_callbacks_eq status_check network_states fs]
    simp [remmina_main_load_file_list_callback]

theorem load_files_newmodel_list (fm : FileManager) (status_check : Bool)
    (network_states : NetworkStates) (view_file_mode : Int)
    (h : view_file_mode ≠ REMMINA_VIEW_FILE_TREE) :
    load_files_newmodel fm status_check network_states view_file_mode =
      (FileModel.list_store
        (fm.files.map (fun f => profile_row f (status_icon status_check network_states f))),
       true, fm.files.length) := by
  unfold load_files_newmodel remmina_file_manager_iterate
  rw [if_neg h, list_callbacks_eq]
  rfl

theorem profile_row_ne_folder_row (f : RemminaFile) (status : CStr) (d : RemminaGroupData) :
    profile_row f status ≠ folder_row d := by
  intro h
  have := congrArg Row.status h
  simp [profile_row, folder_row] at this

/-! ## Sort persistence and the layouts: claims -/

/-- Claim C13: the sort handler writes the column and the direction of the
sort model to the preferences and saves them before it returns; every reload
gives the sort model the stored column and direction, so a reload after the
handler, and a second reload after that, keep the column and direction the
user chose. -/
theorem sort_persistence_round_trip (columnid order : Int) (s : PrefState) (fm fm2 : FileManager)
    (sort_le : Int → Int → Row → Row → Bool) (m : RemminaMain) :
    (remmina_main_file_model_on_sort columnid order s).remmina_pref.main_sort_column_id
      = columnid ∧
    (remmina_main_file_model_on_sort columnid order s).remmina_pref.main_sort_order = order ∧
    (remmina_main_file_model_on_sort columnid order s).saved =
      (remmina_main_file_model_on_sort columnid order s).remmina_pref ∧
    (∀ pref : RemminaPref,
      (remmina_main_load_files fm sort_le pref m).sort_column_id = pref.main_sort_column_id ∧
      (remmina_main_load_files fm sort_le pref m).sort_order = pref.main_sort_order ∧
      (remmina_main_load_files fm sort_le pref m).file_model_sort =
        gtk_tree_model_sort (sort_le pref.main_sort_column_id pref.main_sort_order)
          (gtk_tree_model_filter
            (remmina_main_filter_visible_func m.entry_quick_connect_server)
            (load_files_model fm pref m).forest)) ∧
    (remmina_main_load_files fm sort_le
      (remmina_main_file_model_on_sort columnid order s).remmina_pref m).sort_column_id
      = columnid ∧
    (remmina_main_load_files fm sort_le
      (remmina_main_file_model_on_sort columnid order s).remmina_pref m).sort_order = order ∧
    (remmina_main_load_files fm2 sort_le
      (remmina_main_file_model_on_sort columnid order s).remmina_pref
      (remmina_main_load_files fm sort_le
        (remmina_main_file_model_on_sort columnid order s).remmina_pref m)).sort_column_id
      = columnid ∧
    (remmina_main_load_files fm2 sort_le
      (remmina_main_file_model_on_sort columnid order s).remmina_pref
      (remmina_main_load_files fm sort_le
        (remmina_main_file_model_on_sort columnid order s).remmina_pref m)).sort_order
      = order := by
  refine ⟨rfl, rfl, rfl, ?_, ?_, ?_, ?_, ?_⟩
  · intro pref
    obtain ⟨_, h2, h3, h4, _⟩ := remmina_main_load_files_fields fm sort_le pref m
    exact ⟨h3, h4, h2⟩
  · exact (remmina_main_load_files_fields fm sort_le _ m).2.2.1
  · exact (remmina_main_load_files_fields fm sort_le _ m).2.2.2.1
  · exact (remmina_main_load_files_fields fm2 sort_le _ _).2.2.1
  · exact (remmina_main_load_files_fields fm2 sort_le _ _).2.2.2.1

/-- Claim C14: in list layout the model a reload builds is a list store with
exactly one profile row per enumerated profile, in enumeration order, and no
other row; each row carries the name, group, server, protocol, labels and
filename of its profile. -/
theorem list_layout_model (fm : FileManager) (sort_le : Int → Int → Row → Row → Bool)
    (pref : RemminaPref) (m : RemminaMain)
    (h : effective_view_file_mode pref m ≠ REMMINA_VIEW_FILE_TREE) :
    (remmina_main_load_files fm sort_le pref m).file_model =
      some (FileModel.list_store
        (fm.files.map (fun f =>
          profile_row f (status_icon pref.status_check m.network_states f)))) ∧
    (∀ (f : RemminaFile) (status : CStr),
      (profile_row f status).name = f.name ∧ (profile_row f status).group = f.group ∧
      (profile_row f status).server = f.server ∧ (profile_row f status).plugin = f.protocol ∧
      (profile_row f status).labels = f.labels ∧
      (profile_row f status).filename = f.filename) := by
  refine ⟨?_, fun f status => ⟨rfl, rfl, rfl, rfl, rfl, rfl⟩⟩
  rw [(remmina_main_load_files_fields fm sort_le pref m).1, load_files_model,
    load_files_newmodel_list fm _ _ _ h]

theorem list_layout_model_witness :
    (remmina_main_load_files work_manager (fun _ _ _ _ => true)
      { tree_pref with view_file_mode := REMMINA_VIEW_FILE_LIST } initial_main).file_model =
      some (FileModel.list_store
        (work_manager.files.map (fun f => profile_row f (status_icon false [] f)))) :=
  (list_layout_model work_manager (fun _ _ _ _ => true)
    { tree_pref with view_file_mode := REMMINA_VIEW_FILE_LIST } initial_main (by decide)).1

/-- Claim C16: a reload builds a tree store exactly when the layout preference
is Tree and the search override is not set; in every other case, also for an
unknown value of the preference, it builds a list store whose rows are the
profile rows of the enumerated profiles, none of which is a folder row. -/
theorem layout_invariant (fm : FileManager) (sort_le : Int → Int → Row → Row → Bool)
    (pref : RemminaPref) (m : RemminaMain) :
    (remmina_main_load_files fm sort_le pref m).file_model =
      some (if pref.view_file_mode = REMMINA_VIEW_FILE_TREE ∧
              m.override_view_file_mode_to_list = false
        then FileModel.tree_store
          (fm.files.foldl (fun store f => remmina_main_load_file_tree_callback
              pref.status_check m.network_states f store)
            (remmina_main_load_file_tree_group fm.group_tree []))
        else FileModel.list_store
          (fm.files.map (fun f =>
            profile_row f (status_icon pref.status_check m.network_states f)))) ∧
    (∀ row ∈ fm.files.map (fun f =>
        profile_row f (status_icon pref.status_check m.network_states f)),
      ∀ d : RemminaGroupData, row ≠ folder_row d) := by
  constructor
  · rw [(remmina_main_load_files_fields fm sort_le pref m).1]
    by_cases h : pref.view_file_mode = REMMINA_VIEW_FILE_TREE ∧
        m.override_view_file_mode_to_list = false
    · rw [if_pos h]
      simp [load_files_model, effective_view_file_mode, h.1, h.2, load_files_newmodel,
        remmina_file_manager_iterate]
    · rw [if_neg h]
      have hm : effective_view_file_mode pref m ≠ REMMINA_VIEW_FILE_TREE := by
        unfold effective_view_file_mode
        by_cases ho : m.override_view_file_mode_to_list = true
        · simp [ho, REMMINA_VIEW_FILE_LIST, REMMINA_VIEW_FILE_TREE]
        · have ho' : m.override_view_file_mode_to_list = false := by simpa using ho
          simp only [ho', Bool.false_eq_true, if_false]
          exact fun hv => h ⟨hv, ho'⟩
      rw [load_files_model, load_files_newmodel_list fm _ _ _ hm]
  · intro row hrow d
    obtain ⟨f, _, rfl⟩ := List.mem_map.mp hrow
    exact profile_row_ne_folder_row f _ d
/-! ## Batch actions: lemmas and claims -/

theorem delete_multiple_loop_spec (env : BatchEnv) (model : List TreeNode)
    (hgate : ∀ n, env.unlock_new n ≠ 0) :
    ∀ (list : List TreeIter) (n : Nat),
      deleted_files (delete_multiple_loop env model list n) =
        (list.takeWhile (readable model)).map (filename_at model) ∧
      warning_count (delete_multiple_loop env model list n) =
        (if list.all (readable model) then 0 else 1)
  | [], n => by simp [delete_multiple_loop, deleted_files, warning_count]
  | path :: rest, n => by
    cases h : nodeAt model path with
    | none =>
      have hr : readable model path = false := by simp [readable, h]
      simp [delete_multiple_loop, h, hr, deleted_files, warning_count]
    | some node =>
      have hr : readable model path = true := by simp [readable, h]
      have hf : filename_at model path = node.row.filename := by simp [filename_at, h]
      have hu : decide (env.unlock_new n = 0) = false := by simpa using hgate n
      obtain ⟨ih1, ih2⟩ := delete_multiple_loop_spec env model hgate rest
        (if ((env.lock_edit && env.use_primary_password)
          || decide (env.profile_lock node.row.filename ≠ 0)) = true then n + 1 else n)
      simp only [delete_multiple_loop, h, hu, Bool.and_false, Bool.false_eq_true, if_false,
        List.takeWhile_cons, hr, if_true, List.map_cons, hf, List.all_cons, Bool.true_and]
      constructor
      · unfold deleted_files at ih1 ⊢
        rw [List.filterMap_append, List.filterMap_append, ih1]
        split <;> simp
      · unfold warning_count at ih2 ⊢
        rw [List.countP_append, List.countP_append, ih2]
        split <;> simp

theorem connect_multiple_loop_spec (env : BatchEnv) (model : List TreeNode)
    (hgate : ∀ n, env.unlock_new n ≠ 0) :
    ∀ (list : List TreeIter) (n : Nat),
      opened_files (connect_multiple_loop env model list n) =
        (list.takeWhile (fun p => readable model p && env.file_load (filename_at model p))).map
          (filename_at model) ∧
      warning_count (connect_multiple_loop env model list n) =
        (match list.dropWhile
            (fun p => readable model p && env.file_load (filename_at model p)) with
          | [] => 0
          | p :: _ => if readable model p then 0 else 1)
  | [], n => by simp [connect_multiple_loop, opened_files, warning_count]
  | path :: rest, n => by
    cases h : nodeAt model path with
    | none =>
      have hr : readable model path = false := by simp [readable, h]
      simp [connect_multiple_loop, h, hr, opened_files, warning_count]
    | some node =>
      have hr : readable model path = true := by simp [readable, h]
      have hf : filename_at model path = node.row.filename := by simp [filename_at, h]
      by_cases hl : env.file_load node.row.filename = false
      · simp [connect_multiple_loop, h, hr, hf, hl, opened_files, warning_count]
      · have hl' : env.file_load node.row.filename = true := by simpa using hl
        have hu : ∀ k, decide (env.unlock_new k = 0) = false := fun k => by simpa using hgate k
        obtain ⟨ih1, ih2⟩ := connect_multiple_loop_spec env model hgate rest
          (if decide (env.profile_lock node.row.filename = 1) = true then
            (if ((env.lock_edit && env.use_primary_password)
              || decide (env.profile_lock node.row.filename ≠ 0)) = true then n + 1 else n) + 1
           else
            (if ((env.lock_edit && env.use_primary_password)
              || decide (env.profile_lock node.row.filename ≠ 0)) = true then n + 1 else n))
        simp only [connect_multiple_loop, h, hl', hu, Bool.and_false, Bool.false_eq_true,
          if_false, List.takeWhile_cons, List.dropWhile_cons, hr, hf, Bool.and_self, if_true,
          List.map_cons, Bool.true_eq_false]
        constructor
        · unfold opened_files at ih1 ⊢
          rw [List.filterMap_append, List.filterMap_append, List.filterMap_append, ih1]
          split <;> split <;> simp
        · unfold warning_count at ih2 ⊢
          rw [List.countP_append, List.countP_append, List.countP_append, ih2]
          split <;> split <;> simp

theorem open_env_unlock_new : ∀ n, open_env.unlock_new n ≠ 0 := by
  intro n
  show (1 : Int) ≠ 0
  decide

/-- Claim C18: for a confirmed delete-multiple in which no lock gate refuses,
the files deleted are those of the selected rows before the first row that
cannot be read, in selection order, and nothing else; exactly one failure
dialog is run when some row cannot be read, none when all rows are read. -/
theorem delete_multiple_abort (env : BatchEnv) (model : List TreeNode) (list : List TreeIter)
    (hgate : ∀ n, env.unlock_new n ≠ 0) :
    deleted_files (remmina_main_on_action_connection_delete_multiple env model list true) =
      (list.takeWhile (readable model)).map (filename_at model) ∧
    warning_count (remmina_main_on_action_connection_delete_multiple env model list true) =
      (if list.all (readable model) then 0 else 1) := by
  obtain ⟨h1, h2⟩ := delete_multiple_loop_spec env model hgate list 0
  constructor
  · simpa [remmina_main_on_action_connection_delete_multiple, deleted_files] using h1
  · simpa [remmina_main_on_action_connection_delete_multiple, warning_count] using h2

theorem delete_multiple_abort_witness :
    readable three_rows [0] = true ∧ readable three_rows [5] = false ∧
    deleted_files (remmina_main_on_action_connection_delete_multiple open_env three_rows
      [[0], [5], [2]] true) = [some (cstr "/home/u/p1.remmina")] ∧
    warning_count (remmina_main_on_action_connection_delete_multiple open_env three_rows
      [[0], [5], [2]] true) = 1 :=
  ⟨by decide, by decide,
    (delete_multiple_abort open_env three_rows [[0], [5], [2]] open_env_unlock_new).1.trans (by decide),
    (delete_multiple_abort open_env three_rows [[0], [5], [2]] open_env_unlock_new).2.trans (by decide)⟩

/-- Claim C19 (amended): when no lock gate refuses, connect-multiple opens the
profiles of the selected rows, in selection order, up to the first row that
cannot be read or whose profile cannot be loaded, and no later one; a failure
message is shown, once, only when the batch stops at a row that cannot be
read, and none when it stops at a profile that cannot be loaded. -/
theorem connect_multiple_abort (env : BatchEnv) (model : List TreeNode) (list : List TreeIter)
    (hgate : ∀ n, env.unlock_new n ≠ 0) :
    opened_files (remmina_main_on_action_connection_connect_multiple env model list) =
      (list.takeWhile (fun p => readable model p && env.file_load (filename_at model p))).map
        (filename_at model) ∧
    warning_count (remmina_main_on_action_connection_connect_multiple env model list) =
      (match list.dropWhile
          (fun p => readable model p && env.file_load (filename_at model p)) with
        | [] => 0
        | p :: _ => if readable model p then 0 else 1) :=
  connect_multiple_loop_spec env model hgate list 0

theorem connect_multiple_abort_witness :
    opened_files (remmina_main_on_action_connection_connect_multiple open_env three_rows
      [[0], [5], [2]]) = [some (cstr "/home/u/p1.remmina")] ∧
    warning_count (remmina_main_on_action_connection_connect_multiple open_env three_rows
      [[0], [5], [2]]) = 1 :=
  ⟨(connect_multiple_abort open_env three_rows [[0], [5], [2]] open_env_unlock_new).1.trans (by decide),
    (connect_multiple_abort open_env three_rows [[0], [5], [2]] open_env_unlock_new).2.trans (by decide)⟩

/-- Claim C19 as stated fails: when the profile of the first selected row
cannot be loaded the batch stops without any failure message. -/
theorem connect_multiple_silent_counterexample :
    readable three_rows [0] = true ∧
    failing_env.file_load (filename_at three_rows [0]) = false ∧
    opened_files (remmina_main_on_action_connection_connect_multiple failing_env three_rows
      [[0], [1]]) = [] ∧
    warning_count (remmina_main_on_action_connection_connect_multiple failing_env three_rows
      [[0], [1]]) = 0 := by
  decide
/-! ## Quick connect: lemmas and claims -/

theorem is_empty_loop_iff (s : CStr) : is_empty_loop s = true ↔ ∀ c ∈ s, isspace c = true := by
  induction s with
  | nil => simp [is_empty_loop]
  | cons c cs ih =>
    rw [is_empty_loop]
    by_cases h : isspace c = true
    · simp [h, ih]
    · simp [h]

theorem strstr_singleton (s : CStr) (c : Nat) : strstr s [c] = true ↔ c ∈ s := by
  rw [strstr_iff]
  constructor
  · intro h
    exact h.subset (List.mem_singleton_self c)
  · intro h
    obtain ⟨a, b, rfl⟩ := List.append_of_mem h
    exact ⟨a, b, by simp⟩

/-- Claim C20: `is_empty` holds exactly of NULL, of the empty string and of a
string of whitespace only; quick connect opens a profile iff the server string
converts to an ASCII hostname, has no '/' and is not blank, and opens nothing
in every other case. -/
theorem quickconnect_validation (lib : HostnameLib) (qcp : Option CStr) (last : CStr)
    (entry_text : CStr) :
    (∀ s : Option CStr, is_empty s = true ↔
      (s = none ∨ s = some [] ∨ ∃ t, s = some t ∧ ∀ c ∈ t, isspace c = true)) ∧
    ((remmina_main_quickconnect lib qcp last entry_text).opened.isSome = true ↔
      (lib.g_hostname_to_ascii entry_text ≠ none ∧ 47 ∉ entry_text ∧
        is_empty (some entry_text) = false)) := by
  constructor
  · intro s
    cases s with
    | none => simp [is_empty]
    | some t =>
      simp only [is_empty, is_empty_loop_iff, false_or, Option.some.injEq, exists_eq_left',
        reduceCtorEq]
      constructor
      · exact fun h => Or.inr h
      · rintro (h | h)
        · simp [h]
        · exact h
  · have hs : strstr entry_text (cstr "/") = true ↔ 47 ∈ entry_text :=
      strstr_singleton entry_text 47
    cases h1 : lib.g_hostname_to_ascii entry_text with
    | none => simp [remmina_main_quickconnect, h1]
    | some a =>
      by_cases h2 : strstr entry_text (cstr "/") = true
      · simp [remmina_main_quickconnect, h1, h2, hs.mp h2]
      · have h2' : 47 ∉ entry_text := fun h => h2 (hs.mpr h)
        by_cases h3 : is_empty (some entry_text) = true
        · simp [remmina_main_quickconnect, h1, h2, h2', h3]
        · simp [remmina_main_quickconnect, h1, h2, h2', h3]
/-! ## The rows of the built model: lemmas -/

theorem tree_rows_append : ∀ (a b : List TreeNode), tree_rows (a ++ b) = tree_rows a ++ tree_rows b
  | [], b => by simp [tree_rows]
  | n :: ns, b => by simp [tree_rows, tree_rows_append ns b]

theorem tree_rows_set_perm (row : Row) (ch ch' : List TreeNode) (extra : List Row)
    (hperm : (tree_rows ch').Perm (extra ++ tree_rows ch)) :
    ∀ (s : List TreeNode) (i : Nat), s[i]? = some (.mk row ch) →
      (tree_rows (s.set i (.mk row ch'))).Perm (extra ++ tree_rows s)
  | [], i => by simp
  | x :: xs, 0 => by
    intro h
    simp only [List.getElem?_cons_zero, Option.some.injEq] at h
    subst h
    simp only [List.set_cons_zero, tree_rows, tree_rows_row, List.cons_append]
    refine (List.Perm.cons row (List.Perm.append_right _ hperm)).trans ?_
    rw [List.append_assoc]
    exact (List.perm_middle).symm
  | x :: xs, i + 1 => by
    intro h
    simp only [List.getElem?_cons_succ] at h
    have ih := tree_rows_set_perm row ch ch' extra hperm xs i h
    simp only [List.set_cons_succ, tree_rows]
    refine (List.Perm.append_left _ ih).trans ?_
    rw [← List.append_assoc, ← List.append_assoc]
    exact List.Perm.append_right _ List.perm_append_comm

theorem tree_rows_appendUnder_perm (r : Row) :
    ∀ (p : List Nat) (s : TreeStore), (p = [] ∨ (nodeAt s p).isSome = true) →
      (tree_rows (appendUnder s p r).1).Perm ([r] ++ tree_rows s)
  | [], s => by
    intro _
    simp only [appendUnder, tree_rows_append, tree_rows, tree_rows_row, List.append_nil]
    exact List.perm_append_comm
  | [i], s => by
    intro h
    rcases h with h | h
    · simp at h
    · simp only [nodeAt] at h
      cases hs : s[i]? with
      | none => simp [hs] at h
      | some n =>
        cases n with
        | mk row ch =>
          have e : appendUnder s [i] r = (s.set i (.mk row (ch ++ [.mk r []])), [i, ch.length]) := by
            rw [appendUnder]; simp only [hs, appendUnder]
          rw [e]
          exact tree_rows_set_perm row ch _ [r]
            (by simp only [tree_rows_append, tree_rows, tree_rows_row, List.append_nil]
                exact List.perm_append_comm) s i hs
  | i :: j :: q, s => by
    intro h
    rcases h with h | h
    · simp at h
    · simp only [nodeAt] at h
      cases hs : s[i]? with
      | none => simp [hs] at h
      | some n =>
        cases n with
        | mk row ch =>
          simp only [hs] at h
          have ih := tree_rows_appendUnder_perm r (j :: q) ch (Or.inr h)
          have e : appendUnder s (i :: j :: q) r =
              (s.set i (.mk row (appendUnder ch (j :: q) r).1),
                i :: (appendUnder ch (j :: q) r).2) := by
            rw [appendUnder]; simp only [hs]
          rw [e]
          exact tree_rows_set_perm row ch _ [r] ih s i hs

theorem tree_rows_set_mem (row : Row) (ch ch' : List TreeNode) (r : Row)
    (hmem : ∀ x ∈ tree_rows ch', x ∈ tree_rows ch ∨ x = r) :
    ∀ (s : List TreeNode) (i : Nat), s[i]? = some (.mk row ch) →
      ∀ x ∈ tree_rows (s.set i (.mk row ch')), x ∈ tree_rows s ∨ x = r
  | [], i => by simp
  | y :: ys, 0 => by
    intro h x hx
    simp only [List.getElem?_cons_zero, Option.some.injEq] at h
    subst h
    simp only [List.set_cons_zero, tree_rows, tree_rows_row, List.cons_append, List.mem_cons,
      List.mem_append] at hx ⊢
    rcases hx with rfl | hx | hx
    · exact Or.inl (Or.inl rfl)
    · rcases hmem x hx with h | h
      · exact Or.inl (Or.inr (Or.inl h))
      · exact Or.inr h
    · exact Or.inl (Or.inr (Or.inr hx))
  | y :: ys, i + 1 => by
    intro h x hx
    simp only [List.getElem?_cons_succ] at h
    simp only [List.set_cons_succ, tree_rows, List.mem_append] at hx ⊢
    rcases hx with hx | hx
    · exact Or.inl (Or.inl hx)
    · rcases tree_rows_set_mem row ch ch' r hmem ys i h x hx with h | h
      · exact Or.inl (Or.inr h)
      · exact Or.inr h

theorem tree_rows_appendUnder_mem (r : Row) :
    ∀ (p : List Nat) (s : TreeStore),
      ∀ x ∈ tree_rows (appendUnder s p r).1, x ∈ tree_rows s ∨ x = r
  | [], s => by
    intro x hx
    simp only [appendUnder, tree_rows_append, tree_rows, tree_rows_row, List.append_nil,
      List.mem_append, List.mem_singleton] at hx
    exact hx
  | i :: q, s => by
    intro x hx
    cases hs : s[i]? with
    | none =>
      rw [appendUnder] at hx
      simp only [hs] at hx
      exact Or.inl hx
    | some n =>
      cases n with
      | mk row ch =>
        rw [appendUnder] at hx
        simp only [hs] at hx
        exact tree_rows_set_mem row ch _ r (tree_rows_appendUnder_mem r q ch) s i hs x hx

mutual
theorem traverse_rows (node : GNode) :
    ∀ (store : TreeStore) (parent : Option TreeIter),
      ∀ x ∈ tree_rows (remmina_main_load_file_tree_traverse node store parent),
        x ∈ tree_rows store ∨ ∃ d, x = folder_row d :=
  match node with
  | .mk data children => by
    intro store parent x hx
    cases data with
    | none =>
      rw [remmina_main_load_file_tree_traverse] at hx
      exact traverse_children_rows children store none x hx
    | some d =>
      rw [remmina_main_load_file_tree_traverse] at hx
      rcases traverse_children_rows children _ _ x hx with h | h
      · rcases tree_rows_appendUnder_mem (folder_row d) _ store x h with h' | h'
        · exact Or.inl h'
        · exact Or.inr ⟨d, h'⟩
      · exact Or.inr h
theorem traverse_children_rows (children : List GNode) :
    ∀ (store : TreeStore) (parent : Option TreeIter),
      ∀ x ∈ tree_rows (load_file_tree_traverse_children children store parent),
        x ∈ tree_rows store ∨ ∃ d, x = folder_row d :=
  match children with
  | [] => by
    intro store parent x hx
    rw [load_file_tree_traverse_children] at hx
    exact Or.inl hx
  | child :: rest => by
    intro store parent x hx
    rw [load_file_tree_traverse_children] at hx
    rcases traverse_children_rows rest _ _ x hx with h | h
    · exact traverse_rows child store parent x h
    · exact Or.inr h
end

theorem tree_group_rows (root : GNode) :
    ∀ x ∈ tree_rows (remmina_main_load_file_tree_group root []), x.filename = none := by
  intro x hx
  rcases traverse_rows root [] none x hx with h | ⟨d, rfl⟩
  · simp [tree_rows] at h
  · rfl

theorem tree_callback_rows_perm (status_check : Bool) (network_states : NetworkStates)
    (f : RemminaFile) (store : TreeStore) :
    (tree_rows (remmina_main_load_file_tree_callback status_check network_states f store)).Perm
      ([profile_row f (status_icon status_check network_states f)] ++ tree_rows store) := by
  unfold remmina_main_load_file_tree_callback gtk_tree_store_append
  cases hi : gtk_tree_model_get_iter_first store with
  | none => exact tree_rows_appendUnder_perm _ [] store (Or.inl rfl)
  | some it =>
    cases hf : remmina_main_load_file_tree_find store f.group with
    | none => exact tree_rows_appendUnder_perm _ [] store (Or.inl rfl)
    | some p =>
      obtain ⟨m, hm, _⟩ := remmina_main_load_file_tree_find_valid store f.group p hf
      exact tree_rows_appendUnder_perm _ p store (Or.inr (by simp [hm]))

theorem tree_callbacks_rows_perm (status_check : Bool) (network_states : NetworkStates) :
    ∀ (files : List RemminaFile) (store : TreeStore),
      (tree_rows (files.foldl (fun st f => remmina_main_load_file_tree_callback status_check
        network_states f st) store)).Perm
      (files.map (fun f => profile_row f (status_icon status_check network_states f))
        ++ tree_rows store)
  | [], store => by simp
  | f :: fs, store => by
    simp only [List.foldl_cons, List.map_cons]
    refine (tree_callbacks_rows_perm status_check network_states fs _).trans ?_
    refine (List.Perm.append_left _
      (tree_callback_rows_perm status_check network_states f store)).trans ?_
    simp only [List.singleton_append, List.cons_append]
    exact List.perm_middle

theorem tree_rows_leaves : ∀ rows : List Row,
    tree_rows (rows.map (fun r => TreeNode.mk r [])) = rows
  | [] => by simp [tree_rows]
  | r :: rs => by simp [tree_rows, tree_rows_row, tree_rows_leaves rs]

/-- The rows of the model a reload builds, in either layout: the profile rows
of the enumerated profiles, each once, and rows without filename. -/
theorem load_files_newmodel_rows (fm : FileManager) (status_check : Bool)
    (network_states : NetworkStates) (view_file_mode : Int) :
    ∃ folders : List Row, (∀ x ∈ folders, x.filename = none) ∧
      (tree_rows (load_files_newmodel fm status_check network_states
        view_file_mode).1.forest).Perm
      (fm.files.map (fun f => profile_row f (status_icon status_check network_states f))
        ++ folders) := by
  by_cases h : view_file_mode = REMMINA_VIEW_FILE_TREE
  · refine ⟨tree_rows (remmina_main_load_file_tree_group fm.group_tree []),
      tree_group_rows fm.group_tree, ?_⟩
    simp only [load_files_newmodel, h, if_true, remmina_file_manager_iterate, FileModel.forest]
    exact tree_callbacks_rows_perm status_check network_states fm.files _
  · refine ⟨[], by simp, ?_⟩
    rw [load_files_newmodel_list fm _ _ _ h]
    simp only [FileModel.forest, tree_rows_leaves, List.append_nil]
    exact List.Perm.refl _

theorem countP_filename_zero (files : List RemminaFile) (a : Option CStr)
    (h : a ∉ files.map RemminaFile.filename) :
    files.countP (fun g => decide (g.filename = a)) = 0 := by
  rw [List.countP_eq_zero]
  intro g hg
  simp only [decide_eq_true_eq]
  exact fun e => h (e ▸ List.mem_map_of_mem _ hg)

theorem countP_filename_le_one : ∀ (files : List RemminaFile) (a : Option CStr),
    (files.map RemminaFile.filename).Nodup →
    files.countP (fun g => decide (g.filename = a)) ≤ 1
  | [], a, _ => by simp
  | g :: gs, a, h => by
    simp only [List.map_cons, List.nodup_cons] at h
    rw [List.countP_cons]
    by_cases e : g.filename = a
    · rw [countP_filename_zero gs a (e ▸ h.1)]
      simp [e]
    · have := countP_filename_le_one gs a h.2
      simp [e, this]

theorem countP_filename_eq_one : ∀ (files : List RemminaFile) (a : Option CStr),
    (files.map RemminaFile.filename).Nodup → a ∈ files.map RemminaFile.filename →
    files.countP (fun g => decide (g.filename = a)) = 1
  | [], a, _, hm => by simp at hm
  | g :: gs, a, h, hm => by
    simp only [List.map_cons, List.nodup_cons] at h
    rw [List.countP_cons]
    by_cases e : g.filename = a
    · rw [countP_filename_zero gs a (e ▸ h.1)]
      simp [e]
    · simp only [List.map_cons, List.mem_cons] at hm
      rcases hm with hm | hm
      · exact absurd hm.symm e
      · rw [countP_filename_eq_one gs a h.2 hm]
        simp [e]

/-- The number of rows of a filename in the model a reload builds is the
number of enumerated profiles of that filename. -/
theorem load_files_newmodel_count (fm : FileManager) (status_check : Bool)
    (network_states : NetworkStates) (view_file_mode : Int) (name : CStr) :
    (tree_rows (load_files_newmodel fm status_check network_states
      view_file_mode).1.forest).countP (fun r => decide (r.filename = some name)) =
    fm.files.countP (fun g => decide (g.filename = some name)) := by
  obtain ⟨folders, hfold, hperm⟩ :=
    load_files_newmodel_rows fm status_check network_states view_file_mode
  rw [hperm.countP_eq, List.countP_append, List.countP_map]
  have h0 : folders.countP (fun r => decide (r.filename = some name)) = 0 := by
    rw [List.countP_eq_zero]
    intro x hx
    simp [hfold x hx]
  rw [h0, Nat.add_zero]
  rfl

/-- Claim C17: when the enumerated profiles have pairwise distinct, non-null
filenames, every enumerated filename occurs on exactly one row of the model a
reload builds, in either layout, and no filename occurs on two rows. -/
theorem identity_unique (fm : FileManager) (status_check : Bool)
    (network_states : NetworkStates) (view_file_mode : Int)
    (hnodup : (fm.files.map RemminaFile.filename).Nodup)
    (hnonnull : ∀ f ∈ fm.files, f.filename ≠ none) :
    (∀ f ∈ fm.files,
      (tree_rows (load_files_newmodel fm status_check network_states
        view_file_mode).1.forest).countP (fun r => decide (r.filename = f.filename)) = 1) ∧
    (∀ name : CStr,
      (tree_rows (load_files_newmodel fm status_check network_states
        view_file_mode).1.forest).countP (fun r => decide (r.filename = some name)) ≤ 1) := by
  constructor
  · intro f hf
    cases hfn : f.filename with
    | none => exact absurd hfn (hnonnull f hf)
    | some name =>
      rw [load_files_newmodel_count]
      exact countP_filename_eq_one fm.files (some name) hnodup
        (by rw [← hfn]; exact List.mem_map_of_mem _ hf)
  · intro name
    rw [load_files_newmodel_count]
    exact countP_filename_le_one fm.files (some name) hnodup

/-! ## The shape of the tree store: lemmas -/

theorem appendUnder_fst (r : Row) :
    ∀ (p : List Nat) (s : TreeStore), (appendUnder s p r).1 = graft s p [.mk r []]
  | [], s => rfl
  | i :: q, s => by
    rw [appendUnder, graft]
    cases hs : s[i]? with
    | none => rfl
    | some n =>
      cases n with
      | mk row ch => simp only [appendUnder_fst r q ch]

theorem appendUnder_snd (r : Row) :
    ∀ (p : List Nat) (s : TreeStore), validPath s p →
      (appendUnder s p r).2 = p ++ [childCount s p]
  | [], s => by intro _; rfl
  | i :: q, s => by
    intro h
    rw [validPath] at h
    rw [appendUnder, childCount]
    cases hs : s[i]? with
    | none => simp [hs] at h
    | some n =>
      cases n with
      | mk row ch =>
        simp only [hs] at h
        simp only [appendUnder_snd r q ch h, List.cons_append]

theorem getElem?_lt_of_some {α : Type} {l : List α} {i : Nat} {a : α} (h : l[i]? = some a) :
    i < l.length := by
  by_contra hc
  rw [List.getElem?_eq_none (by omega)] at h
  exact absurd h (by simp)

theorem set_of_getElem? {α : Type} : ∀ (l : List α) (i : Nat) (a : α),
    l[i]? = some a → l.set i a = l
  | [], _, _ => by simp
  | x :: xs, 0, a => by
    intro h
    simp only [List.getElem?_cons_zero, Option.some.injEq] at h
    simp [h]
  | x :: xs, i + 1, a => by
    intro h
    simp only [List.getElem?_cons_succ] at h
    simp [set_of_getElem? xs i a h]

theorem graft_nil : ∀ (p : List Nat) (s : TreeStore), graft s p [] = s
  | [], s => by simp [graft]
  | i :: q, s => by
    rw [graft]
    cases hs : s[i]? with
    | none => rfl
    | some n =>
      cases n with
      | mk row ch =>
        simp only [graft_nil q ch]
        exact set_of_getElem? s i _ hs

theorem validPath_graft (new : List TreeNode) :
    ∀ (p : List Nat) (s : TreeStore), validPath s p → validPath (graft s p new) p
  | [], s => by intro _; trivial
  | i :: q, s => by
    intro h
    rw [validPath] at h
    rw [graft]
    cases hs : s[i]? with
    | none => simp [hs] at h
    | some n =>
      cases n with
      | mk row ch =>
        simp only [hs] at h
        simp only []
        rw [validPath, List.getElem?_set_self (getElem?_lt_of_some hs)]
        exact validPath_graft new q ch h

theorem validPath_graft_new (r : Row) (c : List TreeNode) :
    ∀ (p : List Nat) (s : TreeStore), validPath s p →
      validPath (graft s p [.mk r c]) (p ++ [childCount s p])
  | [], s => by
    intro _
    simp [graft, childCount, validPath]
  | i :: q, s => by
    intro h
    rw [validPath] at h
    rw [graft, childCount]
    cases hs : s[i]? with
    | none => simp [hs] at h
    | some n =>
      cases n with
      | mk row ch =>
        simp only [hs] at h
        simp only [List.cons_append]
        rw [validPath, List.getElem?_set_self (getElem?_lt_of_some hs)]
        exact validPath_graft_new r c q ch h

theorem graft_graft (new1 new2 : List TreeNode) :
    ∀ (p : List Nat) (s : TreeStore), validPath s p →
      graft (graft s p new1) p new2 = graft s p (new1 ++ new2)
  | [], s => by intro _; simp [graft]
  | i :: q, s => by
    intro h
    rw [validPath] at h
    cases hs : s[i]? with
    | none => simp [hs] at h
    | some n =>
      cases n with
      | mk row ch =>
        simp only [hs] at h
        have e1 : graft s (i :: q) new1 = s.set i (.mk row (graft ch q new1)) := by
          rw [graft]; simp only [hs]
        have e2 : graft s (i :: q) (new1 ++ new2) = s.set i (.mk row (graft ch q (new1 ++ new2))) := by
          rw [graft]; simp only [hs]
        rw [e1, e2, graft, List.getElem?_set_self (getElem?_lt_of_some hs)]
        simp only [List.set_set, graft_graft new1 new2 q ch h]

theorem graft_into_new (r : Row) (c new : List TreeNode) :
    ∀ (p : List Nat) (s : TreeStore), validPath s p →
      graft (graft s p [.mk r c]) (p ++ [childCount s p]) new = graft s p [.mk r (c ++ new)]
  | [], s => by
    intro _
    simp only [graft, childCount, List.nil_append]
    rw [List.getElem?_concat_length]
    simp only [graft]
    rw [List.set_append_right _ _ (Nat.le_refl _)]
    simp
  | i :: q, s => by
    intro h
    rw [validPath] at h
    cases hs : s[i]? with
    | none => simp [hs] at h
    | some n =>
      cases n with
      | mk row ch =>
        simp only [hs] at h
        have e1 : graft s (i :: q) [.mk r c] = s.set i (.mk row (graft ch q [.mk r c])) := by
          rw [graft]; simp only [hs]
        have e2 : graft s (i :: q) [.mk r (c ++ new)] =
            s.set i (.mk row (graft ch q [.mk r (c ++ new)])) := by
          rw [graft]; simp only [hs]
        have e3 : childCount s (i :: q) = childCount ch q := by
          rw [childCount]; simp only [hs]
        rw [e1, e2, e3, List.cons_append, graft,
          List.getElem?_set_self (getElem?_lt_of_some hs)]
        simp only [List.set_set, graft_into_new r c new q ch h]

mutual
theorem traverse_eq_graft (node : GNode) :
    all_data node = true → ∀ (store : TreeStore) (parent : Option TreeIter),
      validPath store (parent.getD []) →
      remmina_main_load_file_tree_traverse node store parent =
        graft store (parent.getD []) (folder_tree node) :=
  match node with
  | .mk data children => by
    intro hd store parent hv
    rw [all_data, Bool.and_eq_true] at hd
    cases data with
    | none => simp at hd
    | some d =>
      rw [remmina_main_load_file_tree_traverse, folder_tree]
      simp only [gtk_tree_store_append]
      rw [appendUnder_fst, appendUnder_snd _ _ _ hv]
      rw [traverse_children_eq_graft children hd.2 _
        (some (parent.getD [] ++ [childCount store (parent.getD [])]))
        (validPath_graft_new (folder_row d) [] _ store hv)]
      simp only [Option.getD_some]
      rw [graft_into_new _ _ _ _ _ hv]
      simp
theorem traverse_children_eq_graft (children : List GNode) :
    all_data_list children = true → ∀ (store : TreeStore) (parent : Option TreeIter),
      validPath store (parent.getD []) →
      load_file_tree_traverse_children children store parent =
        graft store (parent.getD []) (folder_forest children) :=
  match children with
  | [] => by
    intro _ store parent _
    rw [load_file_tree_traverse_children, folder_forest, graft_nil]
  | child :: rest => by
    intro hd store parent hv
    rw [all_data_list, Bool.and_eq_true] at hd
    rw [load_file_tree_traverse_children, folder_forest,
      traverse_eq_graft child hd.1 store parent hv,
      traverse_children_eq_graft rest hd.2 _ parent (validPath_graft _ _ store hv),
      graft_graft _ _ _ store hv]
end

/-- The store after the folders are loaded, for a hierarchy in which only the
root may be without data: the folder rows of the hierarchy, nested in the
same way. -/
theorem remmina_main_load_file_tree_group_eq (root : GNode) (h : below_root_data root = true) :
    remmina_main_load_file_tree_group root [] = folder_tree root := by
  cases root with
  | mk data children =>
    rw [below_root_data] at h
    cases data with
    | none =>
      rw [remmina_main_load_file_tree_group, remmina_main_load_file_tree_traverse, folder_tree,
        traverse_children_eq_graft children h [] none trivial]
      simp [graft]
    | some d =>
      have hd : all_data (.mk (some d) children) = true := by
        rw [all_data]; simp [h]
      rw [remmina_main_load_file_tree_group, traverse_eq_graft _ hd [] none trivial]
      simp [graft]

/-! ## Identity: claim -/

theorem identity_unique_witness :
    (tree_rows (load_files_newmodel team_manager false [] REMMINA_VIEW_FILE_TREE).1.forest).countP
      (fun r => decide (r.filename = some (cstr "/home/u/p3.remmina"))) = 1 :=
  (identity_unique team_manager false [] REMMINA_VIEW_FILE_TREE (by decide) (by decide)).1
    (profile_in "/home/u/p3.remmina" "Work/Team") (by decide)

/-! ## Expansion restore: lemmas -/

theorem remmina_string_array_find_nonneg (array : List CStr) (str : Option CStr) :
    remmina_string_array_find array str ≥ 0 ↔ in_expanded_group array str := by
  unfold remmina_string_array_find in_expanded_group
  cases str with
  | none => simp
  | some g =>
    simp only [Option.some.injEq, exists_eq_left']
    cases h : array.indexOf? g with
    | none =>
      have hn : g ∉ array := by
        intro hm
        rw [List.indexOf?, List.findIdx?_eq_none_iff] at h
        have := h g hm
        simp at this
      simp [hn]
    | some k =>
      have hm : g ∈ array := by
        by_contra hn
        have : array.indexOf? g = none := by
          rw [List.indexOf?, List.findIdx?_eq_none_iff]
          intro x hx
          simp only [beq_eq_false_iff_ne, ne_eq]
          exact fun e => hn (e ▸ hx)
        rw [this] at h
        exact absurd h (by simp)
      simp [hm]

mutual
theorem expand_group_requests_row_iff (eg : List CStr) :
    ∀ (n : TreeNode) (base : List Nat) (i : Nat), parents_are_folders_row n →
      ∀ x, x ∈ expand_group_requests_row eg base i n ↔
        ∃ q m, x = base ++ i :: q ∧ nodeAt [n] (0 :: q) = some m ∧
          m.row.filename = none ∧ in_expanded_group eg m.row.group
  | .mk row children, base, i => by
    intro hp x
    rw [parents_are_folders_row] at hp
    rw [expand_group_requests_row]
    by_cases hf : row.filename = none
    · simp only [hf, if_true, List.mem_append]
      rw [expand_group_requests_from_iff eg children (base ++ [i]) 0 hp.2 x]
      constructor
      · rintro (h | ⟨k, q, m, hx, hn, hm⟩)
        · by_cases hg : remmina_string_array_find eg row.group ≥ 0
          · simp only [hg, if_true, List.mem_singleton] at h
            exact ⟨[], .mk row children, by simp [h], by simp [nodeAt], hf,
              (remmina_string_array_find_nonneg _ _).mp hg⟩
          · simp [hg] at h
        · refine ⟨k :: q, m, by simp [hx], ?_, hm⟩
          rw [nodeAt_cons_zero _ _ _ (by simp)]
          simpa [TreeNode.children] using hn
      · rintro ⟨q, m, hx, hn, hm1, hm2⟩
        cases q with
        | nil =>
          left
          simp only [nodeAt, List.getElem?_cons_zero, Option.some.injEq] at hn
          subst hn
          have hg := (remmina_string_array_find_nonneg _ _).mpr hm2
          simp only [TreeNode.row] at hg
          simp [hg, hx]
        | cons k q' =>
          right
          rw [nodeAt_cons_zero _ _ _ (by simp)] at hn
          exact ⟨k, q', m, by simp [hx], by simpa [TreeNode.children] using hn, hm1, hm2⟩
    · simp only [hf, if_false, List.not_mem_nil, false_iff]
      rintro ⟨q, m, hx, hn, hm1, hm2⟩
      cases q with
      | nil =>
        simp only [nodeAt, List.getElem?_cons_zero, Option.some.injEq] at hn
        subst hn
        exact hf hm1
      | cons k q' =>
        rw [nodeAt_cons_zero _ _ _ (by simp)] at hn
        have hne : children ≠ [] := by
          intro he
          simp only [TreeNode.children, he] at hn
          cases q' <;> simp [nodeAt] at hn
        exact hf (hp.1 hne)
theorem expand_group_requests_from_iff (eg : List CStr) :
    ∀ (l : List TreeNode) (base : List Nat) (i : Nat), parents_are_folders l →
      ∀ x, x ∈ expand_group_requests_from eg base i l ↔
        ∃ k q m, x = base ++ (i + k) :: q ∧ nodeAt l (k :: q) = some m ∧
          m.row.filename = none ∧ in_expanded_group eg m.row.group
  | [], base, i => by
    intro _ x
    simp only [expand_group_requests_from, List.not_mem_nil, false_iff]
    rintro ⟨k, q, m, _, hn, _⟩
    cases q <;> simp [nodeAt] at hn
  | n :: ns, base, i => by
    intro hp x
    rw [parents_are_folders] at hp
    rw [expand_group_requests_from, List.mem_append,
      expand_group_requests_row_iff eg n base i hp.1 x,
      expand_group_requests_from_iff eg ns base (i + 1) hp.2 x]
    constructor
    · rintro (⟨q, m, hx, hn, hm⟩ | ⟨k, q, m, hx, hn, hm⟩)
      · refine ⟨0, q, m, by simp [hx], ?_, hm⟩
        cases q with
        | nil => simpa [nodeAt] using hn
        | cons j q' =>
          rw [nodeAt_cons_zero _ _ _ (by simp)] at hn ⊢
          exact hn
      · exact ⟨k + 1, q, m, by rw [hx]; congr 2; omega, by rw [nodeAt_cons_succ]; exact hn, hm⟩
    · rintro ⟨k, q, m, hx, hn, hm⟩
      cases k with
      | zero =>
        left
        refine ⟨q, m, by simpa using hx, ?_, hm⟩
        cases q with
        | nil => simpa [nodeAt] using hn
        | cons j q' =>
          rw [nodeAt_cons_zero _ _ _ (by simp)] at hn ⊢
          exact hn
      | succ k =>
        right
        rw [nodeAt_cons_succ] at hn
        exact ⟨k, q, m, by rw [hx]; congr 2; omega, hn, hm⟩
end

theorem mem_gtk_tree_view_expand_row (expanded : List TreeIter) (path : TreeIter)
    (has_child : Bool) (x : TreeIter) :
    x ∈ gtk_tree_view_expand_row expanded path has_child ↔
      x ∈ expanded ∨ (x = path ∧ has_child = true ∧ ancestors_expanded expanded path = true) := by
  unfold gtk_tree_view_expand_row
  by_cases hc : has_child = true
  · by_cases ha : ancestors_expanded expanded path = true
    · by_cases hm : path ∈ expanded
      · have hcont : expanded.contains path = true := by simpa using hm
        simp only [hc, ha, hcont, Bool.not_true, Bool.and_false, Bool.false_eq_true, if_false,
          and_self, and_true]
        constructor
        · exact fun h => Or.inl h
        · rintro (h | h)
          · exact h
          · exact h ▸ hm
      · have hcont : expanded.contains path = false := by simpa using hm
        simp [hc, ha, hm]
    · simp [hc, ha]
  · simp [hc]

mutual
theorem expand_group_traverse_row_sound (eg : List CStr) :
    ∀ (n : TreeNode) (base : List Nat) (i : Nat) (expanded : List TreeIter),
      ∀ x ∈ expand_group_traverse_row eg base i n expanded,
        x ∈ expanded ∨ x ∈ expand_group_requests_row eg base i n
  | .mk row children, base, i, expanded => by
    intro x hx
    rw [expand_group_traverse_row] at hx
    rw [expand_group_requests_row]
    by_cases hf : row.filename = none
    · simp only [hf, if_true] at hx ⊢
      rcases expand_group_traverse_from_sound eg children (base ++ [i]) 0 _ x hx with h | h
      · by_cases hg : remmina_string_array_find eg row.group ≥ 0
        · simp only [hg, if_true] at h ⊢
          rcases (mem_gtk_tree_view_expand_row _ _ _ _).mp h with h' | h'
          · exact Or.inl h'
          · exact Or.inr (by simp [h'.1])
        · simp only [hg, if_false] at h
          exact Or.inl h
      · exact Or.inr (List.mem_append_right _ h)
    · simp only [hf, if_false] at hx
      exact Or.inl hx
theorem expand_group_traverse_from_sound (eg : List CStr) :
    ∀ (l : List TreeNode) (base : List Nat) (i : Nat) (expanded : List TreeIter),
      ∀ x ∈ expand_group_traverse_from eg base i l expanded,
        x ∈ expanded ∨ x ∈ expand_group_requests_from eg base i l
  | [], base, i, expanded => by
    intro x hx
    rw [expand_group_traverse_from] at hx
    exact Or.inl hx
  | n :: ns, base, i, expanded => by
    intro x hx
    rw [expand_group_traverse_from] at hx
    rw [expand_group_requests_from]
    rcases expand_group_traverse_from_sound eg ns base (i + 1) _ x hx with h | h
    · rcases expand_group_traverse_row_sound eg n base i expanded x h with h' | h'
      · exact Or.inl h'
      · exact Or.inr (List.mem_append_left _ h')
    · exact Or.inr (List.mem_append_right _ h)
end

/-! ## Rows with children are folder rows: lemmas -/

mutual
theorem parents_are_folders_row_of_rows :
    ∀ n : TreeNode, (∀ x ∈ tree_rows_row n, x.filename = none) → parents_are_folders_row n
  | .mk row children => by
    intro h
    rw [parents_are_folders_row]
    rw [tree_rows_row] at h
    exact ⟨fun _ => h row (List.mem_cons_self _ _),
      parents_are_folders_of_rows children (fun x hx => h x (List.mem_cons_of_mem _ hx))⟩
theorem parents_are_folders_of_rows :
    ∀ l : List TreeNode, (∀ x ∈ tree_rows l, x.filename = none) → parents_are_folders l
  | [] => by intro _; rw [parents_are_folders]; trivial
  | n :: ns => by
    intro h
    rw [parents_are_folders]
    rw [tree_rows] at h
    exact ⟨parents_are_folders_row_of_rows n (fun x hx => h x (List.mem_append_left _ hx)),
      parents_are_folders_of_rows ns (fun x hx => h x (List.mem_append_right _ hx))⟩
end

theorem parents_are_folders_append : ∀ (a b : List TreeNode),
    parents_are_folders a → parents_are_folders b → parents_are_folders (a ++ b)
  | [], b => by intro _ hb; simpa using hb
  | n :: ns, b => by
    intro ha hb
    rw [parents_are_folders] at ha
    rw [List.cons_append, parents_are_folders]
    exact ⟨ha.1, parents_are_folders_append ns b ha.2 hb⟩

theorem parents_are_folders_set (x : TreeNode) (hx : parents_are_folders_row x) :
    ∀ (s : List TreeNode) (i : Nat), parents_are_folders s → parents_are_folders (s.set i x)
  | [], _ => by intro h; simpa using h
  | y :: ys, 0 => by
    intro h
    rw [parents_are_folders] at h
    rw [List.set_cons_zero, parents_are_folders]
    exact ⟨hx, h.2⟩
  | y :: ys, i + 1 => by
    intro h
    rw [parents_are_folders] at h
    rw [List.set_cons_succ, parents_are_folders]
    exact ⟨h.1, parents_are_folders_set x hx ys i h.2⟩

theorem parents_are_folders_getElem? : ∀ (s : List TreeNode) (i : Nat) (n : TreeNode),
    parents_are_folders s → s[i]? = some n → parents_are_folders_row n
  | [], _, _ => by simp
  | y :: ys, 0, n => by
    intro h hs
    rw [parents_are_folders] at h
    simp only [List.getElem?_cons_zero, Option.some.injEq] at hs
    exact hs ▸ h.1
  | y :: ys, i + 1, n => by
    intro h hs
    rw [parents_are_folders] at h
    simp only [List.getElem?_cons_succ] at hs
    exact parents_are_folders_getElem? ys i n h.2 hs

theorem appendUnder_ne_nil (r : Row) (p : List Nat) (s : TreeStore)
    (h : (appendUnder s p r).1 ≠ []) (hp : p ≠ []) : s ≠ [] := by
  intro hs
  subst hs
  cases p with
  | nil => exact hp rfl
  | cons i q => simp [appendUnder] at h

theorem parents_are_folders_appendUnder (r : Row) :
    ∀ (p : List Nat) (s : TreeStore), parents_are_folders s →
      (∀ m, nodeAt s p = some m → m.row.filename = none) →
      parents_are_folders (appendUnder s p r).1
  | [], s => by
    intro h _
    rw [appendUnder]
    refine parents_are_folders_append s _ h ?_
    rw [parents_are_folders, parents_are_folders_row, parents_are_folders]
    exact ⟨⟨fun hne => absurd rfl hne, trivial⟩, trivial⟩
  | i :: q, s => by
    intro h hfold
    rw [appendUnder]
    cases hs : s[i]? with
    | none => exact h
    | some n =>
      cases n with
      | mk row ch =>
        have hn := parents_are_folders_getElem? s i _ h hs
        rw [parents_are_folders_row] at hn
        refine parents_are_folders_set _ ?_ s i h
        rw [parents_are_folders_row]
        cases q with
        | nil =>
          refine ⟨fun _ => ?_, ?_⟩
          · exact hfold (.mk row ch) (by simp [nodeAt, hs])
          · exact parents_are_folders_appendUnder r [] ch hn.2 (by simp [nodeAt])
        | cons j q' =>
          refine ⟨fun hne => hn.1 (appendUnder_ne_nil r (j :: q') ch hne (by simp)), ?_⟩
          refine parents_are_folders_appendUnder r (j :: q') ch hn.2 ?_
          intro m hm
          exact hfold m (by simp only [nodeAt, hs]; exact hm)

theorem parents_are_folders_callback (status_check : Bool) (network_states : NetworkStates)
    (f : RemminaFile) (store : TreeStore) (h : parents_are_folders store) :
    parents_are_folders
      (remmina_main_load_file_tree_callback status_check network_states f store) := by
  unfold remmina_main_load_file_tree_callback gtk_tree_store_append
  cases hi : gtk_tree_model_get_iter_first store with
  | none => exact parents_are_folders_appendUnder _ [] store h (by simp [nodeAt])
  | some it =>
    cases hf : remmina_main_load_file_tree_find store f.group with
    | none => exact parents_are_folders_appendUnder _ [] store h (by simp [nodeAt])
    | some p =>
      obtain ⟨m, hm, hm1, _⟩ := remmina_main_load_file_tree_find_valid store f.group p hf
      refine parents_are_folders_appendUnder _ p store h ?_
      intro m' hm'
      have hm2 : nodeAt store p = some m' := hm'
      rw [hm] at hm2
      exact (Option.some.inj hm2) ▸ hm1

theorem parents_are_folders_callbacks (status_check : Bool) (network_states : NetworkStates) :
    ∀ (files : List RemminaFile) (store : TreeStore), parents_are_folders store →
      parents_are_folders (files.foldl (fun st f => remmina_main_load_file_tree_callback
        status_check network_states f st) store)
  | [], store => by intro h; simpa using h
  | f :: fs, store => by
    intro h
    simp only [List.foldl_cons]
    exact parents_are_folders_callbacks status_check network_states fs _
      (parents_are_folders_callback status_check network_states f store h)

theorem parents_are_folders_leaves : ∀ rows : List Row,
    parents_are_folders (rows.map (fun r => TreeNode.mk r []))
  | [] => by simp [parents_are_folders]
  | r :: rs => by
    rw [List.map_cons, parents_are_folders, parents_are_folders_row, parents_are_folders]
    exact ⟨⟨fun hne => absurd rfl hne, trivial⟩, parents_are_folders_leaves rs⟩

theorem parents_are_folders_newmodel (fm : FileManager) (status_check : Bool)
    (network_states : NetworkStates) (view_file_mode : Int) :
    parents_are_folders
      (load_files_newmodel fm status_check network_states view_file_mode).1.forest := by
  by_cases h : view_file_mode = REMMINA_VIEW_FILE_TREE
  · simp only [load_files_newmodel, h, if_true, remmina_file_manager_iterate, FileModel.forest]
    exact parents_are_folders_callbacks status_check network_states fm.files _
      (parents_are_folders_of_rows _ (tree_group_rows fm.group_tree))
  · rw [load_files_newmodel_list fm _ _ _ h]
    exact parents_are_folders_leaves _

mutual
theorem parents_are_folders_filter_row (visible : Row → Bool) :
    ∀ n : TreeNode, parents_are_folders_row n →
      parents_are_folders (tree_model_filter_row visible n)
  | .mk row children => by
    intro h
    rw [parents_are_folders_row] at h
    rw [tree_model_filter_row]
    by_cases hv : visible row = true
    · simp only [hv, if_true]
      rw [parents_are_folders, parents_are_folders_row, parents_are_folders]
      refine ⟨⟨fun hne => h.1 ?_, parents_are_folders_filter visible children h.2⟩, trivial⟩
      intro he
      rw [he, gtk_tree_model_filter] at hne
      exact hne rfl
    · simp only [hv, if_false, Bool.false_eq_true]
      rw [parents_are_folders]
      trivial
theorem parents_are_folders_filter (visible : Row → Bool) :
    ∀ l : List TreeNode, parents_are_folders l →
      parents_are_folders (gtk_tree_model_filter visible l)
  | [] => by
    intro _
    rw [gtk_tree_model_filter, parents_are_folders]
    trivial
  | n :: ns => by
    intro h
    rw [parents_are_folders] at h
    rw [gtk_tree_model_filter]
    exact parents_are_folders_append _ _ (parents_are_folders_filter_row visible n h.1)
      (parents_are_folders_filter visible ns h.2)
end

theorem parents_are_folders_sort_insert (le : Row → Row → Bool) (x : TreeNode)
    (hx : parents_are_folders_row x) :
    ∀ l : List TreeNode, parents_are_folders l → parents_are_folders (sort_insert le x l)
  | [] => by
    intro _
    rw [sort_insert, parents_are_folders, parents_are_folders]
    exact ⟨hx, trivial⟩
  | y :: ys => by
    intro h
    rw [sort_insert]
    by_cases hle : le x.row y.row = true
    · simp only [hle, if_true]
      rw [parents_are_folders]
      exact ⟨hx, h⟩
    · simp only [hle, if_false, Bool.false_eq_true]
      rw [parents_are_folders] at h ⊢
      exact ⟨h.1, parents_are_folders_sort_insert le x hx ys h.2⟩

mutual
theorem parents_are_folders_sort_row (le : Row → Row → Bool) :
    ∀ n : TreeNode, parents_are_folders_row n →
      parents_are_folders_row (tree_model_sort_row le n)
  | .mk row children => by
    intro h
    rw [parents_are_folders_row] at h
    rw [tree_model_sort_row, parents_are_folders_row]
    refine ⟨fun hne => h.1 ?_, parents_are_folders_sort le children h.2⟩
    intro he
    rw [he, gtk_tree_model_sort] at hne
    exact hne rfl
theorem parents_are_folders_sort (le : Row → Row → Bool) :
    ∀ l : List TreeNode, parents_are_folders l →
      parents_are_folders (gtk_tree_model_sort le l)
  | [] => by
    intro _
    rw [gtk_tree_model_sort, parents_are_folders]
    trivial
  | n :: ns => by
    intro h
    rw [parents_are_folders] at h
    rw [gtk_tree_model_sort]
    exact parents_are_folders_sort_insert le _ (parents_are_folders_sort_row le n h.1) _
      (parents_are_folders_sort le ns h.2)
end

/-- In the rows a reload gives to the tree view, every row that has children
is a row without filename. -/
theorem parents_are_folders_sorted (fm : FileManager)
    (sort_le : Int → Int → Row → Row → Bool) (pref : RemminaPref) (m : RemminaMain) :
    parents_are_folders (load_files_sorted fm sort_le pref m) := by
  unfold load_files_sorted load_files_model
  exact parents_are_folders_sort _ _
    (parents_are_folders_filter _ _ (parents_are_folders_newmodel fm _ _ _))

/-! ## What the tree view expands: lemmas -/

theorem open_at_snoc (E : List TreeIter) (base : List Nat) (i : Nat) :
    open_at E (base ++ [i]) ↔ open_at E base ∧ base ++ [i] ∈ E := by
  unfold open_at
  constructor
  · intro h
    constructor
    · intro j hj hj'
      have := h j hj (by simp; omega)
      rwa [List.take_append_of_le_length hj'] at this
    · have := h (base.length + 1) (by omega) (by simp)
      rwa [List.take_of_length_le (by simp)] at this
  · rintro ⟨h1, h2⟩ j hj hj'
    simp only [List.length_append, List.length_singleton] at hj'
    by_cases hc : j ≤ base.length
    · rw [List.take_append_of_le_length hc]
      exact h1 j hj hc
    · rw [List.take_of_length_le (by simp; omega)]
      exact h2

theorem open_at_congr (E E' : List TreeIter) (base : List Nat)
    (h : ∀ y : TreeIter, y.length ≤ base.length → (y ∈ E' ↔ y ∈ E)) :
    open_at E' base ↔ open_at E base := by
  unfold open_at
  constructor
  · intro h' j hj hj'
    exact (h (base.take j) (by rw [List.length_take]; exact Nat.min_le_right _ _)).mp
      (h' j hj hj')
  · intro h' j hj hj'
    exact (h (base.take j) (by rw [List.length_take]; exact Nat.min_le_right _ _)).mpr
      (h' j hj hj')

theorem contains_iff_mem (E : List TreeIter) (p : TreeIter) :
    E.contains p = true ↔ p ∈ E := by
  simp

theorem ancestors_expanded_iff (E : List TreeIter) (base : List Nat) (i : Nat) :
    ancestors_expanded E (base ++ [i]) = true ↔ open_at E base := by
  unfold ancestors_expanded open_at
  simp only [List.all_eq_true, List.mem_range, List.length_append, List.length_singleton,
    Bool.or_eq_true, decide_eq_true_eq, contains_iff_mem]
  constructor
  · intro h j hj hj'
    rcases h j (by omega) with h0 | h0
    · omega
    · rwa [List.take_append_of_le_length hj'] at h0
  · intro h k hk
    by_cases h0 : k = 0
    · exact Or.inl h0
    · right
      have hk' : k ≤ base.length := by omega
      rw [List.take_append_of_le_length hk']
      exact h k (by omega) hk'

theorem expandable_cons_zero (eg : List CStr) (row : Row) (ch ns : List TreeNode)
    (q : List Nat) :
    expandable eg (TreeNode.mk row ch :: ns) (0 :: q) ↔
      (row.filename = none ∧ in_expanded_group eg row.group ∧ ch ≠ [] ∧
        (q = [] ∨ expandable eg ch q)) := by
  rw [expandable]
  simp

theorem expandable_cons_succ (eg : List CStr) (n : TreeNode) (ns : List TreeNode) (k : Nat)
    (q : List Nat) :
    expandable eg (n :: ns) ((k + 1) :: q) ↔ expandable eg ns (k :: q) := by
  rw [expandable, expandable]
  simp

theorem expandable_nil (eg : List CStr) (p : List Nat) : ¬ expandable eg [] p := by
  cases p with
  | nil => rw [expandable]; exact id
  | cons k q => rw [expandable]; simp

mutual
theorem expand_group_traverse_row_iff (eg : List CStr) :
    ∀ (n : TreeNode) (base : List Nat) (i : Nat) (E : List TreeIter), fresh_region E base i →
      ∀ x, x ∈ expand_group_traverse_row eg base i n E ↔
        x ∈ E ∨ (open_at E base ∧ ∃ q, x = base ++ i :: q ∧ expandable eg [n] (0 :: q))
  | .mk row ch, base, i, E => by
    intro hfresh x
    rw [expand_group_traverse_row]
    by_cases hf : row.filename = none
    · simp only [hf, if_true]
      have hnot : base ++ [i] ∉ E := fun h => hfresh _ h 0 [] (by simp)
      obtain ⟨E1, hE1, hm1⟩ : ∃ E1, E1 = (if remmina_string_array_find eg row.group ≥ 0
          then gtk_tree_view_expand_row E (base ++ [i]) (!ch.isEmpty) else E) ∧
          ∀ y, y ∈ E1 ↔ y ∈ E ∨ (y = base ++ [i] ∧ in_expanded_group eg row.group ∧
            ch ≠ [] ∧ open_at E base) := by
        refine ⟨_, rfl, fun y => ?_⟩
        by_cases hg : remmina_string_array_find eg row.group ≥ 0
        · have hg' := (remmina_string_array_find_nonneg _ _).mp hg
          simp only [hg, if_true, mem_gtk_tree_view_expand_row, ancestors_expanded_iff,
            Bool.not_eq_true', List.isEmpty_eq_false, hg', true_and]
        · have hg' : ¬ in_expanded_group eg row.group :=
            fun h => hg ((remmina_string_array_find_nonneg _ _).mpr h)
          simp only [hg, if_false, hg', false_and, and_false, or_false]
      rw [← hE1]
      have hfresh1 : fresh_region E1 (base ++ [i]) 0 := by
        intro y hy k q he
        rcases (hm1 y).mp hy with h | h
        · exact hfresh y h 0 (k :: q) (by simp [he])
        · have := congrArg List.length (h.1.symm.trans he)
          simp at this
      have hopen1 : open_at E1 (base ++ [i]) ↔
          (open_at E base ∧ in_expanded_group eg row.group ∧ ch ≠ []) := by
        rw [open_at_snoc, hm1]
        have hc : open_at E1 base ↔ open_at E base := by
          apply open_at_congr
          intro y hy
          rw [hm1]
          constructor
          · rintro (h | h)
            · exact h
            · have := congrArg List.length h.1
              simp at this
              omega
          · exact fun h => Or.inl h
        rw [hc]
        constructor
        · rintro ⟨h1, h2 | h2⟩
          · exact absurd h2 hnot
          · exact ⟨h1, h2.2.1, h2.2.2.1⟩
        · rintro ⟨h1, h2, h3⟩
          exact ⟨h1, Or.inr ⟨rfl, h2, h3, h1⟩⟩
      rw [expand_group_traverse_from_iff eg ch (base ++ [i]) 0 E1 hfresh1 x, hm1 x, hopen1]
      simp only [expandable_cons_zero, hf, true_and]
      constructor
      · rintro ((h | h) | ⟨⟨h1, h2, h3⟩, k, q, hx, he⟩)
        · exact Or.inl h
        · exact Or.inr ⟨h.2.2.2, [], h.1, h.2.1, h.2.2.1, Or.inl rfl⟩
        · exact Or.inr ⟨h1, k :: q, by simp [hx], h2, h3, Or.inr he⟩
      · rintro (h | ⟨h1, q, hx, h2, h3, h4⟩)
        · exact Or.inl (Or.inl h)
        · rcases h4 with h4 | h4
          · subst h4
            exact Or.inl (Or.inr ⟨hx, h2, h3, h1⟩)
          · cases q with
            | nil => rw [expandable] at h4; exact h4.elim
            | cons k q' =>
              exact Or.inr ⟨⟨h1, h2, h3⟩, k, q', by simp [hx], h4⟩
    · simp only [hf, if_false, expandable_cons_zero, false_and, and_false, exists_false,
        or_false]
theorem expand_group_traverse_from_iff (eg : List CStr) :
    ∀ (l : List TreeNode) (base : List Nat) (i : Nat) (E : List TreeIter),
      fresh_region E base i →
      ∀ x, x ∈ expand_group_traverse_from eg base i l E ↔
        x ∈ E ∨ (open_at E base ∧ ∃ k q, x = base ++ (i + k) :: q ∧ expandable eg l (k :: q))
  | [], base, i, E => by
    intro _ x
    rw [expand_group_traverse_from]
    constructor
    · exact fun h => Or.inl h
    · rintro (h | ⟨_, k, q, _, he⟩)
      · exact h
      · exact absurd he (expandable_nil eg _)
  | n :: ns, base, i, E => by
    intro hfresh x
    rw [expand_group_traverse_from]
    have hrow := expand_group_traverse_row_iff eg n base i E hfresh
    have hfresh' : fresh_region (expand_group_traverse_row eg base i n E) base (i + 1) := by
      intro y hy k q he
      rcases (hrow y).mp hy with h | ⟨_, q', hq', _⟩
      · exact hfresh y h (k + 1) q (by rw [he]; congr 2; omega)
      · have := hq'.symm.trans he
        simp at this
        omega
    have hopen' : open_at (expand_group_traverse_row eg base i n E) base ↔ open_at E base := by
      apply open_at_congr
      intro y hy
      rw [hrow]
      constructor
      · rintro (h | ⟨_, q', hq', _⟩)
        · exact h
        · have := congrArg List.length hq'
          simp at this
          omega
      · exact fun h => Or.inl h
    rw [expand_group_traverse_from_iff eg ns base (i + 1) _ hfresh' x, hrow x, hopen']
    cases n with
    | mk row ch =>
      constructor
      · rintro ((h | ⟨h1, q, hx, he⟩) | ⟨h1, k, q, hx, he⟩)
        · exact Or.inl h
        · exact Or.inr ⟨h1, 0, q, by simpa using hx,
            (expandable_cons_zero eg row ch ns q).mpr
              ((expandable_cons_zero eg row ch [] q).mp he)⟩
        · exact Or.inr ⟨h1, k + 1, q, by rw [hx]; congr 2; omega,
            (expandable_cons_succ eg _ ns k q).mpr he⟩
      · rintro (h | ⟨h1, k, q, hx, he⟩)
        · exact Or.inl (Or.inl h)
        · cases k with
          | zero =>
            exact Or.inl (Or.inr ⟨h1, q, by simpa using hx,
              (expandable_cons_zero eg row ch [] q).mpr
                ((expandable_cons_zero eg row ch ns q).mp he)⟩)
          | succ k =>
            exact Or.inr ⟨h1, k, q, by rw [hx]; congr 2; omega,
              (expandable_cons_succ eg _ ns k q).mp he⟩
end

/-- What the tree view has expanded after `remmina_main_expand_group`, started
with no row expanded: the folder rows of a member group that have children
and whose rows above are expanded too. -/
theorem remmina_main_expand_group_iff (eg : List CStr) (model : List TreeNode) (x : TreeIter) :
    x ∈ remmina_main_expand_group eg model [] ↔ expandable eg model x := by
  unfold remmina_main_expand_group
  rw [expand_group_traverse_from_iff eg model [] 0 [] (by intro y hy; simp at hy) x]
  constructor
  · rintro (h | ⟨_, k, q, hx, he⟩)
    · simp at h
    · simpa [hx] using he
  · intro he
    right
    refine ⟨by intro j hj hj'; simp at hj'; omega, ?_⟩
    cases x with
    | nil => rw [expandable] at he; exact he.elim
    | cons k q => exact ⟨k, q, by simp, he⟩

/-! ## What the capture of the expanded rows reads: lemmas -/

theorem expanded_node_cons_zero (E : List TreeIter) (base : List Nat) (i : Nat)
    (n : TreeNode) (ns : List TreeNode) (q : List Nat) :
    expanded_node E base i (n :: ns) (0 :: q) = expanded_node E base i [n] (0 :: q) := by
  rw [expanded_node, expanded_node]
  simp

theorem expanded_node_cons_succ (E : List TreeIter) (base : List Nat) (i : Nat)
    (n : TreeNode) (ns : List TreeNode) (k : Nat) (q : List Nat) :
    expanded_node E base i (n :: ns) ((k + 1) :: q) =
      expanded_node E base (i + 1) ns (k :: q) := by
  rw [expanded_node, expanded_node]
  have e : i + (k + 1) = i + 1 + k := by omega
  simp only [List.getElem?_cons_succ, e]

theorem expanded_node_single (E : List TreeIter) (base : List Nat) (i : Nat)
    (row : Row) (ch : List TreeNode) (q : List Nat) :
    expanded_node E base i [TreeNode.mk row ch] (0 :: q) =
      if E.contains (base ++ [i]) then
        (if q = [] then some (.mk row ch) else expanded_node E (base ++ [i]) 0 ch q)
      else none := by
  rw [expanded_node]
  simp

mutual
theorem save_expanded_group_row_iff (E : List TreeIter) :
    ∀ (n : TreeNode) (base : List Nat) (i : Nat) (acc : List CStr) (g : CStr),
      g ∈ save_expanded_group_row E base i n acc ↔
        g ∈ acc ∨ ∃ q m, expanded_node E base i [n] (0 :: q) = some m ∧ m.row.group = some g
  | .mk row ch, base, i, acc, g => by
    rw [save_expanded_group_row]
    by_cases hc : E.contains (base ++ [i]) = true
    · simp only [hc, if_true, expanded_node_single]
      rw [save_expanded_group_from_iff E ch (base ++ [i]) 0 _ g]
      have hacc : g ∈ (match row.group with
          | some group => acc ++ [group]
          | none => acc) ↔ g ∈ acc ∨ row.group = some g := by
        cases row.group with
        | none => simp
        | some g' => simp [eq_comm]
      rw [hacc]
      constructor
      · rintro ((h | h) | ⟨k, q, m, hm, hg⟩)
        · exact Or.inl h
        · exact Or.inr ⟨[], .mk row ch, by simp, h⟩
        · exact Or.inr ⟨k :: q, m, by simpa using hm, hg⟩
      · rintro (h | ⟨q, m, hm, hg⟩)
        · exact Or.inl (Or.inl h)
        · cases q with
          | nil =>
            simp only [if_true, Option.some.injEq] at hm
            subst hm
            exact Or.inl (Or.inr hg)
          | cons k q' =>
            exact Or.inr ⟨k, q', m, by simpa using hm, hg⟩
    · simp only [hc, if_false, expanded_node_single, Bool.false_eq_true, reduceCtorEq,
        false_and, exists_false, or_false]
theorem save_expanded_group_from_iff (E : List TreeIter) :
    ∀ (l : List TreeNode) (base : List Nat) (i : Nat) (acc : List CStr) (g : CStr),
      g ∈ save_expanded_group_from E base i l acc ↔
        g ∈ acc ∨ ∃ k q m, expanded_node E base i l (k :: q) = some m ∧ m.row.group = some g
  | [], base, i, acc, g => by
    rw [save_expanded_group_from]
    constructor
    · exact fun h => Or.inl h
    · rintro (h | ⟨k, q, m, hm, _⟩)
      · exact h
      · rw [expanded_node] at hm
        simp at hm
  | n :: ns, base, i, acc, g => by
    rw [save_expanded_group_from, save_expanded_group_from_iff E ns base (i + 1) _ g,
      save_expanded_group_row_iff E n base i acc g]
    constructor
    · rintro ((h | ⟨q, m, hm, hg⟩) | ⟨k, q, m, hm, hg⟩)
      · exact Or.inl h
      · exact Or.inr ⟨0, q, m, by rw [expanded_node_cons_zero]; exact hm, hg⟩
      · exact Or.inr ⟨k + 1, q, m, by rw [expanded_node_cons_succ]; exact hm, hg⟩
    · rintro (h | ⟨k, q, m, hm, hg⟩)
      · exact Or.inl (Or.inl h)
      · cases k with
        | zero =>
          rw [expanded_node_cons_zero] at hm
          exact Or.inl (Or.inr ⟨q, m, hm, hg⟩)
        | succ k =>
          rw [expanded_node_cons_succ] at hm
          exact Or.inr ⟨k, q, m, hm, hg⟩
end

theorem expanded_node_sound (E : List TreeIter) :
    ∀ (q : List Nat) (l : List TreeNode) (base : List Nat) (n : TreeNode),
      expanded_node E base 0 l q = some n → base ++ q ∈ E ∧ nodeAt l q = some n
  | [], l, base, n => by
    intro h
    rw [expanded_node] at h
    exact absurd h (by simp)
  | k :: q, l, base, n => by
    intro h
    rw [expanded_node] at h
    cases hl : l[k]? with
    | none => simp [hl] at h
    | some x =>
      cases x with
      | mk row ch =>
        simp only [hl, Nat.zero_add] at h
        by_cases hc : E.contains (base ++ [k]) = true
        · simp only [hc, if_true] at h
          cases q with
          | nil =>
            simp only [if_true, Option.some.injEq] at h
            exact ⟨(contains_iff_mem _ _).mp hc, by simp [nodeAt, hl, h]⟩
          | cons j q' =>
            simp only [reduceCtorEq, if_false] at h
            obtain ⟨h1, h2⟩ := expanded_node_sound E (j :: q') ch (base ++ [k]) n h
            exact ⟨by simpa using h1, by simp only [nodeAt, hl]; exact h2⟩
        · simp only [hc, Bool.false_eq_true, if_false, reduceCtorEq] at h

theorem expanded_node_complete (E : List TreeIter) :
    ∀ (q : List Nat) (l : List TreeNode) (base : List Nat) (n : TreeNode),
      (∀ j, 0 < j → j ≤ q.length → base ++ q.take j ∈ E) → nodeAt l q = some n →
      expanded_node E base 0 l q = some n
  | [], l, base, n => by
    intro _ h
    simp [nodeAt] at h
  | k :: q, l, base, n => by
    intro hpre hn
    rw [expanded_node]
    have hk : E.contains (base ++ [k]) = true := by
      rw [contains_iff_mem]
      have := hpre 1 (by omega) (by simp)
      simpa using this
    cases q with
    | nil =>
      simp only [nodeAt] at hn
      cases hl : l[k]? with
      | none => simp [hl] at hn
      | some x =>
        cases x with
        | mk row ch =>
          rw [hl] at hn
          simp only [Nat.zero_add, hk, if_true]
          exact hn
    | cons j q' =>
      simp only [nodeAt] at hn
      cases hl : l[k]? with
      | none => simp [hl] at hn
      | some x =>
        cases x with
        | mk row ch =>
          simp only [hl] at hn
          simp only [Nat.zero_add, hk, if_true, reduceCtorEq, if_false]
          refine expanded_node_complete E (j :: q') ch (base ++ [k]) n ?_ hn
          intro t ht ht'
          have := hpre (t + 1) (by omega) (by simp at ht' ⊢; omega)
          simpa using this

theorem parents_are_folders_nodeAt :
    ∀ (q : List Nat) (l : List TreeNode) (n : TreeNode), parents_are_folders l →
      nodeAt l q = some n → parents_are_folders_row n
  | [], l, n => by
    intro _ h
    simp [nodeAt] at h
  | [k], l, n => by
    intro hp h
    simp only [nodeAt] at h
    exact parents_are_folders_getElem? l k n hp h
  | k :: j :: q, l, n => by
    intro hp h
    simp only [nodeAt] at h
    cases hl : l[k]? with
    | none => simp [hl] at h
    | some x =>
      cases x with
      | mk row ch =>
        simp only [hl] at h
        have hx := parents_are_folders_getElem? l k _ hp hl
        rw [parents_are_folders_row] at hx
        exact parents_are_folders_nodeAt (j :: q) ch n hx.2 h

theorem expandable_node (eg : List CStr) :
    ∀ (q : List Nat) (l : List TreeNode), expandable eg l q →
      ∃ n, nodeAt l q = some n ∧ n.row.filename = none ∧
        in_expanded_group eg n.row.group ∧ n.children ≠ []
  | [], l => by
    intro h
    rw [expandable] at h
    exact h.elim
  | k :: q, l => by
    intro h
    rw [expandable] at h
    cases hl : l[k]? with
    | none => simp [hl] at h
    | some x =>
      cases x with
      | mk row ch =>
        simp only [hl] at h
        obtain ⟨h1, h2, h3, h4⟩ := h
        cases q with
        | nil => exact ⟨.mk row ch, by simp [nodeAt, hl], h1, h2, h3⟩
        | cons j q' =>
          rcases h4 with h4 | h4
          · exact absurd h4 (by simp)
          · obtain ⟨n, hn, hrest⟩ := expandable_node eg (j :: q') ch h4
            exact ⟨n, by simp only [nodeAt, hl]; exact hn, hrest⟩

theorem expandable_of_prefixes (eg : List CStr) :
    ∀ (q : List Nat) (l : List TreeNode), q ≠ [] →
      (∀ j, 0 < j → j ≤ q.length → ∃ n, nodeAt l (q.take j) = some n ∧
        n.row.filename = none ∧ in_expanded_group eg n.row.group ∧ n.children ≠ []) →
      expandable eg l q
  | [], l => by intro h; exact absurd rfl h
  | k :: q, l => by
    intro _ hpre
    rw [expandable]
    obtain ⟨n1, hn1, hf1, hg1, hc1⟩ := hpre 1 (by omega) (by simp)
    simp only [List.take_succ_cons, List.take_zero, nodeAt] at hn1
    cases n1 with
    | mk row ch =>
      simp only [hn1]
      refine ⟨hf1, hg1, hc1, ?_⟩
      cases q with
      | nil => exact Or.inl rfl
      | cons j q' =>
        right
        refine expandable_of_prefixes eg (j :: q') ch (by simp) ?_
        intro t ht ht'
        obtain ⟨n, hn, hrest⟩ := hpre (t + 1) (by omega) (by simp at ht' ⊢; omega)
        refine ⟨n, ?_, hrest⟩
        cases t with
        | zero => omega
        | succ t' =>
          simp only [List.take_succ_cons, nodeAt, hn1] at hn ⊢
          exact hn

/-- The capture, the restore and the second capture of the expanded rows on
the same rows `F`: the rows expanded before are expanded after, and the group
paths captured after are those captured before. -/
theorem expansion_round_trip_aux (F : List TreeNode) (E0 : List TreeIter)
    (hP : parents_are_folders F)
    (hrows : ∀ p ∈ E0, ∃ n g, nodeAt F p = some n ∧ n.children ≠ [] ∧ n.row.group = some g)
    (hclosed : ∀ p ∈ E0, ∀ j, 0 < j → j < p.length → p.take j ∈ E0) :
    (∀ p ∈ E0, p ∈ remmina_main_expand_group (save_expanded_group_from E0 [] 0 F []) F []) ∧
    (∀ p ∈ remmina_main_expand_group (save_expanded_group_from E0 [] 0 F []) F [],
      ∃ p0 ∈ E0, group_at F p0 = group_at F p ∧ group_at F p ≠ none) ∧
    (∀ g : CStr,
      g ∈ save_expanded_group_from
        (remmina_main_expand_group (save_expanded_group_from E0 [] 0 F []) F []) [] 0 F [] ↔
      g ∈ save_expanded_group_from E0 [] 0 F []) := by
  have memG : ∀ (E : List TreeIter) (g : CStr), g ∈ save_expanded_group_from E [] 0 F [] ↔
      ∃ k q m0, expanded_node E [] 0 F (k :: q) = some m0 ∧ m0.row.group = some g := by
    intro E g
    rw [save_expanded_group_from_iff]
    simp
  have key1 : ∀ p ∈ E0, ∀ j, 0 < j → j ≤ p.length → p.take j ∈ E0 := by
    intro p hp j hj hj'
    by_cases hlt : j < p.length
    · exact hclosed p hp j hj hlt
    · rw [List.take_of_length_le (by omega)]
      exact hp
  have key2 : ∀ p ∈ E0, ∃ n, nodeAt F p = some n ∧ n.row.filename = none ∧
      in_expanded_group (save_expanded_group_from E0 [] 0 F []) n.row.group ∧
      n.children ≠ [] := by
    intro p hp
    obtain ⟨n, g, hn, hc, hg⟩ := hrows p hp
    have hpn := parents_are_folders_nodeAt p F n hP hn
    refine ⟨n, hn, ?_, ⟨g, hg, ?_⟩, hc⟩
    · cases n with
      | mk row ch =>
        rw [parents_are_folders_row] at hpn
        exact hpn.1 hc
    · have hcomp := expanded_node_complete E0 p F [] n
        (fun j hj hj' => by simpa using key1 p hp j hj hj') hn
      cases p with
      | nil => simp [nodeAt] at hn
      | cons k q => exact (memG E0 g).mpr ⟨k, q, n, hcomp, hg⟩
  have hA : ∀ p ∈ E0,
      p ∈ remmina_main_expand_group (save_expanded_group_from E0 [] 0 F []) F [] := by
    intro p hp
    rw [remmina_main_expand_group_iff]
    have hne : p ≠ [] := by
      intro he
      obtain ⟨n, _, hn, _⟩ := hrows p hp
      simp [he, nodeAt] at hn
    exact expandable_of_prefixes _ p F hne
      (fun j hj hj' => key2 (p.take j) (key1 p hp j hj hj'))
  refine ⟨hA, ?_, ?_⟩
  · intro p hp
    rw [remmina_main_expand_group_iff] at hp
    obtain ⟨n, hn, _, ⟨g, hg, hgG⟩, _⟩ := expandable_node _ p F hp
    obtain ⟨k, q, m0, hm0, hg0⟩ := (memG E0 g).mp hgG
    obtain ⟨h1, h2⟩ := expanded_node_sound E0 (k :: q) F [] m0 hm0
    refine ⟨k :: q, by simpa using h1, ?_, ?_⟩
    · simp [group_at, h2, hn, hg, hg0]
    · simp [group_at, hn, hg]
  · intro g
    rw [memG]
    constructor
    · rintro ⟨k, q, m0, hm0, hg0⟩
      obtain ⟨h1, h2⟩ := expanded_node_sound _ (k :: q) F [] m0 hm0
      have h1' : k :: q ∈ remmina_main_expand_group
          (save_expanded_group_from E0 [] 0 F []) F [] := by simpa using h1
      rw [remmina_main_expand_group_iff] at h1'
      obtain ⟨n, hn, _, ⟨g', hg', hgG⟩, _⟩ := expandable_node _ (k :: q) F h1'
      rw [h2] at hn
      have hnm : m0 = n := Option.some.inj hn
      rw [hnm, hg'] at hg0
      exact (Option.some.inj hg0) ▸ hgG
    · intro hg
      obtain ⟨k, q, m0, hm0, hg0⟩ := (memG E0 g).mp hg
      obtain ⟨h1, h2⟩ := expanded_node_sound E0 (k :: q) F [] m0 hm0
      have h1' : k :: q ∈ E0 := by simpa using h1
      refine ⟨k, q, m0, ?_, hg0⟩
      refine expanded_node_complete _ (k :: q) F [] m0 ?_ h2
      intro j hj hj'
      simpa using hA _ (key1 (k :: q) h1' j hj hj')

/-! ## Expansion restore: claims -/

/-- A row the tree view can expand, seen from the top: the row and every row
above it is a folder row of a member group that has children. -/
theorem expandable_prefixes (eg : List CStr) :
    ∀ (q : List Nat) (l : List TreeNode), expandable eg l q →
      ∀ j, 0 < j → j ≤ q.length → ∃ n, nodeAt l (q.take j) = some n ∧
        n.row.filename = none ∧ in_expanded_group eg n.row.group ∧ n.children ≠ []
  | [], l => by
    intro h
    rw [expandable] at h
    exact h.elim
  | k :: q, l => by
    intro h j hj hjl
    rw [expandable] at h
    cases hl : l[k]? with
    | none => simp [hl] at h
    | some n =>
      obtain ⟨row, ch⟩ := n
      simp only [hl] at h
      obtain ⟨hf, hg, hc, hrest⟩ := h
      cases j with
      | zero => omega
      | succ j' =>
        cases j' with
        | zero =>
          refine ⟨.mk row ch, ?_, hf, hg, hc⟩
          simp [nodeAt, hl]
        | succ j'' =>
          cases q with
          | nil => simp at hjl
          | cons a q' =>
            rcases hrest with hnil | hex
            · cases hnil
            · obtain ⟨n, hn, hrest'⟩ := expandable_prefixes eg (a :: q') ch hex (j'' + 1)
                (by omega) (by simp at hjl ⊢; omega)
              refine ⟨n, ?_, hrest'⟩
              simp only [List.take_succ_cons] at hn ⊢
              simp only [nodeAt, hl]
              exact hn

theorem expandable_iff_prefixes (eg : List CStr) (l : List TreeNode) (q : List Nat) :
    expandable eg l q ↔
      q ≠ [] ∧ ∀ j, 0 < j → j ≤ q.length → ∃ n, nodeAt l (q.take j) = some n ∧
        n.row.filename = none ∧ in_expanded_group eg n.row.group ∧ n.children ≠ [] := by
  constructor
  · intro h
    refine ⟨?_, expandable_prefixes eg q l h⟩
    intro e
    rw [e, expandable] at h
    exact h
  · rintro ⟨hne, hpre⟩
    exact expandable_of_prefixes eg q l hne hpre

/-- Claim C11 (amended): on the rows a reload gives to the tree view,
`remmina_main_expand_group` examines every folder row at every depth and asks
the view to expand exactly the folder rows (rows without filename) whose group
is a member of the expanded-group array. The view expands such a row only
when it has child rows and every row above it is expanded: a row is expanded
after the reload iff it and every row above it is a folder row of a member
group that has children. No profile row is ever expanded. -/
theorem expand_group_restore (fm : FileManager) (sort_le : Int → Int → Row → Row → Bool)
    (pref : RemminaPref) (m : RemminaMain) (expanded_group : List CStr) :
    (∀ (model : List TreeNode) (p : TreeIter),
      p ∈ remmina_main_expand_group expanded_group model [] ↔
        p ≠ [] ∧ ∀ j, 0 < j → j ≤ p.length → ∃ n, nodeAt model (p.take j) = some n ∧
          n.row.filename = none ∧ in_expanded_group expanded_group n.row.group ∧
          n.children ≠ []) ∧
    (∀ p, p ∈ (remmina_main_load_files fm sort_le pref m).expanded_rows ↔
      p ≠ [] ∧ ∀ j, 0 < j → j ≤ p.length →
        ∃ n, nodeAt (remmina_main_load_files fm sort_le pref m).file_model_sort (p.take j)
            = some n ∧
          n.row.filename = none ∧
          in_expanded_group (remmina_main_load_files fm sort_le pref m).expanded_group
            n.row.group ∧
          n.children ≠ []) ∧
    (∀ p, p ∈ expand_group_requests expanded_group (load_files_sorted fm sort_le pref m) ↔
      ∃ n, nodeAt (load_files_sorted fm sort_le pref m) p = some n ∧
        n.row.filename = none ∧ in_expanded_group expanded_group n.row.group) ∧
    (∀ p ∈ (remmina_main_load_files fm sort_le pref m).expanded_rows,
      ∃ n, nodeAt (remmina_main_load_files fm sort_le pref m).file_model_sort p = some n ∧
        n.row.filename = none ∧
        in_expanded_group (remmina_main_load_files fm sort_le pref m).expanded_group
          n.row.group) := by
  have hP := parents_are_folders_sorted fm sort_le pref m
  obtain ⟨_, h2, _, _, h5, h6, _⟩ := remmina_main_load_files_fields fm sort_le pref m
  have hiff : ∀ p, p ∈ (remmina_main_load_files fm sort_le pref m).expanded_rows ↔
      p ≠ [] ∧ ∀ j, 0 < j → j ≤ p.length →
        ∃ n, nodeAt (remmina_main_load_files fm sort_le pref m).file_model_sort (p.take j)
            = some n ∧
          n.row.filename = none ∧
          in_expanded_group (remmina_main_load_files fm sort_le pref m).expanded_group
            n.row.group ∧
          n.children ≠ [] := by
    intro p
    rw [h6, h2, h5, remmina_main_expand_group_iff, expandable_iff_prefixes]
  refine ⟨?_, hiff, ?_, ?_⟩
  · intro model p
    rw [remmina_main_expand_group_iff, expandable_iff_prefixes]
  · intro p
    unfold expand_group_requests
    rw [expand_group_requests_from_iff expanded_group _ [] 0 hP p]
    constructor
    · rintro ⟨k, q, n, hx, hn, hrest⟩
      exact ⟨n, by simpa [hx] using hn, hrest⟩
    · rintro ⟨n, hn, hrest⟩
      cases p with
      | nil => simp [nodeAt] at hn
      | cons k q => exact ⟨k, q, n, by simp, hn, hrest⟩
  · intro p hp
    obtain ⟨hne, hpre⟩ := (hiff p).mp hp
    have hlen : 0 < p.length := List.length_pos.mpr hne
    obtain ⟨n, hn, hf, hg, _⟩ := hpre p.length hlen (le_refl _)
    rw [List.take_length] at hn
    exact ⟨n, hn, hf, hg⟩

/-- The claim as stated fails for a member folder under a folder that is not
expanded, and for a member folder without child rows: the folder "Team" inside
"Work" has the group "Work/Team", a member of the array, and a child row, yet
it is not expanded after the reload, since "Work" is not; the folder "Work" of
a profile store without profiles is a member and is not expanded either. -/
theorem expand_group_member_collapsed_counterexample :
    (nodeAt (remmina_main_load_files team_manager sort_keep tree_pref
        { initial_main with expanded_group := [cstr "Work/Team"] }).file_model_sort
        [0, 0]).map (fun n => (n.row.filename, n.row.group, n.children.length)) =
      some (none, some (cstr "Work/Team"), 1) ∧
    (remmina_main_load_files team_manager sort_keep tree_pref
      { initial_main with expanded_group := [cstr "Work/Team"] }).expanded_group =
      [cstr "Work/Team"] ∧
    [0, 0] ∉ (remmina_main_load_files team_manager sort_keep tree_pref
      { initial_main with expanded_group := [cstr "Work/Team"] }).expanded_rows ∧
    (nodeAt (remmina_main_load_files { work_manager with files := [] } sort_keep tree_pref
        { initial_main with expanded_group := [cstr "Work"] }).file_model_sort
        [0]).map (fun n => (n.row.filename, n.row.group, n.children.length)) =
      some (none, some (cstr "Work"), 0) ∧
    [0] ∉ (remmina_main_load_files { work_manager with files := [] } sort_keep tree_pref
      { initial_main with expanded_group := [cstr "Work"] }).expanded_rows := by
  refine ⟨by decide, by decide, by decide, by decide, by decide⟩

/-- Claim C12: in tree layout, when a reload rebuilds the rows the view
already shows, every row that was expanded is expanded again, every row
expanded afterwards has the group path of a row expanded before, and a
capture after the reload gives the same set of group paths as the capture
before it. The expanded rows before are rows with children and a group path,
each below expanded rows only. -/
theorem expansion_round_trip (fm : FileManager) (sort_le : Int → Int → Row → Row → Bool)
    (pref : RemminaPref) (m : RemminaMain)
    (htree : GTK_IS_TREE_STORE m.file_model = true)
    (hsame : load_files_sorted fm sort_le pref m = m.file_model_sort)
    (hrows : ∀ p ∈ m.expanded_rows, ∃ n g,
      nodeAt m.file_model_sort p = some n ∧ n.children ≠ [] ∧ n.row.group = some g)
    (hclosed : ∀ p ∈ m.expanded_rows, ∀ j, 0 < j → j < p.length →
      p.take j ∈ m.expanded_rows) :
    (∀ p ∈ m.expanded_rows, p ∈ (remmina_main_load_files fm sort_le pref m).expanded_rows) ∧
    (∀ p ∈ (remmina_main_load_files fm sort_le pref m).expanded_rows,
      ∃ p0 ∈ m.expanded_rows,
        group_at m.file_model_sort p0 = group_at m.file_model_sort p ∧
        group_at m.file_model_sort p ≠ none) ∧
    (∀ g : CStr,
      g ∈ (remmina_main_save_expanded_group
        (remmina_main_load_files fm sort_le pref m)).expanded_group ↔
      g ∈ (remmina_main_save_expanded_group m).expanded_group) := by
  have hP : parents_are_folders m.file_model_sort :=
    hsame ▸ parents_are_folders_sorted fm sort_le pref m
  obtain ⟨hA, hB, hC⟩ := expansion_round_trip_aux m.file_model_sort m.expanded_rows hP
    hrows hclosed
  obtain ⟨_, h2, _, _, h5, h6, _⟩ := remmina_main_load_files_fields fm sort_le pref m
  have hG : (remmina_main_save_expanded_group m).expanded_group =
      save_expanded_group_from m.expanded_rows [] 0 m.file_model_sort [] := by
    unfold remmina_main_save_expanded_group
    rw [if_pos htree]
  rw [hG, hsame] at h6
  rw [hsame] at h2
  rw [hG] at h5
  refine ⟨fun p hp => h6 ▸ hA p hp, fun p hp => hB p (h6 ▸ hp), ?_⟩
  intro g
  rw [hG]
  unfold remmina_main_save_expanded_group
  by_cases ht : GTK_IS_TREE_STORE (remmina_main_load_files fm sort_le pref m).file_model = true
  · rw [if_pos ht]
    simp only [h6, h2]
    exact hC g
  · rw [if_neg ht, h5]

theorem expansion_round_trip_witness :
    [0, 0] ∈ (remmina_main_load_files team_manager sort_keep tree_pref
      expanded_team_main).expanded_rows ∧
    (∀ g : CStr,
      g ∈ (remmina_main_save_expanded_group
        (remmina_main_load_files team_manager sort_keep tree_pref
          expanded_team_main)).expanded_group ↔
      g ∈ (remmina_main_save_expanded_group expanded_team_main).expanded_group) :=
  have hrows : ∀ p ∈ expanded_team_main.expanded_rows, ∃ n g,
      nodeAt expanded_team_main.file_model_sort p = some n ∧ n.children ≠ [] ∧
        n.row.group = some g := by
    intro p hp
    have hp' : p = [0] ∨ p = [0, 0] := by
      have : p ∈ [[0], [0, 0]] := hp
      simpa using this
    rcases hp' with rfl | rfl
    · exact ⟨_, _, rfl, fun h => List.noConfusion h, rfl⟩
    · exact ⟨_, _, rfl, fun h => List.noConfusion h, rfl⟩
  have hclosed : ∀ p ∈ expanded_team_main.expanded_rows, ∀ j, 0 < j → j < p.length →
      p.take j ∈ expanded_team_main.expanded_rows := by
    intro p hp j hj hj'
    have hp' : p = [0] ∨ p = [0, 0] := by
      have : p ∈ [[0], [0, 0]] := hp
      simpa using this
    rcases hp' with rfl | rfl
    · simp at hj'; omega
    · have : j = 1 := by simp at hj'; omega
      subst this
      show [0] ∈ [[0], [0, 0]]
      simp
  ⟨(expansion_round_trip team_manager sort_keep tree_pref expanded_team_main rfl rfl
      hrows hclosed).1 [0, 0] (by show [0, 0] ∈ [[0], [0, 0]]; simp),
    (expansion_round_trip team_manager sort_keep tree_pref expanded_team_main rfl rfl
      hrows hclosed).2.2⟩

/-! ## Quick connect trimming: lemmas and claim -/


theorem g_ascii_isspace_isspace {c : Nat} (h : g_ascii_isspace c = true) : isspace c = true := by
  simp only [g_ascii_isspace, Bool.or_eq_true, beq_iff_eq] at h
  simp only [isspace, Bool.or_eq_true, beq_iff_eq, Bool.and_eq_true, decide_eq_true_eq]
  omega

theorem mem_dropWhile_of_not {p : Nat → Bool} {c : Nat} :
    ∀ {s : CStr}, c ∈ s → p c = false → c ∈ s.dropWhile p
  | [], h, _ => by cases h
  | x :: xs, h, hp => by
    rw [List.dropWhile_cons]
    split
    · next hx =>
      rcases List.mem_cons.mp h with rfl | h'
      · rw [hx] at hp; cases hp
      · exact mem_dropWhile_of_not h' hp
    · exact h

theorem g_strstrip_ne_nil {s : CStr} (h : is_empty (some s) = false) : g_strstrip s ≠ [] := by
  have h1 : ¬ ∀ c ∈ s, isspace c = true := by
    intro hall
    have := (is_empty_loop_iff s).mpr hall
    simp [is_empty, this] at h
  push_neg at h1
  obtain ⟨c, hc, hsp⟩ := h1
  have hg : g_ascii_isspace c = false := by
    cases hgc : g_ascii_isspace c
    · rfl
    · exact absurd (g_ascii_isspace_isspace hgc) hsp
  have m1 : c ∈ s.dropWhile g_ascii_isspace := mem_dropWhile_of_not hc hg
  have m2 : c ∈ ((s.dropWhile g_ascii_isspace).reverse.dropWhile g_ascii_isspace) :=
    mem_dropWhile_of_not (List.mem_reverse.mpr m1) hg
  intro he
  unfold g_strstrip at he
  have : c ∈ ((s.dropWhile g_ascii_isspace).reverse.dropWhile g_ascii_isspace).reverse :=
    List.mem_reverse.mpr m2
  rw [he] at this
  cases this

/-- The settings of the profile quick connect opens. -/
theorem quickconnect_opened (lib : HostnameLib) (qcp : Option CStr) (last entry_text : CStr)
    (f : QuickConnectFile)
    (h : (remmina_main_quickconnect lib qcp last entry_text).opened = some f) :
    f.server = f.name ∧ f.protocol = qcp ∧ f.sound = some (cstr "off") ∧
    f.server = some
      (if lib.g_hostname_is_ip_address ((g_strstrip entry_text).takeWhile (fun c => c != 58))
       then g_strstrip entry_text else entry_text) := by
  by_cases h1 : (lib.g_hostname_to_ascii entry_text).isNone = true
  · simp [remmina_main_quickconnect, h1] at h
  · by_cases h2 : strstr entry_text (cstr "/") = true
    · simp [remmina_main_quickconnect, h1, h2] at h
    · by_cases h3 : is_empty (some entry_text) = true
      · simp [remmina_main_quickconnect, h1, h2, h3] at h
      · have h3' : is_empty (some entry_text) = false := by simpa using h3
        have hne := g_strstrip_ne_nil h3'
        simp only [remmina_main_quickconnect, h1, h2, h3, Bool.false_eq_true, if_false,
          first_of_colon_split, hne, Option.some.injEq] at h
        subst h
        refine ⟨rfl, rfl, rfl, ?_⟩
        by_cases hip : lib.g_hostname_is_ip_address
            ((g_strstrip entry_text).takeWhile (fun c => c != 58)) = true
        · simp [hip]
        · simp [hip]

/-- Claim C21 (amended): for every accepted raw server string the server and
name settings of the new profile get the same value and the protocol setting
the chosen quick-connect protocol. The value is the input with leading and
trailing whitespace trimmed when the part of the trimmed input before the
first colon is a literal IP address, and the input as it was typed otherwise;
the two agree when the input has no whitespace at its ends. -/
theorem quickconnect_trimming (lib : HostnameLib) (qcp : Option CStr) (last entry_text : CStr)
    (f : QuickConnectFile)
    (h : (remmina_main_quickconnect lib qcp last entry_text).opened = some f) :
    f.server = f.name ∧ f.protocol = qcp ∧
    f.server = some
      (if lib.g_hostname_is_ip_address ((g_strstrip entry_text).takeWhile (fun c => c != 58))
       then g_strstrip entry_text else entry_text) ∧
    (g_strstrip entry_text = entry_text → f.server = some (g_strstrip entry_text)) := by
  obtain ⟨h1, h2, _, h4⟩ := quickconnect_opened lib qcp last entry_text f h
  refine ⟨h1, h2, h4, ?_⟩
  intro he
  rw [h4, he]
  simp

theorem quickconnect_trimming_witness :
    (remmina_main_quickconnect sample_lib (some (cstr "RDP")) (cstr "VNC")
      (cstr " 10.0.0.1:3389 ")).opened =
      some { sound := some (cstr "off"), server := some (cstr "10.0.0.1:3389"),
             name := some (cstr "10.0.0.1:3389"), protocol := some (cstr "RDP") } ∧
    g_strstrip (cstr " 10.0.0.1:3389 ") = cstr "10.0.0.1:3389" ∧
    (some (cstr "10.0.0.1:3389") = some (cstr "10.0.0.1:3389") ∧
      some (cstr "RDP") = some (cstr "RDP") ∧
      some (cstr "10.0.0.1:3389") = some
        (if sample_lib.g_hostname_is_ip_address
            ((g_strstrip (cstr " 10.0.0.1:3389 ")).takeWhile (fun c => c != 58))
         then g_strstrip (cstr " 10.0.0.1:3389 ") else cstr " 10.0.0.1:3389 ") ∧
      (g_strstrip (cstr " 10.0.0.1:3389 ") = cstr " 10.0.0.1:3389 " →
        some (cstr "10.0.0.1:3389") = some (g_strstrip (cstr " 10.0.0.1:3389 ")))) :=
  ⟨by decide, by decide,
    quickconnect_trimming sample_lib (some (cstr "RDP")) (cstr "VNC") (cstr " 10.0.0.1:3389 ")
      { sound := some (cstr "off"), server := some (cstr "10.0.0.1:3389"),
        name := some (cstr "10.0.0.1:3389"), protocol := some (cstr "RDP") } (by decide)⟩

/-- The claim as stated fails on the accepted input " host ": the server and
name settings keep the whitespace, since "host" is no IP address. -/
theorem quickconnect_untrimmed_counterexample :
    ∃ f, (remmina_main_quickconnect sample_lib (some (cstr "RDP")) (cstr "RDP")
        (cstr " host ")).opened = some f ∧
      f.server = some (cstr " host ") ∧ f.name = some (cstr " host ") ∧
      f.server ≠ some (g_strstrip (cstr " host ")) :=
  ⟨{ sound := some (cstr "off"), server := some (cstr " host "), name := some (cstr " host "),
     protocol := some (cstr "RDP") }, by decide, rfl, rfl, by decide⟩

/-! ## The search entry: lemmas -/

theorem refilter_frame (view : TreeViewRows) (sort_le : Int → Int → Row → Row → Bool)
    (m : RemminaMain) :
    (gtk_tree_model_filter_refilter view sort_le m).file_model = m.file_model ∧
    (gtk_tree_model_filter_refilter view sort_le m).override_view_file_mode_to_list =
      m.override_view_file_mode_to_list ∧
    (gtk_tree_model_filter_refilter view sort_le m).entry_quick_connect_server =
      m.entry_quick_connect_server ∧
    (gtk_tree_model_filter_refilter view sort_le m).expanded_group = m.expanded_group ∧
    (gtk_tree_model_filter_refilter view sort_le m).sort_column_id = m.sort_column_id ∧
    (gtk_tree_model_filter_refilter view sort_le m).sort_order = m.sort_order ∧
    (gtk_tree_model_filter_refilter view sort_le m).selected_filename = m.selected_filename ∧
    (gtk_tree_model_filter_refilter view sort_le m).selected_name = m.selected_name ∧
    (gtk_tree_model_filter_refilter view sort_le m).view_toggle_button =
      m.view_toggle_button ∧
    (gtk_tree_model_filter_refilter view sort_le m).statusbar_main = m.statusbar_main := by
  unfold gtk_tree_model_filter_refilter
  split <;> exact ⟨rfl, rfl, rfl, rfl, rfl, rfl, rfl, rfl, rfl, rfl⟩

theorem refilter_rows (view : TreeViewRows) (sort_le : Int → Int → Row → Row → Bool)
    (m : RemminaMain) (model : FileModel) (h : m.file_model = some model) :
    (gtk_tree_model_filter_refilter view sort_le m).file_model_filter =
      gtk_tree_model_filter (remmina_main_filter_visible_func m.entry_quick_connect_server)
        model.forest ∧
    (gtk_tree_model_filter_refilter view sort_le m).file_model_sort =
      gtk_tree_model_sort (sort_le m.sort_column_id m.sort_order)
        (gtk_tree_model_filter (remmina_main_filter_visible_func m.entry_quick_connect_server)
          model.forest) := by
  unfold gtk_tree_model_filter_refilter
  rw [h]
  exact ⟨rfl, rfl⟩

theorem remmina_main_selection_func_file_model_filter (m : RemminaMain) (model : List TreeNode)
    (path : TreeIter) (b : Bool) :
    (remmina_main_selection_func m model path b).file_model_filter = m.file_model_filter := by
  obtain ⟨_, _, _, h⟩ := remmina_main_selection_func_eq m model path b
  rw [h]

theorem remmina_main_load_files_filter (fm : FileManager)
    (sort_le : Int → Int → Row → Row → Bool) (pref : RemminaPref) (m : RemminaMain) :
    (remmina_main_load_files fm sort_le pref m).file_model_filter =
      gtk_tree_model_filter (remmina_main_filter_visible_func m.entry_quick_connect_server)
        (load_files_model fm pref m).forest := by
  obtain ⟨groups, hg⟩ := remmina_main_save_expanded_group_eq m
  unfold remmina_main_load_files load_files_model effective_view_file_mode
  rw [hg]
  cases hsel : m.selected_filename with
  | none => rfl
  | some filename =>
    dsimp only
    split
    · simp only [remmina_main_selection_func_file_model_filter]
    · rfl

/-- A refilter right after a reload changes nothing: the rows were filtered
with the same text. -/
theorem refilter_load_files (view : TreeViewRows) (fm : FileManager)
    (sort_le : Int → Int → Row → Row → Bool) (pref : RemminaPref) (m : RemminaMain) :
    gtk_tree_model_filter_refilter view sort_le (remmina_main_load_files fm sort_le pref m) =
      remmina_main_load_files fm sort_le pref m := by
  obtain ⟨h1, h2, h3, h4, _, _, _, h8, _⟩ := remmina_main_load_files_fields fm sort_le pref m
  have hf := remmina_main_load_files_filter fm sort_le pref m
  unfold load_files_sorted at h2
  unfold gtk_tree_model_filter_refilter
  split
  · rfl
  · next model hm =>
    have hmodel : model = load_files_model fm pref m := by
      rw [h1] at hm
      exact (Option.some.inj hm).symm
    subst hmodel
    have e1 : gtk_tree_model_filter (remmina_main_filter_visible_func
        (remmina_main_load_files fm sort_le pref m).entry_quick_connect_server)
        (load_files_model fm pref m).forest =
        (remmina_main_load_files fm sort_le pref m).file_model_filter := by
      rw [h8]; exact hf.symm
    have e2 : gtk_tree_model_sort (sort_le
        (remmina_main_load_files fm sort_le pref m).sort_column_id
        (remmina_main_load_files fm sort_le pref m).sort_order)
        (remmina_main_load_files fm sort_le pref m).file_model_filter =
        (remmina_main_load_files fm sort_le pref m).file_model_sort := by
      rw [h3, h4, hf]; exact h2.symm
    simp only [e1, e2, view.keep_same]

theorem length_ne_zero_iff (s : CStr) : s.length ≠ 0 ↔ s ≠ [] := by
  cases s <;> simp

/-- The three ways of the search handler: a reload with the override set, a
reload with the override cleared, or the refilter alone. -/
theorem quick_search_on_changed_cases (fm : FileManager)
    (sort_le : Int → Int → Row → Row → Bool) (view : TreeViewRows) (pref : RemminaPref)
    (m : RemminaMain) :
    (m.entry_quick_connect_server ≠ [] → GTK_IS_TREE_STORE m.file_model = true →
      remmina_main_quick_search_on_changed fm sort_le view pref m =
        remmina_main_load_files fm sort_le pref
          { m with override_view_file_mode_to_list := true }) ∧
    (m.entry_quick_connect_server = [] → m.override_view_file_mode_to_list = true →
      remmina_main_quick_search_on_changed fm sort_le view pref m =
        remmina_main_load_files fm sort_le pref
          { m with override_view_file_mode_to_list := false }) ∧
    (¬ (m.entry_quick_connect_server ≠ [] ∧ GTK_IS_TREE_STORE m.file_model = true) →
      ¬ (m.entry_quick_connect_server = [] ∧ m.override_view_file_mode_to_list = true) →
      remmina_main_quick_search_on_changed fm sort_le view pref m =
        gtk_tree_model_filter_refilter view sort_le m) := by
  refine ⟨?_, ?_, ?_⟩
  · intro h1 h2
    have h1' := (length_ne_zero_iff _).mpr h1
    simp only [remmina_main_quick_search_on_changed, h1', h2, if_true, ne_eq,
      not_false_eq_true, refilter_load_files]
  · intro h1 h2
    simp only [remmina_main_quick_search_on_changed, h1, h2, List.length_nil, ne_eq,
      not_true_eq_false, if_false, if_true, refilter_load_files]
  · intro h1 h2
    by_cases he : m.entry_quick_connect_server = []
    · have ho : m.override_view_file_mode_to_list = false := by
        cases hov : m.override_view_file_mode_to_list
        · rfl
        · exact absurd ⟨he, hov⟩ h2
      simp only [remmina_main_quick_search_on_changed, he, ho, List.length_nil, ne_eq,
        not_true_eq_false, if_false, Bool.false_eq_true]
    · have ht : GTK_IS_TREE_STORE m.file_model = false := by
        cases hov : GTK_IS_TREE_STORE m.file_model
        · rfl
        · exact absurd ⟨he, hov⟩ h1
      have he' := (length_ne_zero_iff _).mpr he
      simp only [remmina_main_quick_search_on_changed, he', ht, if_true, ne_eq,
        not_false_eq_true, Bool.false_eq_true, if_false]

theorem load_files_model_list (fm : FileManager) (pref : RemminaPref) (m : RemminaMain)
    (h : effective_view_file_mode pref m ≠ REMMINA_VIEW_FILE_TREE) :
    load_files_model fm pref m =
      FileModel.list_store
        (fm.files.map (fun f => profile_row f (status_icon pref.status_check m.network_states f))) := by
  rw [load_files_model, load_files_newmodel_list fm _ _ _ h]

theorem effective_view_file_mode_override (pref : RemminaPref) (m : RemminaMain)
    (h : m.override_view_file_mode_to_list = true) :
    effective_view_file_mode pref m ≠ REMMINA_VIEW_FILE_TREE := by
  simp [effective_view_file_mode, h, REMMINA_VIEW_FILE_LIST, REMMINA_VIEW_FILE_TREE]

/-! ## Live re-filter: claim -/

/-- Claim C22 (amended): a change of the query text rebuilds the catalog model
only when the layout has to change: when the text is not empty and the model
is tree-shaped, the search override is set and the files are loaded again,
into a list; when the text is empty and the override is set, the override is
cleared and the files are loaded again. In every other case the handler
leaves the file model, the override and the expanded groups as they were and
only evaluates the filter predicate again, with the new text. -/
theorem live_refilter (fm : FileManager) (sort_le : Int → Int → Row → Row → Bool)
    (view : TreeViewRows) (pref : RemminaPref) (m : RemminaMain) :
    (m.entry_quick_connect_server ≠ [] → GTK_IS_TREE_STORE m.file_model = true →
      (remmina_main_quick_search_on_changed fm sort_le view pref m).file_model =
        some (FileModel.list_store (fm.files.map (fun f =>
          profile_row f (status_icon pref.status_check m.network_states f)))) ∧
      (remmina_main_quick_search_on_changed fm sort_le view pref
        m).override_view_file_mode_to_list = true) ∧
    (m.entry_quick_connect_server = [] → m.override_view_file_mode_to_list = true →
      (remmina_main_quick_search_on_changed fm sort_le view pref m).file_model =
        some (load_files_model fm pref { m with override_view_file_mode_to_list := false }) ∧
      (remmina_main_quick_search_on_changed fm sort_le view pref
        m).override_view_file_mode_to_list = false) ∧
    (¬ (m.entry_quick_connect_server ≠ [] ∧ GTK_IS_TREE_STORE m.file_model = true) →
      ¬ (m.entry_quick_connect_server = [] ∧ m.override_view_file_mode_to_list = true) →
      (remmina_main_quick_search_on_changed fm sort_le view pref m).file_model = m.file_model ∧
      (remmina_main_quick_search_on_changed fm sort_le view pref
        m).override_view_file_mode_to_list = m.override_view_file_mode_to_list ∧
      (remmina_main_quick_search_on_changed fm sort_le view pref m).expanded_group =
        m.expanded_group ∧
      (∀ model, m.file_model = some model →
        (remmina_main_quick_search_on_changed fm sort_le view pref m).file_model_filter =
          gtk_tree_model_filter
            (remmina_main_filter_visible_func m.entry_quick_connect_server) model.forest)) := by
  obtain ⟨ha, hb, hc⟩ := quick_search_on_changed_cases fm sort_le view pref m
  refine ⟨?_, ?_, ?_⟩
  · intro h1 h2
    rw [ha h1 h2]
    obtain ⟨f1, _, _, _, _, _, f7, _⟩ := remmina_main_load_files_fields fm sort_le pref
      { m with override_view_file_mode_to_list := true }
    refine ⟨?_, f7⟩
    rw [f1, load_files_model_list fm pref _ (effective_view_file_mode_override pref _ rfl)]
  · intro h1 h2
    rw [hb h1 h2]
    obtain ⟨f1, _, _, _, _, _, f7, _⟩ := remmina_main_load_files_fields fm sort_le pref
      { m with override_view_file_mode_to_list := false }
    exact ⟨f1, f7⟩
  · intro h1 h2
    rw [hc h1 h2]
    obtain ⟨r1, r2, _, r4, _⟩ := refilter_frame view sort_le m
    exact ⟨r1, r2, r4, fun model hm => (refilter_rows view sort_le m model hm).1⟩

theorem live_refilter_witness :
    ({ loaded_main sort_keep with entry_quick_connect_server := cstr "a" } :
        RemminaMain).entry_quick_connect_server ≠ [] ∧
    GTK_IS_TREE_STORE ({ loaded_main sort_keep with
        entry_quick_connect_server := cstr "a" } : RemminaMain).file_model = true ∧
    (remmina_main_quick_search_on_changed work_manager sort_keep keep_paths tree_pref
        { loaded_main sort_keep with entry_quick_connect_server := cstr "a" }).file_model =
      some (FileModel.list_store (work_manager.files.map (fun f =>
        profile_row f (status_icon tree_pref.status_check
          ({ loaded_main sort_keep with entry_quick_connect_server := cstr "a" } :
            RemminaMain).network_states f)))) :=
  ⟨by decide, rfl,
    ((live_refilter work_manager sort_keep keep_paths tree_pref
      { loaded_main sort_keep with entry_quick_connect_server := cstr "a" }).1
      (by decide) rfl).1⟩

/-- The claim as stated fails in tree layout with a query that was empty: the
first character typed replaces the tree of a folder row and a profile row by
a list of one profile row. -/
theorem live_refilter_rebuild_counterexample :
    (loaded_main sort_keep).entry_quick_connect_server = [] ∧
    (loaded_main sort_keep).file_model.map (fun model => (tree_rows model.forest).length)
      = some 2 ∧
    GTK_IS_TREE_STORE (loaded_main sort_keep).file_model = true ∧
    (remmina_main_quick_search_on_changed work_manager sort_keep keep_paths tree_pref
      { loaded_main sort_keep with entry_quick_connect_server := cstr "a" }).file_model.map
        (fun model => (tree_rows model.forest).length) = some 1 ∧
    GTK_IS_TREE_STORE (remmina_main_quick_search_on_changed work_manager sort_keep keep_paths
      tree_pref { loaded_main sort_keep with entry_quick_connect_server := cstr "a" }).file_model
      = false := by
  refine ⟨rfl, by decide, rfl, by decide, rfl⟩

/-! ## Narrowing of the query: lemmas and claim -/

theorem splitAt_ne_nil (d : Nat) (s : CStr) : splitAt d s ≠ [] := by
  cases s with
  | nil => simp [splitAt]
  | cons c cs =>
    rw [splitAt]
    split
    · simp
    · split <;> simp

/-- The first token is a prefix without delimiter, every token an infix
without delimiter. -/
theorem splitAt_tokens (d : Nat) :
    ∀ s : CStr, (∀ t ts, splitAt d s = t :: ts → t <+: s) ∧
      (∀ t ∈ splitAt d s, d ∉ t ∧ t <:+: s)
  | [] => by
    simp [splitAt]
  | c :: cs => by
    obtain ⟨ih1, ih2⟩ := splitAt_tokens d cs
    rw [splitAt]
    by_cases hc : c = d
    · simp only [hc, if_true, List.cons.injEq, and_imp, List.mem_cons, forall_eq_or_imp]
      refine ⟨?_, ⟨?_, ?_⟩, ?_⟩
      · rintro t ts rfl _
        exact List.nil_prefix
      · simp
      · exact List.nil_infix
      · intro t ht
        exact ⟨(ih2 t ht).1, List.infix_cons (ih2 t ht).2⟩
    · simp only [hc, if_false]
      cases hsp : splitAt d cs with
      | nil => exact absurd hsp (splitAt_ne_nil d cs)
      | cons t0 ts0 =>
        have hp : t0 <+: cs := ih1 t0 ts0 hsp
        have h0 := ih2 t0 (by rw [hsp]; exact List.mem_cons_self _ _)
        simp only [List.cons.injEq, and_imp, List.mem_cons, forall_eq_or_imp]
        refine ⟨?_, ⟨?_, ?_⟩, ?_⟩
        · rintro t ts rfl _
          exact (List.cons_prefix_cons).mpr ⟨rfl, hp⟩
        · simp only [List.mem_cons, not_or]
          exact ⟨Ne.symm hc, h0.1⟩
        · exact ((List.cons_prefix_cons).mpr ⟨rfl, hp⟩).isInfix
        · intro t ht
          have := ih2 t (by rw [hsp]; exact List.mem_cons_of_mem _ ht)
          exact ⟨this.1, List.infix_cons this.2⟩

/-- A string without delimiter that occurs in `s` occurs in one token of `s`;
when it starts `s`, it starts the first token. -/
theorem splitAt_covers (d : Nat) :
    ∀ (s u : CStr), d ∉ u →
      (u <+: s → ∀ t ts, splitAt d s = t :: ts → u <+: t) ∧
      (u <:+: s → ∃ t ∈ splitAt d s, u <:+: t)
  | [], u, _ => by
    constructor
    · intro hu t ts ht
      have : u = [] := List.prefix_nil.mp hu
      subst this
      exact List.nil_prefix
    · intro hu
      have : u = [] := List.infix_nil.mp hu
      subst this
      exact ⟨[], by simp [splitAt], List.nil_infix⟩
  | c :: cs, u, hd => by
    have ih := splitAt_covers d cs
    have hpre : u <+: c :: cs → ∀ t ts, splitAt d (c :: cs) = t :: ts → u <+: t := by
      intro hu t ts ht
      cases u with
      | nil => exact List.nil_prefix
      | cons x u' =>
        obtain ⟨hx, hu'⟩ := (List.cons_prefix_cons).mp hu
        subst hx
        simp only [List.mem_cons, not_or] at hd
        have hc : x ≠ d := Ne.symm hd.1
        rw [splitAt] at ht
        simp only [hc, if_false] at ht
        cases hsp : splitAt d cs with
        | nil => exact absurd hsp (splitAt_ne_nil d cs)
        | cons t0 ts0 =>
          rw [hsp] at ht
          simp only [List.cons.injEq] at ht
          obtain ⟨rfl, _⟩ := ht
          exact (List.cons_prefix_cons).mpr ⟨rfl, (ih u' hd.2).1 hu' t0 ts0 hsp⟩
    refine ⟨hpre, ?_⟩
    intro hu
    rcases (List.infix_cons_iff).mp hu with hp | hi
    · cases hsp : splitAt d (c :: cs) with
      | nil => exact absurd hsp (splitAt_ne_nil d _)
      | cons t ts => exact ⟨t, List.mem_cons_self _ _, (hpre hp t ts hsp).isInfix⟩
    · obtain ⟨t, ht, hut⟩ := (ih u hd).2 hi
      rw [splitAt]
      by_cases hc : c = d
      · simp only [hc, if_true]
        exact ⟨t, List.mem_cons_of_mem _ ht, hut⟩
      · simp only [hc, if_false]
        cases hsp : splitAt d cs with
        | nil => exact absurd hsp (splitAt_ne_nil d cs)
        | cons t0 ts0 =>
          rw [hsp] at ht
          rcases List.mem_cons.mp ht with rfl | ht'
          · exact ⟨c :: t, List.mem_cons_self _ _, List.infix_cons hut⟩
          · exact ⟨t, List.mem_cons_of_mem _ ht', hut⟩

theorem g_ascii_strdown_sub {a b : CStr} (h : a <:+: b) :
    g_ascii_strdown a <:+: g_ascii_strdown b := by
  obtain ⟨p, q, rfl⟩ := h
  exact ⟨g_ascii_strdown p, g_ascii_strdown q, by simp [g_ascii_strdown]⟩

theorem filter_visible_of_folder (query : CStr) (row : Row)
    (h : row.protocol = some folder_symbolic) :
    remmina_main_filter_visible_func query row = true := by
  have h0 : g_strcmp0 row.protocol (some folder_symbolic) = 0 := (g_strcmp0_eq_zero _ _).mpr h
  unfold remmina_main_filter_visible_func
  simp [h0]

theorem filter_visible_of_empty (row : Row) :
    remmina_main_filter_visible_func [] row = true := by
  simp [remmina_main_filter_visible_func, g_ascii_strdown]

theorem labelMatch_narrow (row : Row) (q q' : CStr) (h : q' <:+: q)
    (hm : labelMatch q row) : labelMatch q' row := by
  intro t' ht' hne
  rw [← splitAt_eq_splitOn] at ht'
  obtain ⟨hc, hi⟩ := (splitAt_tokens comma (g_ascii_strdown q')).2 t' ht'
  obtain ⟨t, ht, htt⟩ :=
    (splitAt_covers comma (g_ascii_strdown q) t' hc).2 (hi.trans (g_ascii_strdown_sub h))
  rw [splitAt_eq_splitOn] at ht
  have htne : t ≠ [] := by
    intro e
    rw [e] at htt
    exact hne (List.infix_nil.mp htt)
  obtain ⟨l, hl, hlt⟩ := hm t ht htne
  exact ⟨l, hl, htt.trans hlt⟩

theorem filter_visible_narrow (row : Row) (q q' : CStr) (h : q' <:+: q)
    (hv : remmina_main_filter_visible_func q row = true) :
    remmina_main_filter_visible_func q' row = true := by
  by_cases hq' : q' = []
  · rw [hq']; exact filter_visible_of_empty row
  · by_cases hrow : row.protocol = some folder_symbolic
    · exact filter_visible_of_folder q' row hrow
    · have hq : q ≠ [] := by
        intro e
        rw [e] at h
        exact hq' (List.infix_nil.mp h)
      rw [filter_visible_aux q' row hq' hrow]
      rcases (filter_visible_aux q row hq hrow).mp hv with hs | ⟨hl, hm⟩
      · left
        obtain ⟨f, hf, hfi⟩ := hs
        exact ⟨f, hf, (g_ascii_strdown_sub h).trans hfi⟩
      · right
        exact ⟨hl, labelMatch_narrow row q q' h hm⟩

/-- Claim C25: narrowing of the query is monotone. A row that is visible for
a query is visible for every contiguous substring of it, in particular for
every prefix and for the empty query; so a row hidden for a query stays
hidden when further characters are typed. -/
theorem filter_visible_monotone (row : Row) (q q' : CStr) (h : q' <:+: q) :
    (remmina_main_filter_visible_func q row = true →
      remmina_main_filter_visible_func q' row = true) ∧
    (remmina_main_filter_visible_func q' row = false →
      remmina_main_filter_visible_func q row = false) := by
  refine ⟨filter_visible_narrow row q q' h, ?_⟩
  intro hf
  cases hv : remmina_main_filter_visible_func q row
  · rfl
  · rw [filter_visible_narrow row q q' h hv] at hf
    cases hf

theorem filter_visible_monotone_witness :
    cstr "eu" <:+: cstr "eu,prod" ∧
    remmina_main_filter_visible_func (cstr "eu,prod") P1 = true ∧
    remmina_main_filter_visible_func (cstr "eu") P1 = true ∧
    cstr "dev" <:+: cstr "dev,x" ∧
    remmina_main_filter_visible_func (cstr "dev") P1 = false ∧
    remmina_main_filter_visible_func (cstr "dev,x") P1 = false :=
  ⟨by decide, by decide,
    (filter_visible_monotone P1 (cstr "eu,prod") (cstr "eu") (by decide)).1 (by decide),
    by decide, by decide,
    (filter_visible_monotone P1 (cstr "dev,x") (cstr "dev") (by decide)).2 (by decide)⟩

/-! ## The published count: lemmas and claim -/

theorem load_files_newmodel_items_count (fm : FileManager) (status_check : Bool)
    (network_states : NetworkStates) (view_file_mode : Int) :
    (load_files_newmodel fm status_check network_states view_file_mode).2.2 =
      fm.files.length := by
  unfold load_files_newmodel remmina_file_manager_iterate
  split <;> rfl

theorem remmina_main_load_files_statusbar (fm : FileManager)
    (sort_le : Int → Int → Row → Row → Bool) (pref : RemminaPref) (m : RemminaMain) :
    (remmina_main_load_files fm sort_le pref m).statusbar_main.head? =
      some (StatusMessage.total fm.files.length) := by
  unfold remmina_main_load_files
  simp only [List.head?_cons, load_files_newmodel_items_count]

/-- Claim C23: the item count a full reload shows in the status bar is the
number of profiles the file manager enumerates, whatever the layout
preference, the search override, the group hierarchy and the query are; with
no profile the model of the list layout has no rows and the count is 0. -/
theorem published_count (fm : FileManager) (sort_le : Int → Int → Row → Row → Bool)
    (pref : RemminaPref) (m : RemminaMain) :
    (remmina_main_load_files fm sort_le pref m).statusbar_main.head? =
      some (StatusMessage.total fm.files.length) ∧
    (fm.files = [] → effective_view_file_mode pref m ≠ REMMINA_VIEW_FILE_TREE →
      (remmina_main_load_files fm sort_le pref m).file_model = some (FileModel.list_store []) ∧
      (remmina_main_load_files fm sort_le pref m).statusbar_main.head? =
        some (StatusMessage.total 0)) := by
  refine ⟨remmina_main_load_files_statusbar fm sort_le pref m, ?_⟩
  intro hf hmode
  constructor
  · rw [(remmina_main_load_files_fields fm sort_le pref m).1,
      load_files_model_list fm pref m hmode, hf]
    rfl
  · rw [remmina_main_load_files_statusbar fm sort_le pref m, hf]
    rfl

theorem published_count_witness :
    (remmina_main_load_files team_manager sort_keep tree_pref
      { initial_main with entry_quick_connect_server := cstr "zzz" }).statusbar_main.head? =
      some (StatusMessage.total 4) ∧
    (remmina_main_load_files { team_manager with files := [] } sort_keep
      { tree_pref with view_file_mode := REMMINA_VIEW_FILE_LIST } initial_main).file_model =
      some (FileModel.list_store []) ∧
    (remmina_main_load_files { team_manager with files := [] } sort_keep
      { tree_pref with view_file_mode := REMMINA_VIEW_FILE_LIST }
      initial_main).statusbar_main.head? = some (StatusMessage.total 0) :=
  ⟨(published_count team_manager sort_keep tree_pref
      { initial_main with entry_quick_connect_server := cstr "zzz" }).1,
    (published_count { team_manager with files := [] } sort_keep
      { tree_pref with view_file_mode := REMMINA_VIEW_FILE_LIST } initial_main).2 rfl
      (by decide)⟩

/-! ## The layout and the query: lemmas and claim -/

theorem load_files_model_congr (fm : FileManager) (pref : RemminaPref) (m m' : RemminaMain)
    (h1 : m.network_states = m'.network_states)
    (h2 : m.override_view_file_mode_to_list = m'.override_view_file_mode_to_list) :
    load_files_model fm pref m = load_files_model fm pref m' := by
  unfold load_files_model effective_view_file_mode
  rw [h1, h2]

theorem load_files_model_tree_iff (fm : FileManager) (pref : RemminaPref) (m : RemminaMain) :
    GTK_IS_TREE_STORE (some (load_files_model fm pref m)) = true ↔
      (pref.view_file_mode = REMMINA_VIEW_FILE_TREE ∧
        m.override_view_file_mode_to_list = false) := by
  by_cases h : effective_view_file_mode pref m = REMMINA_VIEW_FILE_TREE
  · have hl : GTK_IS_TREE_STORE (some (load_files_model fm pref m)) = true := by
      unfold load_files_model load_files_newmodel
      rw [if_pos h]
      rfl
    rw [hl]
    unfold effective_view_file_mode at h
    by_cases ho : m.override_view_file_mode_to_list = true
    · rw [if_pos ho] at h
      exact absurd h (by decide)
    · rw [if_neg ho] at h
      simp only [true_iff]
      exact ⟨h, by simpa using ho⟩
  · rw [load_files_model_list fm pref m h]
    simp only [GTK_IS_TREE_STORE, Bool.false_eq_true, false_iff, not_and]
    intro hv ho
    apply h
    unfold effective_view_file_mode
    rw [ho]
    simpa using hv

theorem refilter_network_states (view : TreeViewRows) (sort_le : Int → Int → Row → Row → Bool)
    (m : RemminaMain) :
    (gtk_tree_model_filter_refilter view sort_le m).network_states = m.network_states := by
  unfold gtk_tree_model_filter_refilter
  split <;> rfl

/-- A reload gives a state of the invariant when the override goes with a
query and the tree layout without override goes with an empty query. -/
theorem catalog_inv_load_files (fm : FileManager) (sort_le : Int → Int → Row → Row → Bool)
    (pref : PrefState) (m : RemminaMain)
    (h1 : m.override_view_file_mode_to_list = true → m.entry_quick_connect_server ≠ [])
    (h2 : pref.remmina_pref.view_file_mode = REMMINA_VIEW_FILE_LIST ∨
      pref.remmina_pref.view_file_mode = REMMINA_VIEW_FILE_TREE)
    (h3 : pref.remmina_pref.view_file_mode = REMMINA_VIEW_FILE_TREE →
      m.override_view_file_mode_to_list = false → m.entry_quick_connect_server = []) :
    catalog_inv { pref := pref,
                  main := remmina_main_load_files fm sort_le pref.remmina_pref m } := by
  obtain ⟨f1, _, _, _, _, _, f7, f8, f9⟩ :=
    remmina_main_load_files_fields fm sort_le pref.remmina_pref m
  refine ⟨?_, h2, ⟨fm, ?_⟩, ?_⟩
  · show (remmina_main_load_files fm sort_le pref.remmina_pref m).override_view_file_mode_to_list
      = true → (remmina_main_load_files fm sort_le pref.remmina_pref m).entry_quick_connect_server
      ≠ []
    rw [f7, f8]
    exact h1
  · show (remmina_main_load_files fm sort_le pref.remmina_pref m).file_model = _
    rw [f1]
    exact congrArg some (load_files_model_congr fm pref.remmina_pref _ _ f9.symm f7.symm)
  · show GTK_IS_TREE_STORE (remmina_main_load_files fm sort_le pref.remmina_pref m).file_model
      = true → (remmina_main_load_files fm sort_le pref.remmina_pref m).entry_quick_connect_server
      = []
    rw [f1, f8, load_files_model_tree_iff]
    exact fun h => h3 h.1 h.2

/-- The search handler gives a state of the invariant whenever the file model
fits the preference and the override. -/
theorem catalog_inv_on_changed (fm : FileManager) (sort_le : Int → Int → Row → Row → Bool)
    (view : TreeViewRows) (pref : PrefState) (m : RemminaMain)
    (h2 : pref.remmina_pref.view_file_mode = REMMINA_VIEW_FILE_LIST ∨
      pref.remmina_pref.view_file_mode = REMMINA_VIEW_FILE_TREE)
    (h3 : ∃ fm0, m.file_model = some (load_files_model fm0 pref.remmina_pref m)) :
    catalog_inv { pref := pref,
                  main := remmina_main_quick_search_on_changed fm sort_le view
                    pref.remmina_pref m } := by
  obtain ⟨ha, hb, hc⟩ := quick_search_on_changed_cases fm sort_le view pref.remmina_pref m
  by_cases c1 : m.entry_quick_connect_server ≠ [] ∧ GTK_IS_TREE_STORE m.file_model = true
  · rw [ha c1.1 c1.2]
    exact catalog_inv_load_files fm sort_le pref _ (fun _ => c1.1) h2
      (fun _ h => absurd h (by simp))
  · by_cases c2 : m.entry_quick_connect_server = [] ∧ m.override_view_file_mode_to_list = true
    · rw [hb c2.1 c2.2]
      exact catalog_inv_load_files fm sort_le pref _ (fun h => absurd h (by simp)) h2
        (fun _ _ => c2.1)
    · rw [hc c1 c2]
      obtain ⟨r1, r2, r3, _⟩ := refilter_frame view sort_le m
      have r9 := refilter_network_states view sort_le m
      obtain ⟨fm0, hfm⟩ := h3
      refine ⟨?_, h2, ⟨fm0, ?_⟩, ?_⟩
      · show (gtk_tree_model_filter_refilter view sort_le m).override_view_file_mode_to_list
          = true → (gtk_tree_model_filter_refilter view sort_le m).entry_quick_connect_server
          ≠ []
        rw [r2, r3]
        exact fun ho he => c2 ⟨he, ho⟩
      · show (gtk_tree_model_filter_refilter view sort_le m).file_model = _
        rw [r1, hfm]
        exact congrArg some (load_files_model_congr fm0 pref.remmina_pref _ _ r9.symm r2.symm)
      · show GTK_IS_TREE_STORE (gtk_tree_model_filter_refilter view sort_le m).file_model
          = true → (gtk_tree_model_filter_refilter view sort_le m).entry_quick_connect_server
          = []
        rw [r1, r3]
        intro ht
        by_contra he
        exact c1 ⟨he, ht⟩

theorem catalog_inv_set_text (fm : FileManager) (sort_le : Int → Int → Row → Row → Bool)
    (view : TreeViewRows) (text : CStr) (s : CatalogState) (h : catalog_inv s) :
    catalog_inv
      { s with main := (gtk_entry_set_text fm sort_le view s.pref.remmina_pref text s.main) } := by
  unfold gtk_entry_set_text
  by_cases he : s.main.entry_quick_connect_server = text
  · rw [if_pos he]
    exact h
  · rw [if_neg he]
    obtain ⟨_, h2, ⟨fm0, h3⟩, _⟩ := h
    exact catalog_inv_on_changed fm sort_le view s.pref _ h2
      ⟨fm0, h3.trans (congrArg some (load_files_model_congr fm0 _ _ _ rfl rfl))⟩

/-- Emptying the search entry leaves no override behind. -/
theorem set_text_nil_clears (fm : FileManager) (sort_le : Int → Int → Row → Row → Bool)
    (view : TreeViewRows) (pref : RemminaPref) (m : RemminaMain)
    (h1 : m.override_view_file_mode_to_list = true → m.entry_quick_connect_server ≠ []) :
    (gtk_entry_set_text fm sort_le view pref [] m).override_view_file_mode_to_list = false ∧
    (gtk_entry_set_text fm sort_le view pref [] m).entry_quick_connect_server = [] := by
  unfold gtk_entry_set_text
  by_cases he : m.entry_quick_connect_server = []
  · rw [if_pos he]
    refine ⟨?_, he⟩
    cases ho : m.override_view_file_mode_to_list
    · rfl
    · exact absurd he (h1 ho)
  · rw [if_neg he]
    obtain ⟨_, hb, hc⟩ := quick_search_on_changed_cases fm sort_le view pref
      { m with entry_quick_connect_server := [] }
    by_cases ho : m.override_view_file_mode_to_list = true
    · rw [hb rfl ho]
      obtain ⟨_, _, _, _, _, _, f7, f8, _⟩ := remmina_main_load_files_fields fm sort_le pref
        { m with entry_quick_connect_server := [], override_view_file_mode_to_list := false }
      exact ⟨f7, f8⟩
    · have ho' : m.override_view_file_mode_to_list = false := by simpa using ho
      have c1 : ¬ (({ m with entry_quick_connect_server := [] } :
          RemminaMain).entry_quick_connect_server ≠ [] ∧
          GTK_IS_TREE_STORE ({ m with entry_quick_connect_server := [] } :
            RemminaMain).file_model = true) := fun c => c.1 rfl
      have c2 : ¬ (({ m with entry_quick_connect_server := [] } :
          RemminaMain).entry_quick_connect_server = [] ∧
          ({ m with entry_quick_connect_server := [] } :
            RemminaMain).override_view_file_mode_to_list = true) := fun c => ho c.2
      rw [hc c1 c2]
      obtain ⟨_, r2, r3, _⟩ := refilter_frame view sort_le
        { m with entry_quick_connect_server := [] }
      rw [r2, r3]
      exact ⟨ho', rfl⟩

theorem catalog_inv_mode_changed (fm : FileManager) (sort_le : Int → Int → Row → Row → Bool)
    (view : TreeViewRows) (mode : Int)
    (hmode : mode = REMMINA_VIEW_FILE_LIST ∨ mode = REMMINA_VIEW_FILE_TREE)
    (s : CatalogState)
    (h1 : s.main.override_view_file_mode_to_list = true →
      s.main.entry_quick_connect_server ≠ []) :
    catalog_inv (view_file_mode_changed fm sort_le view mode s) := by
  unfold view_file_mode_changed
  obtain ⟨c1, c2⟩ := set_text_nil_clears fm sort_le view
    { s.pref.remmina_pref with view_file_mode := mode } s.main h1
  refine catalog_inv_load_files fm sort_le _ _ ?_ hmode ?_
  · intro ho
    rw [c1] at ho
    cases ho
  · exact fun _ _ => c2

theorem catalog_inv_step (sort_le : Int → Int → Row → Row → Bool) (view : TreeViewRows)
    (s : CatalogState) (e : FileManager × CatalogEvent) (h : catalog_inv s) :
    catalog_inv (catalog_step sort_le view s e) := by
  obtain ⟨fm, ev⟩ := e
  cases ev with
  | query_changed text => exact catalog_inv_set_text fm sort_le view text s h
  | view_toggled =>
    simp only [catalog_step, remmina_main_on_view_toggle]
    split
    · split
      · exact catalog_inv_mode_changed fm sort_le view _ (Or.inl rfl) _ h.1
      · exact h
    · split
      · exact catalog_inv_mode_changed fm sort_le view _ (Or.inr rfl) _ h.1
      · exact h
  | date_column_clicked =>
    simp only [catalog_step, remmina_main_on_date_column_sort_clicked]
    split
    · exact catalog_inv_mode_changed fm sort_le view _ (Or.inl rfl) _ h.1
    · exact h
  | reload =>
    obtain ⟨h1, h2, ⟨fm0, h3⟩, h4⟩ := h
    refine catalog_inv_load_files fm sort_le s.pref s.main h1 h2 ?_
    intro hv ho
    apply h4
    rw [h3]
    exact (load_files_model_tree_iff fm0 _ _).mpr ⟨hv, ho⟩

theorem catalog_inv_run (sort_le : Int → Int → Row → Row → Bool) (view : TreeViewRows) :
    ∀ (events : List (FileManager × CatalogEvent)) (s : CatalogState), catalog_inv s →
      catalog_inv (catalog_run sort_le view events s)
  | [], _, h => h
  | e :: es, s, h => by
    have := catalog_inv_run sort_le view es (catalog_step sort_le view s e)
      (catalog_inv_step sort_le view s e h)
    simpa [catalog_run] using this

theorem catalog_inv_init (fm : FileManager) (sort_le : Int → Int → Row → Row → Bool)
    (pref : PrefState) (m0 : RemminaMain)
    (h : pref.remmina_pref.view_file_mode = REMMINA_VIEW_FILE_LIST ∨
      pref.remmina_pref.view_file_mode = REMMINA_VIEW_FILE_TREE) :
    catalog_inv (catalog_init fm sort_le pref m0) :=
  catalog_inv_load_files fm sort_le pref _ (fun ho => absurd ho (by simp)) h (fun _ _ => rfl)

/-- The handler of the view toggle button does nothing when the button shows
the layout preference, as it does after every reload: the "toggled" that
`gtk_toggle_button_set_active` may emit inside a reload changes nothing. -/
theorem on_view_toggle_agree (fm : FileManager) (sort_le : Int → Int → Row → Row → Bool)
    (view : TreeViewRows) (s : CatalogState)
    (hmode : s.pref.remmina_pref.view_file_mode = REMMINA_VIEW_FILE_LIST ∨
      s.pref.remmina_pref.view_file_mode = REMMINA_VIEW_FILE_TREE)
    (hb : s.main.view_toggle_button =
      if s.pref.remmina_pref.view_file_mode = REMMINA_VIEW_FILE_TREE then false else true) :
    remmina_main_on_view_toggle fm sort_le view s = s := by
  unfold remmina_main_on_view_toggle
  rcases hmode with h | h
  · have hb' : s.main.view_toggle_button = true := by
      rw [hb, h]; rfl
    simp [hb', h]
  · have hb' : s.main.view_toggle_button = false := by
      rw [hb, h]; rfl
    simp [hb', h]

/-- Claim C26: in every state reached from the initial load (empty query,
no override) through changes of the query, clicks on the view toggle button,
clicks on the date column and reloads, the search override is set only while
the query is not empty, and a tree-shaped file model goes with an empty query;
so with a query that is not empty the file model is a list of profile rows
and the filter meets no folder row. -/
theorem layout_query_invariant (fm0 : FileManager) (sort_le : Int → Int → Row → Row → Bool)
    (view : TreeViewRows) (pref : PrefState) (m0 : RemminaMain)
    (hpref : pref.remmina_pref.view_file_mode = REMMINA_VIEW_FILE_LIST ∨
      pref.remmina_pref.view_file_mode = REMMINA_VIEW_FILE_TREE)
    (events : List (FileManager × CatalogEvent)) :
    ((catalog_run sort_le view events
        (catalog_init fm0 sort_le pref m0)).main.override_view_file_mode_to_list = true →
      (catalog_run sort_le view events
        (catalog_init fm0 sort_le pref m0)).main.entry_quick_connect_server ≠ []) ∧
    (GTK_IS_TREE_STORE (catalog_run sort_le view events
        (catalog_init fm0 sort_le pref m0)).main.file_model = true →
      (catalog_run sort_le view events
        (catalog_init fm0 sort_le pref m0)).main.entry_quick_connect_server = []) ∧
    ((catalog_run sort_le view events
        (catalog_init fm0 sort_le pref m0)).main.entry_quick_connect_server ≠ [] →
      ∃ rows, (catalog_run sort_le view events
          (catalog_init fm0 sort_le pref m0)).main.file_model = some (FileModel.list_store rows) ∧
        ∀ row ∈ rows, ∀ d : RemminaGroupData, row ≠ folder_row d) := by
  obtain ⟨h1, _, ⟨fm, h3⟩, h4⟩ := catalog_inv_run sort_le view events _
    (catalog_inv_init fm0 sort_le pref m0 hpref)
  refine ⟨h1, h4, ?_⟩
  intro hne
  have hmode : effective_view_file_mode
      (catalog_run sort_le view events (catalog_init fm0 sort_le pref m0)).pref.remmina_pref
      (catalog_run sort_le view events (catalog_init fm0 sort_le pref m0)).main ≠
      REMMINA_VIEW_FILE_TREE := by
    intro heff
    apply hne
    apply h4
    rw [h3, load_files_model_tree_iff]
    unfold effective_view_file_mode at heff
    by_cases ho : (catalog_run sort_le view events
        (catalog_init fm0 sort_le pref m0)).main.override_view_file_mode_to_list = true
    · rw [if_pos ho] at heff
      exact absurd heff (by decide)
    · rw [if_neg ho] at heff
      exact ⟨heff, by simpa using ho⟩
  refine ⟨_, h3.trans (congrArg some (load_files_model_list fm _ _ hmode)), ?_⟩
  intro row hrow d
  obtain ⟨f, _, rfl⟩ := List.mem_map.mp hrow
  exact profile_row_ne_folder_row f _ d

theorem layout_query_invariant_witness :
    (tree_pref_state.remmina_pref.view_file_mode = REMMINA_VIEW_FILE_LIST ∨
      tree_pref_state.remmina_pref.view_file_mode = REMMINA_VIEW_FILE_TREE) ∧
    (((catalog_run sort_keep keep_paths sample_events
        (catalog_init work_manager sort_keep tree_pref_state
          initial_main)).main.override_view_file_mode_to_list = true →
      (catalog_run sort_keep keep_paths sample_events
        (catalog_init work_manager sort_keep tree_pref_state
          initial_main)).main.entry_quick_connect_server ≠ []) ∧
    (GTK_IS_TREE_STORE (catalog_run sort_keep keep_paths sample_events
        (catalog_init work_manager sort_keep tree_pref_state initial_main)).main.file_model
        = true →
      (catalog_run sort_keep keep_paths sample_events
        (catalog_init work_manager sort_keep tree_pref_state
          initial_main)).main.entry_quick_connect_server = []) ∧
    ((catalog_run sort_keep keep_paths sample_events
        (catalog_init work_manager sort_keep tree_pref_state
          initial_main)).main.entry_quick_connect_server ≠ [] →
      ∃ rows, (catalog_run sort_keep keep_paths sample_events
          (catalog_init work_manager sort_keep tree_pref_state initial_main)).main.file_model
          = some (FileModel.list_store rows) ∧
        ∀ row ∈ rows, ∀ d : RemminaGroupData, row ≠ folder_row d)) :=
  ⟨Or.inr rfl,
    layout_query_invariant work_manager sort_keep keep_paths tree_pref_state initial_main
      (Or.inr rfl) sample_events⟩

/-! ## Deferred teardown: claim -/

/-- Claim C24: the handler of "destroy" never releases the main-window
context: after it the context is still there, with its window reference
cleared and `remmina_main_idle_destroy` queued as an idle source, and the next
turn of the main loop releases it. Of the lifecycle functions only
`remmina_main_idle_destroy` and `remmina_main_destroy` release the context;
both do nothing when the context is gone already, and
`remmina_main_save_before_destroy` does nothing once the window reference is
cleared. -/
theorem deferred_teardown (to_string : List CStr → CStr) (geometry : WindowGeometry)
    (s : MainContext) :
    (remmina_main_on_destroy_event s).remminamain =
      s.remminamain.map (fun m => { m with window := false }) ∧
    (s.remminamain.isSome = true →
      (remmina_main_on_destroy_event s).remminamain.isSome = true ∧
      (remmina_main_on_destroy_event s).idle =
        s.idle ++ [IdleSource.remmina_main_idle_destroy]) ∧
    (s.idle = [] → (dispatch_idle (remmina_main_on_destroy_event s)).remminamain = none) ∧
    (∀ c : LifecycleCall, s.remminamain.isSome = true →
      (lifecycle_call to_string c s).remminamain = none →
      c = LifecycleCall.idle_destroy ∨ c = LifecycleCall.destroy) ∧
    (remmina_main_destroy s).remminamain = none ∧
    (remmina_main_idle_destroy s).remminamain = none ∧
    (s.remminamain = none → remmina_main_destroy s = s ∧ remmina_main_idle_destroy s = s) ∧
    ((∀ m, s.remminamain = some m → m.window = false) →
      remmina_main_save_before_destroy to_string geometry s = s) ∧
    remmina_main_save_before_destroy to_string geometry (remmina_main_on_destroy_event s) =
      remmina_main_on_destroy_event s := by
  obtain ⟨rm, wp, wps, idle⟩ := s
  cases rm with
  | none =>
    refine ⟨rfl, ?_, ?_, ?_, rfl, rfl, ?_, ?_, rfl⟩
    · intro h; cases h
    · intro hi
      simp only at hi
      subst hi
      rfl
    · intro c h; cases h
    · intro _; exact ⟨rfl, rfl⟩
    · intro _; rfl
  | some m =>
    refine ⟨rfl, ?_, ?_, ?_, rfl, ?_, ?_, ?_, rfl⟩
    · intro _; exact ⟨rfl, rfl⟩
    · intro hi
      simp only at hi
      subst hi
      rfl
    · intro c _ hnone
      cases c with
      | save_before_destroy g =>
        exfalso
        simp only [lifecycle_call, remmina_main_save_before_destroy] at hnone
        by_cases hw : m.window = false
        · simp [hw] at hnone
        · simp [hw] at hnone
      | on_destroy_event =>
        exfalso
        simp [lifecycle_call, remmina_main_on_destroy_event] at hnone
      | idle_destroy => exact Or.inl rfl
      | destroy => exact Or.inr rfl
    · simp [remmina_main_idle_destroy, remmina_main_destroy]
    · intro h; cases h
    · intro hw
      have := hw m rfl
      simp [remmina_main_save_before_destroy, this]

theorem deferred_teardown_witness :
    live_context.remminamain.isSome = true ∧ live_context.idle = [] ∧
    ((remmina_main_on_destroy_event live_context).remminamain.isSome = true ∧
      (remmina_main_on_destroy_event live_context).idle =
        live_context.idle ++ [IdleSource.remmina_main_idle_destroy]) ∧
    (dispatch_idle (remmina_main_on_destroy_event live_context)).remminamain = none ∧
    (remmina_main_save_before_destroy (fun groups => groups.flatten)
        { maximized := false, width := 800, height := 600 }
        (remmina_main_on_destroy_event live_context) =
      remmina_main_on_destroy_event live_context) :=
  ⟨rfl, rfl,
    (deferred_teardown (fun groups => groups.flatten)
      { maximized := false, width := 800, height := 600 } live_context).2.1 rfl,
    (deferred_teardown (fun groups => groups.flatten)
      { maximized := false, width := 800, height := 600 } live_context).2.2.1 rfl,
    (deferred_teardown (fun groups => groups.flatten)
      { maximized := false, width := 800, height := 600 } live_context).2.2.2.2.2.2.2.2⟩

/-! ## The expanded groups across a search: lemmas and claim -/

theorem save_expanded_group_list (m : RemminaMain) (h : GTK_IS_TREE_STORE m.file_model = false) :
    remmina_main_save_expanded_group m = m := by
  unfold remmina_main_save_expanded_group
  simp [h]

theorem save_expanded_group_list_field (m : RemminaMain)
    (h : GTK_IS_TREE_STORE m.file_model = false) :
    (remmina_main_save_expanded_group m).expanded_group = m.expanded_group := by
  rw [save_expanded_group_list m h]

theorem save_expanded_group_tree (m : RemminaMain) (h : GTK_IS_TREE_STORE m.file_model = true) :
    (remmina_main_save_expanded_group m).expanded_group =
      save_expanded_group_from m.expanded_rows [] 0 m.file_model_sort [] := by
  unfold remmina_main_save_expanded_group
  simp [h]

/-- A change of the query on a list-shaped model leaves the expanded groups as
they are, with or without a reload. -/
theorem set_text_list_expanded_group (fm : FileManager)
    (sort_le : Int → Int → Row → Row → Bool) (view : TreeViewRows) (pref : RemminaPref)
    (text : CStr) (m : RemminaMain) (h : GTK_IS_TREE_STORE m.file_model = false) :
    (gtk_entry_set_text fm sort_le view pref text m).expanded_group = m.expanded_group := by
  unfold gtk_entry_set_text
  by_cases he : m.entry_quick_connect_server = text
  · rw [if_pos he]
  · rw [if_neg he]
    obtain ⟨_, hb, hc⟩ := quick_search_on_changed_cases fm sort_le view pref
      { m with entry_quick_connect_server := text }
    by_cases c2 : text = [] ∧ m.override_view_file_mode_to_list = true
    · rw [hb c2.1 c2.2, (remmina_main_load_files_fields fm sort_le pref _).2.2.2.2.1,
        save_expanded_group_list_field]
      exact h
    · have c1 : ¬ (({ m with entry_quick_connect_server := text } :
          RemminaMain).entry_quick_connect_server ≠ [] ∧
          GTK_IS_TREE_STORE ({ m with entry_quick_connect_server := text } :
            RemminaMain).file_model = true) := by
        intro c
        have : GTK_IS_TREE_STORE m.file_model = true := c.2
        rw [h] at this
        cases this
      rw [hc c1 c2, (refilter_frame view sort_le _).2.2.2.1]

/-- The first character typed on a tree-shaped model captures the expanded
groups and builds the list. -/
theorem set_text_tree_capture (fm : FileManager)
    (sort_le : Int → Int → Row → Row → Bool) (view : TreeViewRows) (pref : RemminaPref)
    (text : CStr) (m : RemminaMain) (ht : text ≠ [])
    (h : GTK_IS_TREE_STORE m.file_model = true) (he : m.entry_quick_connect_server = []) :
    (gtk_entry_set_text fm sort_le view pref text m).expanded_group =
      save_expanded_group_from m.expanded_rows [] 0 m.file_model_sort [] ∧
    GTK_IS_TREE_STORE (gtk_entry_set_text fm sort_le view pref text m).file_model = false ∧
    (gtk_entry_set_text fm sort_le view pref text m).override_view_file_mode_to_list = true ∧
    (gtk_entry_set_text fm sort_le view pref text m).entry_quick_connect_server = text := by
  have hne : ¬ m.entry_quick_connect_server = text := by
    rw [he]; exact fun e => ht e.symm
  unfold gtk_entry_set_text
  rw [if_neg hne]
  rw [(quick_search_on_changed_cases fm sort_le view pref
    { m with entry_quick_connect_server := text }).1 ht h]
  obtain ⟨f1, _, _, _, f5, _, f7, f8, _⟩ := remmina_main_load_files_fields fm sort_le pref
    { m with entry_quick_connect_server := text, override_view_file_mode_to_list := true }
  refine ⟨?_, ?_, f7, f8⟩
  · rw [f5]
    exact save_expanded_group_tree _ h
  · rw [f1, load_files_model_list fm pref _ (effective_view_file_mode_override pref _ rfl)]
    rfl

/-- Clearing the query while the override is set rebuilds the model for the
layout preference and expands the rows of the expanded groups it finds. -/
theorem set_text_clear_restore (fm : FileManager)
    (sort_le : Int → Int → Row → Row → Bool) (view : TreeViewRows) (pref : RemminaPref)
    (m : RemminaMain) (hl : GTK_IS_TREE_STORE m.file_model = false)
    (ho : m.override_view_file_mode_to_list = true)
    (he : m.entry_quick_connect_server ≠ []) :
    (gtk_entry_set_text fm sort_le view pref [] m).expanded_group = m.expanded_group ∧
    (gtk_entry_set_text fm sort_le view pref [] m).expanded_rows =
      remmina_main_expand_group m.expanded_group
        (gtk_entry_set_text fm sort_le view pref [] m).file_model_sort [] ∧
    (pref.view_file_mode = REMMINA_VIEW_FILE_TREE →
      GTK_IS_TREE_STORE (gtk_entry_set_text fm sort_le view pref [] m).file_model = true) := by
  refine ⟨set_text_list_expanded_group fm sort_le view pref [] m hl, ?_, ?_⟩
  · unfold gtk_entry_set_text
    rw [if_neg he]
    rw [(quick_search_on_changed_cases fm sort_le view pref
      { m with entry_quick_connect_server := [] }).2.1 rfl ho]
    obtain ⟨_, f2, _, _, _, f6, _⟩ := remmina_main_load_files_fields fm sort_le pref
      { m with entry_quick_connect_server := [], override_view_file_mode_to_list := false }
    rw [f6, f2, save_expanded_group_list_field]
    exact hl
  · intro hp
    unfold gtk_entry_set_text
    rw [if_neg he]
    rw [(quick_search_on_changed_cases fm sort_le view pref
      { m with entry_quick_connect_server := [] }).2.1 rfl ho]
    rw [(remmina_main_load_files_fields fm sort_le pref _).1, load_files_model_tree_iff]
    exact ⟨hp, rfl⟩

/-- Claim C28: the expanded-group set is captured again only when the current
model is tree-shaped. A reload, and a change of the query with or without
reload, on a list-shaped model leaves the set exactly as it was; so the
groups captured when the first character of a search turns the tree into a
list are the ones expanded again when the search is cleared and the tree is
built again. -/
theorem expanded_group_kept (fm fm2 : FileManager) (sort_le : Int → Int → Row → Row → Bool)
    (view : TreeViewRows) (pref : RemminaPref) (m : RemminaMain) :
    (GTK_IS_TREE_STORE m.file_model = false →
      (remmina_main_load_files fm sort_le pref m).expanded_group = m.expanded_group ∧
      ∀ text, (gtk_entry_set_text fm sort_le view pref text m).expanded_group =
        m.expanded_group) ∧
    (GTK_IS_TREE_STORE m.file_model = true →
      (remmina_main_load_files fm sort_le pref m).expanded_group =
        save_expanded_group_from m.expanded_rows [] 0 m.file_model_sort []) ∧
    (∀ text, text ≠ [] → GTK_IS_TREE_STORE m.file_model = true →
      m.entry_quick_connect_server = [] →
      (gtk_entry_set_text fm sort_le view pref text m).expanded_group =
        save_expanded_group_from m.expanded_rows [] 0 m.file_model_sort [] ∧
      GTK_IS_TREE_STORE (gtk_entry_set_text fm sort_le view pref text m).file_model = false ∧
      (gtk_entry_set_text fm2 sort_le view pref []
        (gtk_entry_set_text fm sort_le view pref text m)).expanded_group =
        save_expanded_group_from m.expanded_rows [] 0 m.file_model_sort [] ∧
      (gtk_entry_set_text fm2 sort_le view pref []
        (gtk_entry_set_text fm sort_le view pref text m)).expanded_rows =
        remmina_main_expand_group
          (save_expanded_group_from m.expanded_rows [] 0 m.file_model_sort [])
          (gtk_entry_set_text fm2 sort_le view pref []
            (gtk_entry_set_text fm sort_le view pref text m)).file_model_sort [] ∧
      (pref.view_file_mode = REMMINA_VIEW_FILE_TREE →
        GTK_IS_TREE_STORE (gtk_entry_set_text fm2 sort_le view pref []
          (gtk_entry_set_text fm sort_le view pref text m)).file_model = true)) := by
  refine ⟨?_, ?_, ?_⟩
  · intro hl
    refine ⟨?_, fun text => set_text_list_expanded_group fm sort_le view pref text m hl⟩
    rw [(remmina_main_load_files_fields fm sort_le pref m).2.2.2.2.1,
      save_expanded_group_list m hl]
  · intro ht
    rw [(remmina_main_load_files_fields fm sort_le pref m).2.2.2.2.1]
    exact save_expanded_group_tree m ht
  · intro text htext ht he
    obtain ⟨c1, c2, c3, c4⟩ := set_text_tree_capture fm sort_le view pref text m htext ht he
    obtain ⟨d1, d2, d3⟩ := set_text_clear_restore fm2 sort_le view pref
      (gtk_entry_set_text fm sort_le view pref text m) c2 c3 (by rw [c4]; exact htext)
    rw [c1] at d1 d2
    exact ⟨c1, c2, d1, d2, d3⟩

theorem expanded_group_kept_witness :
    cstr "a" ≠ [] ∧ GTK_IS_TREE_STORE expanded_team_main.file_model = true ∧
    expanded_team_main.entry_quick_connect_server = [] ∧
    save_expanded_group_from expanded_team_main.expanded_rows [] 0
      expanded_team_main.file_model_sort [] = [cstr "Work", cstr "Work/Team"] ∧
    ((gtk_entry_set_text team_manager sort_keep keep_paths tree_pref (cstr "a")
        expanded_team_main).expanded_group =
        save_expanded_group_from expanded_team_main.expanded_rows [] 0
          expanded_team_main.file_model_sort [] ∧
      GTK_IS_TREE_STORE (gtk_entry_set_text team_manager sort_keep keep_paths tree_pref
        (cstr "a") expanded_team_main).file_model = false ∧
      (gtk_entry_set_text team_manager sort_keep keep_paths tree_pref []
        (gtk_entry_set_text team_manager sort_keep keep_paths tree_pref (cstr "a")
          expanded_team_main)).expanded_group =
        save_expanded_group_from expanded_team_main.expanded_rows [] 0
          expanded_team_main.file_model_sort [] ∧
      (gtk_entry_set_text team_manager sort_keep keep_paths tree_pref []
        (gtk_entry_set_text team_manager sort_keep keep_paths tree_pref (cstr "a")
          expanded_team_main)).expanded_rows =
        remmina_main_expand_group
          (save_expanded_group_from expanded_team_main.expanded_rows [] 0
            expanded_team_main.file_model_sort [])
          (gtk_entry_set_text team_manager sort_keep keep_paths tree_pref []
            (gtk_entry_set_text team_manager sort_keep keep_paths tree_pref (cstr "a")
              expanded_team_main)).file_model_sort [] ∧
      (tree_pref.view_file_mode = REMMINA_VIEW_FILE_TREE →
        GTK_IS_TREE_STORE (gtk_entry_set_text team_manager sort_keep keep_paths tree_pref []
          (gtk_entry_set_text team_manager sort_keep keep_paths tree_pref (cstr "a")
            expanded_team_main)).file_model = true)) ∧
    (gtk_entry_set_text team_manager sort_keep keep_paths tree_pref []
      (gtk_entry_set_text team_manager sort_keep keep_paths tree_pref (cstr "a")
        expanded_team_main)).expanded_rows = [[0], [0, 0]] :=
  ⟨by decide, by decide, rfl, by decide,
    (expanded_group_kept team_manager team_manager sort_keep keep_paths tree_pref
      expanded_team_main).2.2 (cstr "a") (by decide) (by decide) rfl,
    by decide⟩

/-! ## The status icon: lemmas -/

theorem startsWith_eq_isPrefixOf (h n : CStr) : startsWith h n = n.isPrefixOf h := by
  cases hs : startsWith h n
  · symm
    rw [Bool.eq_false_iff]
    intro hp
    rw [(startsWith_iff h n).mpr (List.isPrefixOf_iff_prefix.mp hp)] at hs
    cases hs
  · exact (List.isPrefixOf_iff_prefix.mpr ((startsWith_iff h n).mp hs)).symm

/-- The status icon of the row builders is the one the specification words. -/
theorem status_icon_eq_spec (status_check : Bool) (network_states : NetworkStates)
    (f : RemminaFile) :
    status_icon status_check network_states f =
      status_icon_spec status_check (recorded_state network_states f.filename) := by
  unfold status_icon status_icon_spec recorded_state g_hash_table_contains g_hash_table_lookup
  cases status_check with
  | false => rfl
  | true =>
    cases f.filename with
    | none => rfl
    | some k =>
      cases hfind : network_states.find? (fun e => e.1 == k) with
      | none =>
        have hany : network_states.any (fun e => e.1 == k) = false := by
          rw [Bool.eq_false_iff]
          intro ha
          obtain ⟨e, he, hek⟩ := List.any_eq_true.mp ha
          have := List.find?_eq_none.mp hfind e he
          exact this hek
        simp [hany, hfind]
      | some e =>
        have hany : network_states.any (fun e => e.1 == k) = true := by
          apply List.any_eq_true.mpr
          have hp := List.find?_some hfind
          exact ⟨e, List.mem_of_find?_eq_some hfind, hp⟩
        cases he : e.2 with
        | none => simp [hany, hfind, he]
        | some state => simp [hany, hfind, he, startsWith_eq_isPrefixOf]

/-! ## Connect on a folder: lemmas and claim -/

theorem opened_files_append (a b : List Action) :
    opened_files (a ++ b) = opened_files a ++ opened_files b := by
  simp [opened_files, List.filterMap_append]

theorem connect_gated_open (env : ConnectEnv) (filename : Option CStr) (n : Nat)
    (h1 : (env.use_primary_password && env.lock_connect) = false)
    (h2 : env.profile_lock filename ≠ 1) :
    connect_gated env filename n =
      ([Action.file_touch filename, Action.rcw_open_from_filename filename], n) := by
  simp [connect_gated, h1, h2]

/-- Without a lock, connect on a folder opens the profiles whose group field
equals the selected name, in enumeration order. -/
theorem load_by_group_opened (env : ConnectEnv) (selected_name : Option CStr)
    (h1 : (env.use_primary_password && env.lock_connect) = false)
    (h2 : ∀ filename, env.profile_lock filename ≠ 1) :
    ∀ (files : List RemminaFile) (st : List Action × Nat),
      opened_files (files.foldl (fun st f =>
          remmina_main_load_by_group_callback env selected_name f st) st).1 =
        opened_files st.1 ++
          (files.filter (fun f => decide (f.group = selected_name))).map
            (fun f => f.filename)
  | [], st => by simp
  | f :: fs, st => by
    rw [List.foldl_cons, load_by_group_opened env selected_name h1 h2 fs]
    by_cases hg : f.group = selected_name
    · have h0 : g_strcmp0 selected_name f.group = 0 := (g_strcmp0_eq_zero _ _).mpr hg.symm
      simp only [remmina_main_load_by_group_callback, h0, if_true,
        connect_gated_open env f.filename st.2 h1 (h2 _), opened_files_append]
      simp [opened_files, hg]
    · have h0 : g_strcmp0 selected_name f.group ≠ 0 :=
        fun h => hg ((g_strcmp0_eq_zero _ _).mp h).symm
      simp [remmina_main_load_by_group_callback, h0, hg]

/-- Claim C29 (the code at the failing input): the folder "Team" inside "Work"
is selected; its row holds the group "Work/Team" and has the profile p3 as
its only child, yet the connect action compares the profiles with the name
"Team" and opens p2, the profile under the other folder of that name. -/
theorem connect_folder_opens_by_name :
    team_folder_selected.selected_filename = none ∧
    team_folder_selected.selected_name = some (cstr "Team") ∧
    group_at team_folder_selected.file_model_sort [0, 0] = some (cstr "Work/Team") ∧
    child_filenames team_folder_selected.file_model_sort [0, 0] =
      [some (cstr "/home/u/p3.remmina")] ∧
    child_filenames team_folder_selected.file_model_sort [1] =
      [some (cstr "/home/u/p2.remmina")] ∧
    opened_files (remmina_main_on_action_connection_connect connect_open_env
      team_manager.files team_folder_selected) = [some (cstr "/home/u/p2.remmina")] := by
  refine ⟨by decide, by decide, by decide, by decide, by decide, by decide⟩

/-! ## Attachment and earlier insertions: lemmas and claim -/

theorem find_from_snoc_leaf (g : Option CStr) (r : Row) (hr : r.filename ≠ none) :
    ∀ (a : List TreeNode) (i : Nat),
      load_file_tree_find_from g i (a ++ [.mk r []]) = load_file_tree_find_from g i a
  | [], i => by
    simp [load_file_tree_find_from, load_file_tree_find_row, hr]
  | n :: ns, i => by
    simp only [List.cons_append, load_file_tree_find_from, List.append_eq]
    rw [find_from_snoc_leaf g r hr ns (i + 1)]

theorem find_from_set (g : Option CStr) (n' : TreeNode) :
    ∀ (s : List TreeNode) (j i : Nat) (n : TreeNode), s[j]? = some n →
      load_file_tree_find_row g n' = load_file_tree_find_row g n →
      load_file_tree_find_from g i (s.set j n') = load_file_tree_find_from g i s
  | [], j, i, n => by simp
  | x :: xs, 0, i, n => by
    intro h hrow
    simp only [List.getElem?_cons_zero, Option.some.injEq] at h
    subst h
    simp only [List.set_cons_zero, load_file_tree_find_from, hrow]
  | x :: xs, j + 1, i, n => by
    intro h hrow
    simp only [List.getElem?_cons_succ] at h
    simp only [List.set_cons_succ, load_file_tree_find_from]
    rw [find_from_set g n' xs j (i + 1) n h hrow]

/-- The group search does not see a row with a filename, wherever it is
appended. -/
theorem find_from_appendUnder (g : Option CStr) (r : Row) (hr : r.filename ≠ none) :
    ∀ (p : List Nat) (s : TreeStore) (i : Nat),
      load_file_tree_find_from g i (appendUnder s p r).1 = load_file_tree_find_from g i s
  | [], s, i => by
    simp only [appendUnder]
    exact find_from_snoc_leaf g r hr s i
  | j :: q, s, i => by
    rw [appendUnder]
    cases hj : s[j]? with
    | none => rfl
    | some n =>
      obtain ⟨row, ch⟩ := n
      simp only
      apply find_from_set g _ s j i (.mk row ch) hj
      simp only [load_file_tree_find_row]
      rw [find_from_appendUnder g r hr q ch 0]

/-- The row the tree callback appends under: what the group search finds. -/
theorem tree_callback_eq (status_check : Bool) (network_states : NetworkStates)
    (f : RemminaFile) (store : TreeStore) :
    remmina_main_load_file_tree_callback status_check network_states f store =
      (gtk_tree_store_append store (remmina_main_load_file_tree_find store f.group)
        (profile_row f (status_icon status_check network_states f))).1 := by
  unfold remmina_main_load_file_tree_callback
  cases store with
  | nil => rfl
  | cons n ns => rfl

theorem find_callback (status_check : Bool) (network_states : NetworkStates)
    (f : RemminaFile) (hf : f.filename ≠ none) (store : TreeStore) (g : Option CStr) :
    remmina_main_load_file_tree_find
      (remmina_main_load_file_tree_callback status_check network_states f store) g =
      remmina_main_load_file_tree_find store g := by
  rw [tree_callback_eq]
  unfold remmina_main_load_file_tree_find gtk_tree_store_append
  exact find_from_appendUnder g _ hf _ store 0

theorem find_callbacks (status_check : Bool) (network_states : NetworkStates)
    (g : Option CStr) :
    ∀ (files : List RemminaFile), (∀ f ∈ files, f.filename ≠ none) → ∀ store : TreeStore,
      remmina_main_load_file_tree_find
        (files.foldl (fun st f => remmina_main_load_file_tree_callback status_check
          network_states f st) store) g =
        remmina_main_load_file_tree_find store g
  | [], _, store => rfl
  | f :: fs, h, store => by
    rw [List.foldl_cons,
      find_callbacks status_check network_states g fs
        (fun x hx => h x (List.mem_cons_of_mem _ hx)),
      find_callback status_check network_states f (h f (List.mem_cons_self _ _))]

/-- Claim C27: when every profile has a filename, the profile rows already in
the tree model never match the group search, and no row with a filename ever
has children. So the row a profile is appended under is the one the search
finds among the folder rows alone, a folder row of the profile's group, or
the top level when there is none: it depends on the folder rows and the
group field only, and two profiles of the same group get the same parent
whatever profiles were enumerated before them and in whatever order. -/
theorem attachment_independent (root : GNode) (status_check : Bool)
    (network_states : NetworkStates) (files : List RemminaFile)
    (h : ∀ f ∈ files, f.filename ≠ none) :
    (∀ g, remmina_main_load_file_tree_find
        (files.foldl (fun st f => remmina_main_load_file_tree_callback status_check
          network_states f st) (remmina_main_load_file_tree_group root [])) g =
      remmina_main_load_file_tree_find (remmina_main_load_file_tree_group root []) g) ∧
    parents_are_folders
      (files.foldl (fun st f => remmina_main_load_file_tree_callback status_check
        network_states f st) (remmina_main_load_file_tree_group root [])) ∧
    (∀ f : RemminaFile,
      remmina_main_load_file_tree_callback status_check network_states f
        (files.foldl (fun st f => remmina_main_load_file_tree_callback status_check
          network_states f st) (remmina_main_load_file_tree_group root [])) =
      (gtk_tree_store_append
        (files.foldl (fun st f => remmina_main_load_file_tree_callback status_check
          network_states f st) (remmina_main_load_file_tree_group root []))
        (remmina_main_load_file_tree_find (remmina_main_load_file_tree_group root []) f.group)
        (profile_row f (status_icon status_check network_states f))).1) ∧
    (∀ (f : RemminaFile) (p : TreeIter),
      remmina_main_load_file_tree_find (remmina_main_load_file_tree_group root []) f.group
        = some p →
      ∃ folder, nodeAt (files.foldl (fun st f => remmina_main_load_file_tree_callback
          status_check network_states f st) (remmina_main_load_file_tree_group root [])) p
          = some folder ∧
        folder.row.filename = none ∧ folder.row.group = f.group) ∧
    (∀ (q : TreeIter) (n : TreeNode),
      nodeAt (files.foldl (fun st f => remmina_main_load_file_tree_callback
          status_check network_states f st) (remmina_main_load_file_tree_group root [])) q
          = some n →
      n.row.filename ≠ none → n.children = []) ∧
    (∀ (files2 : List RemminaFile), (∀ f ∈ files2, f.filename ≠ none) →
      ∀ f1 f2 : RemminaFile, f1.group = f2.group →
      remmina_main_load_file_tree_find
        (files.foldl (fun st f => remmina_main_load_file_tree_callback status_check
          network_states f st) (remmina_main_load_file_tree_group root [])) f1.group =
      remmina_main_load_file_tree_find
        (files2.foldl (fun st f => remmina_main_load_file_tree_callback status_check
          network_states f st) (remmina_main_load_file_tree_group root [])) f2.group) := by
  have ha := fun g => find_callbacks status_check network_states g files h
    (remmina_main_load_file_tree_group root [])
  have hp := parents_are_folders_callbacks status_check network_states files _
    (parents_are_folders_of_rows _ (tree_group_rows root))
  refine ⟨ha, hp, ?_, ?_, ?_, ?_⟩
  · intro f
    rw [tree_callback_eq, ha]
  · intro f p hp
    rw [← ha] at hp
    exact remmina_main_load_file_tree_find_valid _ _ p hp
  · intro q n hn hfile
    have hrow := parents_are_folders_nodeAt q _ n hp hn
    obtain ⟨row, children⟩ := n
    rw [parents_are_folders_row] at hrow
    by_contra hc
    exact hfile (hrow.1 hc)
  · intro files2 h2 f1 f2 hg
    rw [ha, find_callbacks status_check network_states _ files2 h2, hg]

theorem attachment_independent_witness :
    (∀ f ∈ team_manager.files, f.filename ≠ none) ∧
    (∀ g, remmina_main_load_file_tree_find
        (team_manager.files.foldl (fun st f => remmina_main_load_file_tree_callback false
          [] f st) (remmina_main_load_file_tree_group team_tree [])) g =
      remmina_main_load_file_tree_find (remmina_main_load_file_tree_group team_tree []) g) ∧
    remmina_main_load_file_tree_find (remmina_main_load_file_tree_group team_tree [])
      (some (cstr "Work/Team")) = some [0, 0] ∧
    remmina_main_load_file_tree_find
      (team_manager.files.reverse.foldl (fun st f => remmina_main_load_file_tree_callback false
        [] f st) (remmina_main_load_file_tree_group team_tree []))
      (some (cstr "Work/Team")) = some [0, 0] :=
  ⟨by decide,
    (attachment_independent team_tree false [] team_manager.files (by decide)).1,
    by decide, by decide⟩

/-! ## The tree layout with its profile rows: lemmas -/

theorem attached_below_snoc (i : Nat) (att : List (List Nat × Row)) (p : List Nat) (r : Row) :
    attached_below i (att ++ [(p, r)]) =
      attached_below i att ++
        (match p with
          | j :: q => if j = i then [(q, r)] else []
          | [] => []) := by
  unfold attached_below
  rw [List.filterMap_append]
  congr 1
  cases p with
  | nil => rfl
  | cons j q =>
    by_cases h : j = i
    · simp [h]
    · simp [h]

theorem attached_here_snoc (att : List (List Nat × Row)) (p : List Nat) (r : Row) :
    attached_here (att ++ [(p, r)]) =
      attached_here att ++ (if p = [] then [TreeNode.mk r []] else []) := by
  unfold attached_here
  rw [List.filterMap_append]
  congr 1
  by_cases h : p = []
  · simp [h]
  · simp [h]

theorem tree_layout_from_congr (att att' : List (List Nat × Row)) :
    ∀ (l : List TreeNode) (i : Nat),
      (∀ k, i ≤ k → attached_below k att = attached_below k att') →
      tree_layout_from att i l = tree_layout_from att' i l
  | [], i => by
    intro _
    rw [tree_layout_from, tree_layout_from]
  | n :: ns, i => by
    intro h
    rw [tree_layout_from, tree_layout_from, h i (le_refl _),
      tree_layout_from_congr att att' ns (i + 1) (fun k hk => h k (by omega))]

theorem tree_layout_from_length (att : List (List Nat × Row)) :
    ∀ (l : List TreeNode) (i : Nat), (tree_layout_from att i l).length = l.length
  | [], i => by rw [tree_layout_from]
  | n :: ns, i => by
    rw [tree_layout_from, List.length_cons, List.length_cons,
      tree_layout_from_length att ns (i + 1)]

theorem tree_layout_from_getElem? (att : List (List Nat × Row)) :
    ∀ (l : List TreeNode) (i k : Nat),
      (tree_layout_from att i l)[k]? =
        (l[k]?).map (tree_layout_row (attached_below (i + k) att))
  | [], i, k => by rw [tree_layout_from]; simp
  | n :: ns, i, 0 => by rw [tree_layout_from]; simp
  | n :: ns, i, k + 1 => by
    rw [tree_layout_from]
    simp only [List.getElem?_cons_succ]
    rw [tree_layout_from_getElem? att ns (i + 1) k]
    have : i + 1 + k = i + (k + 1) := by omega
    rw [this]

/-- One more row, attached at or below the sibling of index `k`, changes that
sibling only. -/
theorem tree_layout_from_snoc (att : List (List Nat × Row)) (q : List Nat) (r : Row) :
    ∀ (l : List TreeNode) (i k : Nat) (n : TreeNode), l[k]? = some n →
      tree_layout_from (att ++ [((i + k) :: q, r)]) i l =
        (tree_layout_from att i l).set k
          (tree_layout_row (attached_below (i + k) att ++ [(q, r)]) n)
  | [], i, k, n => by simp
  | n0 :: ns, i, 0, n => by
    intro h
    simp only [List.getElem?_cons_zero, Option.some.injEq] at h
    subst h
    rw [tree_layout_from, tree_layout_from, List.set_cons_zero]
    have h1 : attached_below (i + 0) (att ++ [((i + 0) :: q, r)]) =
        attached_below (i + 0) att ++ [(q, r)] := by
      rw [attached_below_snoc]; simp
    simp only [Nat.add_zero] at h1 ⊢
    rw [h1]
    congr 1
    apply tree_layout_from_congr
    intro k hk
    rw [attached_below_snoc]
    have : ¬ i = k := by omega
    simp [this]
  | n0 :: ns, i, k + 1, n => by
    intro h
    simp only [List.getElem?_cons_succ] at h
    rw [tree_layout_from, tree_layout_from, List.set_cons_succ]
    have h1 : attached_below i (att ++ [((i + (k + 1)) :: q, r)]) = attached_below i att := by
      rw [attached_below_snoc]
      have : ¬ i + (k + 1) = i := by omega
      simp [this]
    rw [h1]
    have h2 := tree_layout_from_snoc att q r ns (i + 1) k n h
    have e : i + 1 + k = i + (k + 1) := by omega
    rw [e] at h2
    rw [h2]

theorem tree_layout_row_mk (att : List (List Nat × Row)) (row : Row) (ch : List TreeNode) :
    tree_layout_row att (.mk row ch) = .mk row (tree_layout att ch) := by
  rw [tree_layout_row, tree_layout]

/-- Appending a row as the last child of a folder row gives the layout with
that row attached there, after the rows attached before. -/
theorem tree_layout_snoc (r : Row) :
    ∀ (p : List Nat) (l : List TreeNode) (att : List (List Nat × Row)), validPath l p →
      tree_layout (att ++ [(p, r)]) l = (appendUnder (tree_layout att l) p r).1
  | [], l, att => by
    intro _
    rw [tree_layout, tree_layout, attached_here_snoc, appendUnder]
    have : tree_layout_from (att ++ [([], r)]) 0 l = tree_layout_from att 0 l := by
      apply tree_layout_from_congr
      intro k _
      rw [attached_below_snoc]
      simp
    rw [this]
    simp
  | j :: q, l, att => by
    intro hv
    rw [validPath] at hv
    cases hl : l[j]? with
    | none => simp [hl] at hv
    | some n =>
      obtain ⟨row, ch⟩ := n
      simp only [hl] at hv
      have hj : j < l.length := by
        by_contra hc
        rw [List.getElem?_eq_none (by omega)] at hl
        cases hl
      have hlen : j < (tree_layout_from att 0 l).length := by
        rw [tree_layout_from_length]; exact hj
      have hget : (tree_layout att l)[j]? = some (.mk row (tree_layout (attached_below j att) ch)) := by
        rw [tree_layout, List.getElem?_append_left hlen, tree_layout_from_getElem?, hl]
        simp [tree_layout_row_mk]
      rw [appendUnder, hget]
      simp only
      rw [← tree_layout_snoc r q ch (attached_below j att) hv]
      have h1 := tree_layout_from_snoc att q r l 0 j (.mk row ch) hl
      simp only [Nat.zero_add] at h1
      rw [tree_layout, h1, attached_here_snoc, tree_layout_row_mk]
      simp only [reduceCtorEq, if_false, List.append_nil]
      rw [show tree_layout att l = tree_layout_from att 0 l ++ attached_here att from rfl,
        List.set_append_left _ _ hlen]

theorem validPath_of_nodeAt :
    ∀ (p : List Nat) (s : TreeStore) (n : TreeNode), nodeAt s p = some n → validPath s p
  | [], _, _ => by intro _; trivial
  | [i], s, n => by
    intro h
    simp only [nodeAt] at h
    rw [validPath, h]
    cases n
    trivial
  | i :: j :: p, s, n => by
    intro h
    simp only [nodeAt] at h
    rw [validPath]
    cases hs : s[i]? with
    | none => simp [hs] at h
    | some m =>
      obtain ⟨row, ch⟩ := m
      simp only [hs] at h ⊢
      exact validPath_of_nodeAt (j :: p) ch n h

/-- The store after the callbacks of a list of profiles with filenames: the
layout of the rows attached so far with the new profile rows attached. -/
theorem tree_callbacks_eq_layout (status_check : Bool) (network_states : NetworkStates)
    (folders : TreeStore) :
    ∀ (files : List RemminaFile), (∀ f ∈ files, f.filename ≠ none) →
      ∀ (att : List (List Nat × Row)) (store : TreeStore),
      store = tree_layout att folders →
      (∀ g, remmina_main_load_file_tree_find store g =
        remmina_main_load_file_tree_find folders g) →
      files.foldl (fun st f => remmina_main_load_file_tree_callback status_check
          network_states f st) store =
        tree_layout (att ++ attachments status_check network_states folders files) folders
  | [], _, att, store => by
    intro hs _
    simp [attachments, hs]
  | f :: fs, hf, att, store => by
    intro hs hfind
    rw [List.foldl_cons]
    have hfile := hf f (List.mem_cons_self _ _)
    have hstep : remmina_main_load_file_tree_callback status_check network_states f store =
        tree_layout (att ++ [(attachment_point folders f,
          profile_row f (status_icon status_check network_states f))]) folders := by
      rw [tree_callback_eq, hfind, hs]
      have hv : validPath folders (attachment_point folders f) := by
        unfold attachment_point
        rw [← remmina_main_load_file_tree_find_eq]
        cases hp : remmina_main_load_file_tree_find folders f.group with
        | none => trivial
        | some p =>
          obtain ⟨m, hm, _⟩ := remmina_main_load_file_tree_find_valid folders f.group p hp
          exact validPath_of_nodeAt p folders m hm
      rw [tree_layout_snoc _ _ folders att hv]
      unfold gtk_tree_store_append attachment_point
      rw [remmina_main_load_file_tree_find_eq]
    have hfind' : ∀ g, remmina_main_load_file_tree_find
        (remmina_main_load_file_tree_callback status_check network_states f store) g =
        remmina_main_load_file_tree_find folders g := by
      intro g
      rw [find_callback status_check network_states f hfile store g, hfind]
    have := tree_callbacks_eq_layout status_check network_states folders fs
      (fun x hx => hf x (List.mem_cons_of_mem _ hx)) _ _ hstep hfind'
    rw [this]
    simp [attachments]

theorem tree_layout_nil : ∀ (l : List TreeNode) (i : Nat), tree_layout_from [] i l = l
  | [], i => by rw [tree_layout_from]
  | n :: ns, i => by
    obtain ⟨row, ch⟩ := n
    rw [tree_layout_from, tree_layout_nil ns (i + 1)]
    have h0 : attached_below i [] = [] := rfl
    rw [h0, tree_layout_row, tree_layout_nil ch 0]
    simp [attached_here]

/-! ## The two row builders and the tree layout: claims -/

/-- What the tree builder writes: one new row, the last child of the row the
group search finds, or the last top-level row when it finds none; every other
row stays. -/
theorem tree_callback_writes (status_check : Bool) (network_states : NetworkStates)
    (f : RemminaFile) (store : TreeStore) :
    (match remmina_main_load_file_tree_find store f.group with
      | some p =>
        ∃ folder, nodeAt store p = some folder ∧
          nodeAt (remmina_main_load_file_tree_callback status_check network_states f store) p =
            some (.mk folder.row (folder.children ++
              [.mk (profile_row f (status_icon status_check network_states f)) []]))
      | none =>
        remmina_main_load_file_tree_callback status_check network_states f store =
          store ++ [.mk (profile_row f (status_icon status_check network_states f)) []]) := by
  rw [tree_callback_eq]
  cases hf : remmina_main_load_file_tree_find store f.group with
  | none => rfl
  | some p =>
    obtain ⟨folder, hfolder, _⟩ := remmina_main_load_file_tree_find_valid store f.group p hf
    exact ⟨folder, hfolder, nodeAt_appendUnder _ p store folder hfolder⟩

theorem profile_row_eq_spec (status_check : Bool) (network_states : NetworkStates)
    (f : RemminaFile) :
    profile_row f (status_icon status_check network_states f) =
      { protocol := f.icon_name, name := f.name, group := f.group,
        server := f.server, plugin := f.protocol, date := f.datetime,
        filename := f.filename, labels := f.labels, notes := f.notes,
        status := some (status_icon_spec status_check
          (recorded_state network_states f.filename)) } := by
  simp only [profile_row, status_icon_eq_spec]

/-- Claim C30: the row builders of the list layout and of the tree layout
write the same row for a profile, whatever the recorded network states are:
each column holds the setting of the profile it is named after, and the
status column the icon that is empty when status checking is off and
otherwise green for a recorded state that starts with "Yes", red for one that
starts with "No" and grey in every other case. The list builder appends that
row to the list; the tree builder adds that row, and no other, as the last
child of the row the group search finds, or as the last top-level row when
the search finds none. -/
theorem row_builders_agree (status_check : Bool) (network_states : NetworkStates)
    (f : RemminaFile) (rows : List Row) (store : TreeStore) :
    remmina_main_load_file_list_callback status_check network_states f rows =
      rows ++ [{ protocol := f.icon_name, name := f.name, group := f.group,
                 server := f.server, plugin := f.protocol, date := f.datetime,
                 filename := f.filename, labels := f.labels, notes := f.notes,
                 status := some (status_icon_spec status_check
                   (recorded_state network_states f.filename)) }] ∧
    (match remmina_main_load_file_tree_find store f.group with
      | some p =>
        ∃ folder, nodeAt store p = some folder ∧
          nodeAt (remmina_main_load_file_tree_callback status_check network_states f store) p =
            some (.mk folder.row (folder.children ++
              [.mk { protocol := f.icon_name, name := f.name, group := f.group,
                     server := f.server, plugin := f.protocol, date := f.datetime,
                     filename := f.filename, labels := f.labels, notes := f.notes,
                     status := some (status_icon_spec status_check
                       (recorded_state network_states f.filename)) } []]))
      | none =>
        remmina_main_load_file_tree_callback status_check network_states f store =
          store ++ [.mk { protocol := f.icon_name, name := f.name, group := f.group,
                          server := f.server, plugin := f.protocol, date := f.datetime,
                          filename := f.filename, labels := f.labels, notes := f.notes,
                          status := some (status_icon_spec status_check
                            (recorded_state network_states f.filename)) } []]) ∧
    (tree_rows (remmina_main_load_file_tree_callback status_check network_states f store)).Perm
      ({ protocol := f.icon_name, name := f.name, group := f.group,
         server := f.server, plugin := f.protocol, date := f.datetime,
         filename := f.filename, labels := f.labels, notes := f.notes,
         status := some (status_icon_spec status_check
           (recorded_state network_states f.filename)) } :: tree_rows store) ∧
    status_icon_spec false (recorded_state sample_states (some (cstr "/home/u/p1.remmina"))) = [] ∧
    status_icon_spec true (recorded_state sample_states (some (cstr "/home/u/p1.remmina"))) =
      cstr "org.remmina.Remmina-status-green" ∧
    status_icon_spec true (recorded_state sample_states (some (cstr "/home/u/p2.remmina"))) =
      cstr "org.remmina.Remmina-status-red" ∧
    status_icon_spec true (recorded_state sample_states (some (cstr "/home/u/p3.remmina"))) =
      cstr "org.remmina.Remmina-status-grey" ∧
    status_icon_spec true (recorded_state sample_states (some (cstr "/home/u/p4.remmina"))) =
      cstr "org.remmina.Remmina-status-grey" := by
  have hrow := profile_row_eq_spec status_check network_states f
  refine ⟨?_, ?_, ?_, by decide, by decide, by decide, by decide, by decide⟩
  · rw [← hrow]
    rfl
  · rw [← hrow]
    exact tree_callback_writes status_check network_states f store
  · rw [← hrow]
    exact tree_callback_rows_perm status_check network_states f store

/-- Claim C15: for a hierarchy in which only the root is without data, and
profiles that have a filename, the model a reload builds in tree layout has
exactly the folder rows of the hierarchy, one per group node, in pre-order and
nested as in the hierarchy, each without filename and with the icon
"folder-symbolic"; and under every folder row and at the top level the
sub-folder rows come first, followed by the rows of the profiles whose
attachment point is there, in enumeration order. Each callback appends its
profile row as the last child of the row the group search finds, or as the
last top-level row. -/
theorem tree_layout_shape (fm : FileManager) (status_check : Bool)
    (network_states : NetworkStates) (h : below_root_data fm.group_tree = true)
    (hf : ∀ f ∈ fm.files, f.filename ≠ none) :
    remmina_main_load_file_tree_group fm.group_tree [] = folder_tree fm.group_tree ∧
    (∀ x ∈ tree_rows (folder_tree fm.group_tree),
      x.filename = none ∧ x.protocol = some folder_symbolic) ∧
    (load_files_newmodel fm status_check network_states REMMINA_VIEW_FILE_TREE).1 =
      FileModel.tree_store
        (tree_layout
          (attachments status_check network_states (folder_tree fm.group_tree) fm.files)
          (folder_tree fm.group_tree)) ∧
    (∀ (f : RemminaFile) (store : TreeStore),
      match remmina_main_load_file_tree_find store f.group with
      | some p =>
        ∃ folder, nodeAt store p = some folder ∧
          nodeAt (remmina_main_load_file_tree_callback status_check network_states f store) p =
            some (.mk folder.row (folder.children ++
              [.mk (profile_row f (status_icon status_check network_states f)) []]))
      | none =>
        remmina_main_load_file_tree_callback status_check network_states f store =
          store ++ [.mk (profile_row f (status_icon status_check network_states f)) []]) := by
  have hg := remmina_main_load_file_tree_group_eq fm.group_tree h
  refine ⟨hg, ?_, ?_, fun f store => tree_callback_writes status_check network_states f store⟩
  · intro x hx
    rw [← hg] at hx
    rcases traverse_rows fm.group_tree [] none x hx with h0 | ⟨d, rfl⟩
    · simp [tree_rows] at h0
    · exact ⟨rfl, rfl⟩
  · simp only [load_files_newmodel, if_true, remmina_file_manager_iterate]
    rw [hg]
    have := tree_callbacks_eq_layout status_check network_states (folder_tree fm.group_tree)
      fm.files hf [] (folder_tree fm.group_tree)
      (by rw [tree_layout, tree_layout_nil]; simp [attached_here]) (fun _ => rfl)
    rw [this]
    simp

theorem tree_layout_shape_witness :
    below_root_data team_manager.group_tree = true ∧
    (∀ f ∈ team_manager.files, f.filename ≠ none) ∧
    (load_files_newmodel team_manager false [] REMMINA_VIEW_FILE_TREE).1 =
      FileModel.tree_store
        (tree_layout (attachments false [] (folder_tree team_manager.group_tree)
          team_manager.files) (folder_tree team_manager.group_tree)) ∧
    attachments false [] (folder_tree team_manager.group_tree) team_manager.files =
      [([0], profile_row (profile_in "/home/u/p1.remmina" "Work") []),
       ([1], profile_row (profile_in "/home/u/p2.remmina" "Team") []),
       ([0, 0], profile_row (profile_in "/home/u/p3.remmina" "Work/Team") []),
       ([], profile_row (profile_in "/home/u/p4.remmina" "Home") [])] ∧
    tree_layout (attachments false [] (folder_tree team_manager.group_tree)
        team_manager.files) (folder_tree team_manager.group_tree) =
      [ .mk (folder_row { name := some (cstr "Work"), group := some (cstr "Work"),
                          datetime := none, labels := none })
          [ .mk (folder_row { name := some (cstr "Team"), group := some (cstr "Work/Team"),
                              datetime := none, labels := none })
              [ .mk (profile_row (profile_in "/home/u/p3.remmina" "Work/Team") []) [] ],
            .mk (profile_row (profile_in "/home/u/p1.remmina" "Work") []) [] ],
        .mk (folder_row { name := some (cstr "Team"), group := some (cstr "Team"),
                          datetime := none, labels := none })
          [ .mk (profile_row (profile_in "/home/u/p2.remmina" "Team") []) [] ],
        .mk (profile_row (profile_in "/home/u/p4.remmina" "Home") []) [] ] :=
  ⟨by decide, by decide,
    (tree_layout_shape team_manager false [] (by decide) (by decide)).2.2.1,
    by decide, by rfl⟩

end Remmina
